import Mathlib

/-!
# LZ4 compression kernel (`hw/lz4_compress.hpp`)

A shallow embedding of the LZ4 encoder core:

* `lz4CompressPart1`: the match divider, which splits a stream of 32-bit
  literal/match tokens into a literal-byte stream and a stream of 64-bit
  descriptors;
* `lz4CompressPart2`: the token encoder, a finite-state machine turning both
  streams into the LZ4 block bytes and their count;
* `lz4Compress`, `hlsLz4Core`, `hlsLz4`: the pipeline of a lane and the lanes
  of a batch; the stages and burst movers they call are not part of the file
  and are parameters here;
* `lz4CompressMM`: the block scheduler that partitions an input into 64 KiB
  blocks, calls `hlsLz4` batch by batch and fills the table of compressed
  sizes.

An `hls::stream` is a list: the head is the next element read, a write appends
at the end.  `read()` is a blocking read, so a read from an empty stream that
nobody will ever fill stops the function for good; this is the `blocked`
outcome below.  Machine integers are natural numbers, reduced modulo `2^w`
where the C++ type can wrap.
-/

namespace Lz4Hls

/-! ## Outcomes of a kernel function run on finite streams -/

/-- How a run ends: the function returned, it is stuck in a blocking read of an
empty stream, or the iteration budget of the model ran out while it was still
running.  Each case carries the state reached. -/
inductive Outcome (σ : Type) where
  | returned (s : σ)
  | blocked (s : σ)
  | running (s : σ)
  deriving DecidableEq, Repr

namespace Outcome

/-- The state an outcome carries, whatever the way the run ended. -/
def state {σ : Type} : Outcome σ → σ
  | returned s => s
  | blocked s => s
  | running s => s

/-- The function ran to its end. -/
def isReturned {σ : Type} : Outcome σ → Bool
  | returned _ => true
  | _ => false

end Outcome

/-! ## `lz4CompressPart1`: the match divider -/

/-- The literal byte of a token, `tmpEncodedValue.range(7, 0)`. -/
def tCh (v : Nat) : Nat := v % 256

/-- The match length of a token, `tmpEncodedValue.range(15, 8)`; 0 for a literal. -/
def tLen (v : Nat) : Nat := v / 256 % 256

/-- The match offset of a token, `tmpEncodedValue.range(31, 16)`. -/
def tOffset (v : Nat) : Nat := v / 65536 % 65536

/-- The 64-bit descriptor word `tmpValue` after its three range assignments:
bits 63..32 hold `lit_count`, bits 31..16 the offset, bits 15..0 the length. -/
def tmpValue (lit_count match_len match_offset : Nat) : Nat :=
  lit_count % 4294967296 * 4294967296 + match_offset % 65536 * 65536 + match_len % 65536

/-- Variables and streams of `lz4CompressPart1`.  `inStream` is what is still
unread; `lit_outStream` and `lenOffset_Stream` are what has been written. -/
structure Part1State where
  inStream : List Nat
  lit_outStream : List Nat
  lenOffset_Stream : List Nat
  max_lit_limit : List Nat
  nextEncodedValue : Nat
  i : Nat
  lit_count : Nat
  lit_count_flag : Nat
  deriving DecidableEq, Repr

/-- Lines 63-82: the three-way branch on the token held in `tmpEncodedValue`.
`uint8_t match_len = tLen - 4` wraps modulo 256.  `lit_count++` is reached with
`lit_count < MAX_LIT_COUNT` only, and `MAX_LIT_COUNT` is an `int`, so this
32-bit increment never wraps. -/
def divideToken (MAX_LIT_COUNT tmpEncodedValue : Nat) (s : Part1State) : Part1State :=
  if MAX_LIT_COUNT ≤ s.lit_count then
    { s with lit_count_flag := 1 }
  else if tLen tmpEncodedValue ≠ 0 then
    let match_len := (tLen tmpEncodedValue + 252) % 256
    { s with
      lenOffset_Stream :=
        s.lenOffset_Stream ++ [tmpValue s.lit_count match_len (tOffset tmpEncodedValue)]
      lit_count := 0 }
  else
    { s with
      lit_outStream := s.lit_outStream ++ [tCh tmpEncodedValue]
      lit_count := s.lit_count + 1 }

/-- Lines 83-86: how far a token moves the position `i`. -/
def advance (tmpEncodedValue : Nat) : Nat :=
  if tLen tmpEncodedValue ≠ 0 then tLen tmpEncodedValue else 1

/-- One pass through the body of the `lz4_divide` loop (lines 61-86), entered
with `i < input_size`: prefetch the next token unless the current one sits on
the last byte, split the current token, move `i` (a `uint32_t`). -/
def divideBody (MAX_LIT_COUNT input_size : Nat) (s : Part1State) : Outcome Part1State :=
  let tmpEncodedValue := s.nextEncodedValue
  if s.i < input_size - 1 then
    match s.inStream with
    | [] => .blocked s
    | v :: rest =>
      let s1 := divideToken MAX_LIT_COUNT tmpEncodedValue
        { s with nextEncodedValue := v, inStream := rest }
      .running { s1 with i := (s1.i + advance tmpEncodedValue) % 4294967296 }
  else
    let s1 := divideToken MAX_LIT_COUNT tmpEncodedValue s
    .running { s1 with i := (s1.i + advance tmpEncodedValue) % 4294967296 }

/-- The `lz4_divide` loop, `for (i = 0; i < input_size;)`, run for at most
`fuel` passes. -/
def lz4_divide (MAX_LIT_COUNT input_size : Nat) : Nat → Part1State → Outcome Part1State
  | 0, s => if s.i < input_size then .running s else .returned s
  | fuel + 1, s =>
    if s.i < input_size then
      match divideBody MAX_LIT_COUNT input_size s with
      | .running s1 => lz4_divide MAX_LIT_COUNT input_size fuel s1
      | o => o
    else .returned s

/-- Lines 88-102: the trailing literal run, the overflow flag and the end
sentinel. -/
def divideEpilogue (MAX_LIT_COUNT index : Nat) (s : Part1State) : Part1State :=
  let s1 :=
    if s.lit_count ≠ 0 then
      if s.lit_count = MAX_LIT_COUNT then
        { s with
          lit_count_flag := 1
          lenOffset_Stream := s.lenOffset_Stream ++ [tmpValue s.lit_count 777 777] }
      else
        { s with lenOffset_Stream := s.lenOffset_Stream ++ [tmpValue s.lit_count 0 0] }
    else s
  { s1 with
    max_lit_limit := s1.max_lit_limit.set index s1.lit_count_flag
    lenOffset_Stream := s1.lenOffset_Stream ++ [0] }

/-- The function `lz4CompressPart1<MAX_LIT_COUNT, PARALLEL_UNITS>`.  `inStream` is the whole
content of the input stream and `max_lit_limit` the caller's array.  Every
pass of the loop moves `i` by at least one, so `input_size` passes are all a
run without 32-bit wrap-around can need. -/
def lz4CompressPart1 (MAX_LIT_COUNT : Nat) (inStream : List Nat) (input_size : Nat)
    (max_lit_limit : List Nat) (index : Nat) : Outcome Part1State :=
  let s0 : Part1State :=
    { inStream := inStream, lit_outStream := [], lenOffset_Stream := [],
      max_lit_limit := max_lit_limit, nextEncodedValue := 0, i := 0,
      lit_count := 0, lit_count_flag := 0 }
  if input_size = 0 then .returned s0
  else
    match inStream with
    | [] => .blocked s0
    | v :: rest =>
      match lz4_divide MAX_LIT_COUNT input_size input_size
          { s0 with nextEncodedValue := v, inStream := rest } with
      | .returned s => .returned (divideEpilogue MAX_LIT_COUNT index s)
      | o => o

/-! ## `lz4CompressPart2`: the token encoder -/

/-- The states of the encoder's state machine. -/
inductive lz4CompressStates where
  | READ_AND_DECODE
  | GENERATE_TOKEN
  | WRITE_LIT_LEN
  | WRITE_MATCH_LEN
  | WRITE_LITERAL
  | WRITE_OFFSET0
  | WRITE_OFFSET1
  deriving DecidableEq, Repr

open lz4CompressStates

/-- Variables and streams of `lz4CompressPart2`.  The two input streams hold
what is still unread, the three output streams what has been written.  The
entries of `in_lit_inStream` are bytes (`uint8_t`). -/
structure Part2State where
  in_lit_inStream : List Nat
  in_lenOffset_Stream : List Nat
  outStream : List Nat
  endOfStream : List Bool
  compressdSizeStream : List Nat
  compressedSize : Nat
  next_state : lz4CompressStates
  lit_length_reg : Nat
  match_length_reg : Nat
  write_lit_length_reg : Nat
  match_offset_reg : Nat
  lit_ending_reg : Bool
  extra_match_len_reg : Bool
  deriving DecidableEq, Repr

/-- Lines 234-238: `outStream << outValue; endOfStream << 0; compressedSize++`,
for an `outValue` that is already a byte. -/
def streamWrite (outValue : Nat) (s : Part2State) : Part2State :=
  { s with
    outStream := s.outStream ++ [outValue]
    endOfStream := s.endOfStream ++ [false]
    compressedSize := (s.compressedSize + 1) % 4294967296 }

/-- One pass through the body of `lz4_compress_while_loop` (lines 146-238):
`running` when the loop goes on, `returned` at the `break`. -/
def fsmStep (s : Part2State) : Outcome Part2State :=
  match s.next_state with
  | READ_AND_DECODE =>
    match s.in_lenOffset_Stream with
    | [] => .blocked s
    | lenOffset_val :: rest =>
      let s := { s with in_lenOffset_Stream := rest }
      if lenOffset_val = 0 then .returned s
      else
        let current_lit_len := lenOffset_val / 4294967296 % 4294967296
        let current_match_len := lenOffset_val % 65536
        let current_match_offset := lenOffset_val / 65536 % 65536
        .running { s with
          lit_length_reg := current_lit_len % 65536
          match_length_reg := current_match_len
          match_offset_reg := current_match_offset
          lit_ending_reg :=
            if current_match_len = 777 ∧ current_match_offset = 777 then true
            else decide (current_match_offset = 0 ∧ current_match_len = 0)
          next_state := GENERATE_TOKEN }
  | GENERATE_TOKEN =>
    let lit_len_token := if s.lit_length_reg < 15 then s.lit_length_reg % 256 else 15
    let match_len_token := if s.match_length_reg < 15 then s.match_length_reg % 256 else 15
    let outValue := lit_len_token % 16 * 16 + match_len_token % 16
    let s := { s with write_lit_length_reg := s.lit_length_reg }
    let s :=
      if 15 ≤ s.lit_length_reg then
        { s with lit_length_reg := s.lit_length_reg - 15, next_state := WRITE_LIT_LEN }
      else
        { s with next_state := if 0 < s.write_lit_length_reg then WRITE_LITERAL else WRITE_OFFSET0 }
    let s :=
      if 15 ≤ s.match_length_reg then
        { s with match_length_reg := s.match_length_reg - 15, extra_match_len_reg := true }
      else
        { s with extra_match_len_reg := false }
    .running (streamWrite outValue s)
  | WRITE_LIT_LEN =>
    if 255 ≤ s.lit_length_reg then
      .running (streamWrite 255 { s with lit_length_reg := s.lit_length_reg - 255 })
    else
      .running (streamWrite (s.lit_length_reg % 256)
        { s with next_state := if 0 < s.write_lit_length_reg then WRITE_LITERAL else WRITE_OFFSET0 })
  | WRITE_LITERAL =>
    match s.in_lit_inStream with
    | [] => .blocked s
    | outValue :: rest =>
      let s := { s with
        in_lit_inStream := rest
        write_lit_length_reg := (s.write_lit_length_reg + 65535) % 65536 }
      let s :=
        if s.write_lit_length_reg = 0 then
          { s with next_state := if s.lit_ending_reg then READ_AND_DECODE else WRITE_OFFSET0 }
        else s
      .running (streamWrite outValue s)
  | WRITE_OFFSET0 =>
    .running (streamWrite (s.match_offset_reg % 256) { s with next_state := WRITE_OFFSET1 })
  | WRITE_OFFSET1 =>
    .running (streamWrite (s.match_offset_reg / 256 % 256)
      { s with next_state := if s.extra_match_len_reg then WRITE_MATCH_LEN else READ_AND_DECODE })
  | WRITE_MATCH_LEN =>
    if 255 ≤ s.match_length_reg then
      .running (streamWrite 255 { s with match_length_reg := s.match_length_reg - 255 })
    else
      .running (streamWrite (s.match_length_reg % 256) { s with next_state := READ_AND_DECODE })

/-- The loop `while (true)` of the encoder, run for at most `fuel` passes. -/
def fsmRun : Nat → Part2State → Outcome Part2State
  | 0, s => .running s
  | fuel + 1, s =>
    match fsmStep s with
    | .running s1 => fsmRun fuel s1
    | o => o

/-- Lines 241-243: the size, the terminator byte and its end-of-stream mark. -/
def encodeEpilogue (s : Part2State) : Part2State :=
  { s with
    compressdSizeStream := s.compressdSizeStream ++ [s.compressedSize]
    outStream := s.outStream ++ [0]
    endOfStream := s.endOfStream ++ [true] }

/-- The state of `lz4CompressPart2` on entry: the registers are zero, nothing
has been written. -/
def part2Init (in_lit_inStream in_lenOffset_Stream : List Nat) : Part2State :=
  { in_lit_inStream := in_lit_inStream, in_lenOffset_Stream := in_lenOffset_Stream,
    outStream := [], endOfStream := [], compressdSizeStream := [], compressedSize := 0,
    next_state := READ_AND_DECODE, lit_length_reg := 0, match_length_reg := 0,
    write_lit_length_reg := 0, match_offset_reg := 0, lit_ending_reg := false,
    extra_match_len_reg := false }

/-- The function `lz4CompressPart2`, its main loop run for at most `fuel` passes.  The two
lists are the whole contents of the literal and descriptor streams. -/
def lz4CompressPart2 (fuel : Nat) (in_lit_inStream in_lenOffset_Stream : List Nat)
    (input_size : Nat) : Outcome Part2State :=
  let s0 := part2Init in_lit_inStream in_lenOffset_Stream
  if input_size = 0 then
    let s1 := { s0 with compressdSizeStream := [0], outStream := [0], endOfStream := [true] }
    match in_lenOffset_Stream with
    | [] => .blocked s1
    | _ :: rest => .returned { s1 with in_lenOffset_Stream := rest }
  else
    match fsmRun fuel s0 with
    | .returned s => .returned (encodeEpilogue s)
    | o => o

/-! ## `lz4CompressMM`: the block scheduler -/

/-- The array or table `a` after the assignment `a[j] = v`. -/
def setAt {α : Type} (a : Nat → α) (j : Nat) (v : α) : Nat → α :=
  fun x => if x = j then v else a x

/-- Variables and memory of `lz4CompressMM`.  The per-lane arrays are
functions of the lane number; `compressd_size` gives, for each index of the
caller's table, the value written there, `none` for an index not written;
`world` stands for the buffers `in` and `out`, which only `hlsLz4` touches. -/
structure MMState (W : Type) where
  world : W
  compressd_size : Nat → Option Nat
  block_idx : Nat
  readBlockSize : Nat
  small_block : Nat → Bool
  input_block_size : Nat → Nat
  input_idx : Nat → Nat
  output_idx : Nat → Nat
  output_block_size : Nat → Nat
  max_lit_limit : Nat → Nat
  small_block_inSize : Nat → Nat

/-- The call `hlsLz4(in, out, input_idx, output_idx, input_block_size,
output_block_size, max_lit_limit)` as the scheduler sees it: from the buffers
`in` and `out` and the five arrays to the outcome of the call, which carries
the buffers, `output_block_size` and `max_lit_limit` as the call leaves them.
The call need not return: a lane stuck in a read of an empty stream keeps it
from returning. -/
abbrev LaneRun (W : Type) : Type :=
  W → (Nat → Nat) → (Nat → Nat) → (Nat → Nat) → (Nat → Nat) → (Nat → Nat) →
    Outcome (W × (Nat → Nat) × (Nat → Nat))

/-- Lines 413-414: the size of the next block, `block_length` or what is left
of the input (32-bit arithmetic). -/
def inBlockSizeOf (input_size readBlockSize : Nat) : Nat :=
  if input_size < (readBlockSize + 65536) % 4294967296 then
    (input_size + 4294967296 - readBlockSize) % 4294967296
  else 65536

/-- Lines 412-432: the body of the loop over the lanes `j` of one batch. -/
def classifyLane {W : Type} (MIN_B_SIZE input_size i nblocks j : Nat) (s : MMState W) :
    MMState W :=
  let s :=
    if j < nblocks then
      let inBlockSize := inBlockSizeOf input_size s.readBlockSize
      if inBlockSize < MIN_B_SIZE then
        { s with
          small_block := setAt s.small_block j true
          small_block_inSize := setAt s.small_block_inSize j inBlockSize
          input_block_size := setAt s.input_block_size j 0
          input_idx := setAt s.input_idx j 0 }
      else
        { s with
          small_block := setAt s.small_block j false
          input_block_size := setAt s.input_block_size j inBlockSize
          readBlockSize := (s.readBlockSize + inBlockSize) % 4294967296
          input_idx := setAt s.input_idx j ((i + j) % 4294967296 * 65536 % 4294967296)
          output_idx := setAt s.output_idx j ((i + j) % 4294967296 * 65536 % 4294967296) }
    else
      { s with
        input_block_size := setAt s.input_block_size j 0
        input_idx := setAt s.input_idx j 0 }
  { s with
    output_block_size := setAt s.output_block_size j 0
    max_lit_limit := setAt s.max_lit_limit j 0 }

/-- The loop `for (j = 0; j < NUM_BLOCK; j++)`, its first `n` passes. -/
def classifyLanes {W : Type} (MIN_B_SIZE input_size i nblocks : Nat) :
    Nat → MMState W → MMState W
  | 0, s => s
  | n + 1, s =>
    classifyLane MIN_B_SIZE input_size i nblocks n
      (classifyLanes MIN_B_SIZE input_size i nblocks n s)

/-- Lines 440-449: the body of the loop over the blocks `k` of one batch. -/
def recordLane {W : Type} (k : Nat) (s : MMState W) : MMState W :=
  let s :=
    if s.max_lit_limit k ≠ 0 then
      { s with compressd_size := setAt s.compressd_size s.block_idx (some (s.input_block_size k)) }
    else
      { s with compressd_size := setAt s.compressd_size s.block_idx (some (s.output_block_size k)) }
  let s :=
    if s.small_block k = true then
      { s with compressd_size := setAt s.compressd_size s.block_idx (some (s.small_block_inSize k)) }
    else s
  { s with block_idx := (s.block_idx + 1) % 4294967296 }

/-- The loop `for (k = 0; k < nblocks; k++)`, its first `n` passes. -/
def recordLanes {W : Type} : Nat → MMState W → MMState W
  | 0, s => s
  | n + 1, s => recordLane n (recordLanes n s)

/-- Lines 406-409: the number of blocks of the batch that starts at block `i`. -/
def nblocksOf (NUM_BLOCK no_blocks i : Nat) : Nat :=
  if no_blocks < (i + NUM_BLOCK) % 4294967296 then (no_blocks + 4294967296 - i) % 4294967296
  else NUM_BLOCK

/-- The variables after the call of `hlsLz4` (lines 436-437) when the call has
returned: the buffers, `output_block_size` and `max_lit_limit` are as the call
has left them. -/
def afterCall {W : Type} (run : LaneRun W) (s : MMState W) : MMState W :=
  let r := (run s.world s.input_idx s.output_idx s.input_block_size s.output_block_size
    s.max_lit_limit).state
  { s with world := r.1, output_block_size := r.2.1, max_lit_limit := r.2.2 }

/-- Lines 406-450: one pass of the loop over the batches, for a pass in which
the call of `hlsLz4` returns. -/
def pass {W : Type} (run : LaneRun W) (NUM_BLOCK MIN_B_SIZE input_size no_blocks i : Nat)
    (s : MMState W) : MMState W :=
  let nblocks := nblocksOf NUM_BLOCK no_blocks i
  recordLanes nblocks
    (afterCall run (classifyLanes MIN_B_SIZE input_size i nblocks NUM_BLOCK s))

/-- The loop `for (i = 0; i < no_blocks; i += NUM_BLOCK)` (lines 405-451), run
for at most `fuel` passes.  A pass classifies its lanes and calls `hlsLz4`;
when the call has returned the loop over `k` records the sizes and the next
pass follows; when the call does not return the scheduler stays in it, with
its variables as they were before the call. -/
def batchLoop {W : Type} (run : LaneRun W) (NUM_BLOCK MIN_B_SIZE input_size no_blocks : Nat) :
    Nat → Nat → MMState W → Outcome (MMState W)
  | 0, i, s => if i < no_blocks then .running s else .returned s
  | fuel + 1, i, s =>
    if i < no_blocks then
      let nblocks := nblocksOf NUM_BLOCK no_blocks i
      let c := classifyLanes MIN_B_SIZE input_size i nblocks NUM_BLOCK s
      match run c.world c.input_idx c.output_idx c.input_block_size c.output_block_size
          c.max_lit_limit with
      | .returned r =>
        batchLoop run NUM_BLOCK MIN_B_SIZE input_size no_blocks fuel
          ((i + NUM_BLOCK) % 4294967296)
          (recordLanes nblocks
            { c with world := r.1, output_block_size := r.2.1, max_lit_limit := r.2.2 })
      | .blocked _ => .blocked c
      | .running _ => .running c
    else .returned s

/-- Line 387: `no_blocks = (input_size - 1) / block_length + 1` in 32-bit
unsigned arithmetic. -/
def noBlocks (input_size : Nat) : Nat :=
  (input_size + 4294967296 - 1) % 4294967296 / 65536 + 1

/-! ## The encoder seen from outside: descriptor fields and the bytes written -/

/-- The literal run length of a descriptor, `lenOffset_val.range(63, 32)`. -/
def descLit (d : Nat) : Nat := d / 4294967296 % 4294967296

/-- The match length of a descriptor, `lenOffset_val.range(15, 0)`. -/
def descMatchLen (d : Nat) : Nat := d % 65536

/-- The match offset of a descriptor, `lenOffset_val.range(31, 16)`. -/
def descOffset (d : Nat) : Nat := d / 65536 % 65536

/-- The value `lit_ending_reg` takes for a descriptor (lines 167-170). -/
def litEnding (d : Nat) : Bool :=
  if descMatchLen d = 777 ∧ descOffset d = 777 then true
  else decide (descOffset d = 0 ∧ descMatchLen d = 0)

/-- The extension bytes of a length field: none below 15, otherwise
`(n - 15) / 255` bytes 255 and then the byte `(n - 15) % 255`. -/
def escape (n : Nat) : List Nat :=
  if n < 15 then [] else List.replicate ((n - 15) / 255) 255 ++ [(n - 15) % 255]

/-- The token byte of a descriptor with literal run length `L` and match length `M`. -/
def tokenByte (L M : Nat) : Nat := 16 * min L 15 + min M 15

/-- The bytes of the length extension loops for a register value `n`. -/
def lenExt (n : Nat) : List Nat := List.replicate (n / 255) 255 ++ [n % 255]

/-- The bytes the encoder writes for the descriptor word `d` when `ls` are the
literal bytes it takes from the literal stream. -/
def seqBytes (d : Nat) (ls : List Nat) : List Nat :=
  tokenByte (descLit d % 65536) (descMatchLen d) ::
    (escape (descLit d % 65536) ++ ls ++
      if 0 < descLit d % 65536 ∧ litEnding d = true then []
      else [descOffset d % 256, descOffset d / 256] ++ escape (descMatchLen d))

/-- The literal bytes a list of descriptor words takes from the literal stream. -/
def litNeed (ds : List Nat) : Nat := (ds.map (fun d => descLit d % 65536)).sum

/-- The bytes the encoder writes for a list of descriptor words, the literal
stream being `lits`. -/
def layout : List Nat → List Nat → List Nat
  | [], _ => []
  | d :: ds, lits =>
    seqBytes d (lits.take (descLit d % 65536)) ++ layout ds (lits.drop (descLit d % 65536))

/-- Writing `bytes` as data bytes, one `streamWrite` each. -/
def emit (bytes : List Nat) (s : Part2State) : Part2State :=
  { s with
    outStream := s.outStream ++ bytes
    endOfStream := s.endOfStream ++ bytes.map (fun _ => false)
    compressedSize := (s.compressedSize + bytes.length) % 4294967296 }

/-- The streams of the encoder and its byte counter, without the registers. -/
def Part2State.io (s : Part2State) :
    List Nat × List Nat × List Nat × List Bool × List Nat × Nat :=
  (s.in_lit_inStream, s.in_lenOffset_Stream, s.outStream, s.endOfStream,
    s.compressdSizeStream, s.compressedSize)

/-- The state `t` is reached from `s` after some passes of the loop. -/
def Reaches (s t : Part2State) : Prop := ∃ k, fsmRun k s = .running t

/-- What holds of the encoder's output streams all along the main loop: one
end-of-stream mark `0` per byte, and a counter equal to the byte count modulo
`2^32`. -/
def CountInv (s : Part2State) : Prop :=
  s.endOfStream = s.outStream.map (fun _ => false) ∧
  s.compressedSize = s.outStream.length % 4294967296 ∧
  s.compressdSizeStream = []

/-! ## Descriptor streams as lists of triples -/

/-- Modelled from the spec: the length extension of the LZ4 block format, which
the repository has no decoder for.  Bytes are added to `acc` up to and
including the first byte that is not 255. -/
def readLenExt : List Nat → Nat → Option (Nat × List Nat)
  | [], _ => none
  | b :: bs, acc => if b = 255 then readLenExt bs (acc + 255) else some (acc + b, bs)

/-- Modelled from the spec: a length field of the LZ4 block format, a token
nibble followed by extension bytes when the nibble is 15. -/
def readLen (nib : Nat) (input : List Nat) : Option (Nat × List Nat) :=
  if nib = 15 then readLenExt input 15 else some (nib, input)

/-- Modelled from the spec: the match copy of an LZ4 decoder, `n` bytes taken
one at a time from `offset` positions before the end of the output. -/
def copyMatch (offset : Nat) : Nat → List Nat → List Nat
  | 0, out => out
  | n + 1, out => copyMatch offset n (out ++ [out.getD (out.length - offset) 0])

/-- Modelled from the spec: the sequence loop of an LZ4 block decoder (token,
length extensions, literals, 16-bit little-endian offset, match length + 4),
which the repository does not contain.  The block ends with the input; an
offset of 0 or beyond the output so far, and a truncated sequence, are
errors. -/
def lz4DecodeLoop : Nat → List Nat → List Nat → Option (List Nat)
  | _, [], out => some out
  | 0, _ :: _, _ => none
  | fuel + 1, token :: rest, out =>
    match readLen (token / 16) rest with
    | none => none
    | some (litLen, rest1) =>
      if rest1.length < litLen then none
      else
        match rest1.drop litLen with
        | [] => some (out ++ rest1.take litLen)
        | [_] => none
        | lo :: hi :: rest2 =>
          if lo + 256 * hi = 0 ∨ (out ++ rest1.take litLen).length < lo + 256 * hi then none
          else
            match readLen (token % 16) rest2 with
            | none => none
            | some (matchLen, rest3) =>
              lz4DecodeLoop fuel rest3
                (copyMatch (lo + 256 * hi) (matchLen + 4) (out ++ rest1.take litLen))

/-- Modelled from the spec: an LZ4 block decoder; every sequence takes at
least one input byte, so one pass per input byte is enough. -/
def lz4Decode (input : List Nat) : Option (List Nat) :=
  lz4DecodeLoop input.length input []

/-! ## Token streams: what the divider is expected to write -/

/-- The state of `lz4CompressPart1` on entry. -/
def part1Init (inStream max_lit_limit : List Nat) : Part1State :=
  { inStream := inStream, lit_outStream := [], lenOffset_Stream := [],
    max_lit_limit := max_lit_limit, nextEncodedValue := 0, i := 0,
    lit_count := 0, lit_count_flag := 0 }

/-- All tokens of a list put through `divideToken`, in order. -/
def divideTokens (MAX_LIT_COUNT : Nat) (toks : List Nat) (s : Part1State) : Part1State :=
  toks.foldl (fun s v => divideToken MAX_LIT_COUNT v s) s

/-- What `lz4CompressPart1` has written, with its literal counter and flag. -/
def Part1State.written (s : Part1State) : List Nat × List Nat × List Nat × Nat × Nat :=
  (s.lit_outStream, s.lenOffset_Stream, s.max_lit_limit, s.lit_count, s.lit_count_flag)

/-- What the divider has written and set when it returns on the tokens `toks`. -/
def divided (MAX_LIT_COUNT : Nat) (toks max_lit_limit : List Nat) (index : Nat) : Part1State :=
  divideEpilogue MAX_LIT_COUNT index (divideTokens MAX_LIT_COUNT toks (part1Init [] max_lit_limit))

/-- The literal bytes of the literal tokens of a token list, in order. -/
def litBytes (toks : List Nat) : List Nat :=
  (toks.filter (fun v => tLen v = 0)).map tCh

/-- The length of the longest run of consecutive literal tokens, the run under
way at the head of the list having `k` tokens already. -/
def longestRun : Nat → List Nat → Nat
  | k, [] => k
  | k, v :: vs => if tLen v = 0 then longestRun (k + 1) vs else max k (longestRun 0 vs)

/-- The descriptor stream of a token list, `k` literal tokens being pending:
one descriptor (literals since the previous match, match length - 4, offset)
per match token, then `(k, 0, 0)` if `k > 0` literal tokens end the list, then
the all-zero sentinel. -/
def expectedDescs : Nat → List Nat → List Nat
  | k, [] => (if 0 < k then [tmpValue k 0 0] else []) ++ [0]
  | k, v :: vs =>
    if tLen v = 0 then expectedDescs (k + 1) vs
    else tmpValue k (tLen v - 4) (tOffset v) :: expectedDescs 0 vs

/-- The descriptor words of a token list before the sentinel, `k` literal
tokens being pending. -/
def tokenDescs : Nat → List Nat → List Nat
  | k, [] => if 0 < k then [tmpValue k 0 0] else []
  | k, v :: vs =>
    if tLen v = 0 then tokenDescs (k + 1) vs
    else tmpValue k (tLen v - 4) (tOffset v) :: tokenDescs 0 vs

/-- The tokens up to and including the one that completes the first run of
`MAX_LIT_COUNT` consecutive literal tokens (all tokens if there is no such
run), `k` literal tokens being pending. -/
def keptTokens (MAX_LIT_COUNT : Nat) : Nat → List Nat → List Nat
  | _, [] => []
  | k, v :: vs =>
    if MAX_LIT_COUNT ≤ k then []
    else v :: keptTokens MAX_LIT_COUNT (if tLen v = 0 then k + 1 else 0) vs

/-- What holds of the divider all along: the literal counter is at most `M`
and every descriptor written so far has a literal run length below `M`. -/
def RunInv (M : Nat) (s : Part1State) : Prop :=
  s.lit_count ≤ M ∧ ∀ d ∈ s.lenOffset_Stream, descLit d < M

/-- The LZ4 block bytes of a token list, `pend` being the literal bytes that
wait for their record. -/
def encTokens : List Nat → List Nat → List Nat
  | pend, [] => if pend = [] then [] else tokenByte pend.length 0 :: (escape pend.length ++ pend)
  | pend, v :: vs =>
    if tLen v = 0 then encTokens (pend ++ [tCh v]) vs
    else
      tokenByte pend.length (tLen v - 4) ::
        (escape pend.length ++ pend ++ [tOffset v % 256, tOffset v / 256] ++
          escape (tLen v - 4)) ++ encTokens [] vs

/-- The bytes a token list stands for, after the bytes `out`: a literal token
adds its byte, a match token copies `tLen` bytes from `tOffset` back. -/
def expand : List Nat → List Nat → List Nat
  | out, [] => out
  | out, v :: vs =>
    if tLen v = 0 then expand (out ++ [tCh v]) vs
    else expand (copyMatch (tOffset v) (tLen v) out) vs

/-- Every match token of the list, met after the bytes `out`, has a length of
at least 4 and an offset between 1 and the number of bytes before it. -/
def matchesInRange : List Nat → List Nat → Bool
  | _, [] => true
  | out, v :: vs =>
    if tLen v = 0 then matchesInRange (out ++ [tCh v]) vs
    else decide (4 ≤ tLen v) && decide (1 ≤ tOffset v) && decide (tOffset v ≤ out.length) &&
      matchesInRange (copyMatch (tOffset v) (tLen v) out) vs

/-- The token list is a valid parse of `block` from position `p` on: a literal
token carries the byte of the block at its position; a match token has a
length between 4 and 255 and an offset between 1 and its position, and every
byte it covers equals the byte `offset` positions earlier; the tokens end at
the end of the block. -/
def validParseAt (block : List Nat) : Nat → List Nat → Bool
  | p, [] => decide (p = block.length)
  | p, v :: vs =>
    (if tLen v = 0 then decide (block[p]? = some (tCh v))
     else decide (4 ≤ tLen v) && decide (tLen v ≤ 255) && decide (1 ≤ tOffset v) &&
       decide (tOffset v ≤ p) &&
       (List.range (tLen v)).all (fun j => decide (block[p + j]? = block[p + j - tOffset v]?))) &&
    validParseAt block (p + advance v) vs

/-! ## The scheduler seen from outside: block sizes and resolved sizes -/

/-- The value of `readBlockSize` after the first `k` lanes of a batch that
starts with `readBlockSize = r`, all of them lanes with a block: a small block
leaves it as it is (lines 415-423). -/
def readAfter (MIN_B_SIZE input_size r : Nat) : Nat → Nat
  | 0 => r
  | k + 1 =>
    if inBlockSizeOf input_size (readAfter MIN_B_SIZE input_size r k) < MIN_B_SIZE then
      readAfter MIN_B_SIZE input_size r k
    else
      (readAfter MIN_B_SIZE input_size r k +
        inBlockSizeOf input_size (readAfter MIN_B_SIZE input_size r k)) % 4294967296

/-- The original size `inBlockSize` of the block on lane `k` of a batch that
starts with `readBlockSize = r`. -/
def laneSize (MIN_B_SIZE input_size r k : Nat) : Nat :=
  inBlockSizeOf input_size (readAfter MIN_B_SIZE input_size r k)

/-- The size the loop over `k` records for lane `k` (lines 440-448). -/
def resolved {W : Type} (s : MMState W) (k : Nat) : Nat :=
  if s.small_block k = true then s.small_block_inSize k
  else if s.max_lit_limit k ≠ 0 then s.input_block_size k
  else s.output_block_size k

/-! ## `lz4Compress`: the divider and the encoder as a pair -/

/-- The function `lz4Compress<MAX_LIT_COUNT, PARALLEL_UNITS>` (lines 277-288): the divider and
the encoder, joined by the two local streams `lit_outStream` and
`lenOffset_Stream`, both empty at first.  The encoder reads only what the
divider writes, so the run of the pair is the run of the divider followed by
the run of the encoder on what the two streams hold; the depths of the
channels are not modelled.  The pair has returned when both have; it is stuck
when one of them is stuck in a read.  `fuel` bounds the passes of the
encoder's loop. -/
def lz4Compress (MAX_LIT_COUNT fuel : Nat) (inStream max_lit_limit : List Nat)
    (input_size index : Nat) : Outcome (Part1State × Part2State) :=
  match lz4CompressPart1 MAX_LIT_COUNT inStream input_size max_lit_limit index with
  | .returned s1 =>
    match lz4CompressPart2 fuel s1.lit_outStream s1.lenOffset_Stream input_size with
    | .returned s2 => .returned (s1, s2)
    | .blocked s2 => .blocked (s1, s2)
    | .running s2 => .running (s1, s2)
  | .blocked s1 =>
    match lz4CompressPart2 fuel s1.lit_outStream s1.lenOffset_Stream input_size with
    | .running s2 => .running (s1, s2)
    | o => .blocked (s1, o.state)
  | .running s1 =>
    .running (s1, (lz4CompressPart2 fuel s1.lit_outStream s1.lenOffset_Stream input_size).state)

/-- The descriptor words the divider writes before the sentinel for a token
list, `k` literal tokens being pending, the overflow guard included: a token
met with `MAX_LIT_COUNT` literals pending is dropped, a match token gives
(pending literals, `tLen - 4` as a `uint8_t`, offset), and a pending run at
the end gives its descriptor, marked 777/777 when it has `MAX_LIT_COUNT`
literals. -/
def dividerDescs (MAX_LIT_COUNT : Nat) : Nat → List Nat → List Nat
  | k, [] =>
    if k = 0 then [] else if k = MAX_LIT_COUNT then [tmpValue k 777 777] else [tmpValue k 0 0]
  | k, v :: vs =>
    if MAX_LIT_COUNT ≤ k then dividerDescs MAX_LIT_COUNT k vs
    else if tLen v ≠ 0 then
      tmpValue k ((tLen v + 252) % 256) (tOffset v) :: dividerDescs MAX_LIT_COUNT 0 vs
    else dividerDescs MAX_LIT_COUNT (k + 1) vs

/-- The number of bytes the encoder writes for the descriptor word `d` when the
literal stream holds the bytes it asks for. -/
def descCost (d : Nat) : Nat :=
  1 + (escape (descLit d % 65536)).length + descLit d % 65536 +
    if 0 < descLit d % 65536 ∧ litEnding d = true then 0
    else 2 + (escape (descMatchLen d)).length

/-- A token stream for a block of 65536 bytes `a`: `j` times 4095 literal
tokens `a` and a match token of length 4 at offset 1, then 4051 literal
tokens `a`.  With `j = 15` it covers 65536 bytes. -/
def slotTokens : Nat → List Nat
  | 0 => List.replicate 4051 97
  | j + 1 => List.replicate 4095 97 ++ 66560 :: slotTokens j

/-! ## The passes of the scheduler's loop over the batches -/

/-- The state in which `lz4CompressMM` enters pass number `m` of its loop over
the batches, the pass with `i = m * NUM_BLOCK`, in a run in which the calls of
`hlsLz4` in the passes before have returned: the memory on entry for `m = 0`,
and the state the pass before has left otherwise. -/
def batchStart {W : Type} (run : LaneRun W) (NUM_BLOCK MIN_B_SIZE : Nat)
    (mem : MMState W) (input_size : Nat) : Nat → MMState W
  | 0 => { mem with compressd_size := fun _ => none, block_idx := 0, readBlockSize := 0 }
  | m + 1 =>
    pass run NUM_BLOCK MIN_B_SIZE input_size (noBlocks input_size) (m * NUM_BLOCK)
      (batchStart run NUM_BLOCK MIN_B_SIZE mem input_size m)

/-- The state of pass number `m` after its loop over the lanes `j`, before the
call of `hlsLz4`. -/
def classified {W : Type} (run : LaneRun W) (NUM_BLOCK MIN_B_SIZE : Nat)
    (mem : MMState W) (input_size m : Nat) : MMState W :=
  classifyLanes MIN_B_SIZE input_size (m * NUM_BLOCK)
    (nblocksOf NUM_BLOCK (noBlocks input_size) (m * NUM_BLOCK)) NUM_BLOCK
    (batchStart run NUM_BLOCK MIN_B_SIZE mem input_size m)

/-- The state of pass number `m` after the call of `hlsLz4`, for a call that
has returned. -/
def called {W : Type} (run : LaneRun W) (NUM_BLOCK MIN_B_SIZE : Nat)
    (mem : MMState W) (input_size m : Nat) : MMState W :=
  afterCall run (classified run NUM_BLOCK MIN_B_SIZE mem input_size m)

/-- The number of passes of the loop over the batches. -/
def numBatches (NUM_BLOCK input_size : Nat) : Nat :=
  (noBlocks input_size + NUM_BLOCK - 1) / NUM_BLOCK

/-- The original size `inBlockSize` of block `b`, counted from the start of
the input. -/
def blockSize (MIN_B_SIZE input_size b : Nat) : Nat := laneSize MIN_B_SIZE input_size 0 b

/-! ## The stores into the table of sizes -/

/-- The stores into `compressd_size` made by pass `k` of the loop over the
blocks of a batch (lines 440-448), in program order, as pairs of an index and
a value: the store of line 441 or 443, then, for a small block, the store of
line 447 to the same index. -/
def recordStores {W : Type} (k : Nat) (s : MMState W) : List (Nat × Nat) :=
  (s.block_idx,
    if s.max_lit_limit k ≠ 0 then s.input_block_size k else s.output_block_size k) ::
    (if s.small_block k = true then [(s.block_idx, s.small_block_inSize k)] else [])

/-- The stores of the first `n` passes of the loop over `k`. -/
def recordLanesStores {W : Type} : Nat → MMState W → List (Nat × Nat)
  | 0, _ => []
  | n + 1, s => recordLanesStores n s ++ recordStores n (recordLanes n s)

/-- The stores of the first `m` passes of the loop over the batches, in a run
in which the calls of `hlsLz4` in these passes have returned. -/
def tableStores {W : Type} (run : LaneRun W) (NUM_BLOCK MIN_B_SIZE : Nat)
    (mem : MMState W) (input_size : Nat) : Nat → List (Nat × Nat)
  | 0 => []
  | m + 1 =>
    tableStores run NUM_BLOCK MIN_B_SIZE mem input_size m ++
      recordLanesStores (nblocksOf NUM_BLOCK (noBlocks input_size) (m * NUM_BLOCK))
        (called run NUM_BLOCK MIN_B_SIZE mem input_size m)

/-- A table after a list of stores. -/
def applyStores (stores : List (Nat × Nat)) (table : Nat → Option Nat) : Nat → Option Nat :=
  stores.foldl (fun t st => setAt t st.1 (some st.2)) table

/-- The values stored at index `x` by a list of stores, in order. -/
def storesAt (stores : List (Nat × Nat)) (x : Nat) : List Nat :=
  (stores.filter (fun st => decide (st.1 = x))).map (fun st => st.2)

/-- The values that pass `k` of the loop over the blocks stores at its index. -/
def laneStores {W : Type} (s : MMState W) (k : Nat) : List Nat :=
  (if s.max_lit_limit k ≠ 0 then s.input_block_size k else s.output_block_size k) ::
    (if s.small_block k = true then [s.small_block_inSize k] else [])

/-! ## `hlsLz4Core`, `hlsLz4`, `lz4CompressMM`: the lanes and the scheduler -/

/-- The functions that `hlsLz4Core` and `hlsLz4` call and that are not part of
this file: the burst reader `mm2multStreamSize`, the match finder
`lzCompress`, the filter `lzBestMatchFilter`, the booster `lzBooster` and the
burst writer `multStream2MM`.  Each is taken as it is called.  A stage of
`hlsLz4Core` goes from the whole content of its input stream and `input_size`
to the whole content of its output stream.  The reader goes from the buffers,
`input_idx` and `input_size` to the content of `inStream[j]` for each lane
`j`.  The writer goes from the buffers, the contents of `outStream[j]`,
`outStreamEos[j]` and `compressedSize[j]` for each lane `j`, `output_idx` and
`output_size` to the buffers and `output_size` after it. -/
structure Collaborators (W : Type) where
  mm2multStreamSize : W → (Nat → Nat) → (Nat → Nat) → Nat → List Nat
  lzCompress : List Nat → Nat → List Nat
  lzBestMatchFilter : List Nat → Nat → List Nat
  lzBooster : List Nat → Nat → List Nat
  multStream2MM : W → (Nat → List Nat) → (Nat → List Bool) → (Nat → List Nat) →
    (Nat → Nat) → (Nat → Nat) → W × (Nat → Nat)

/-- The function `hlsLz4Core<data_t, ..., MAX_LIT_CNT, MIN_B_SIZE>` (lines
309-324): the three stages that are not part of this file, each on the stream
the stage before has filled, then `lz4Compress<MAX_LIT_CNT, NUM_BLOCK>` on the
stream of the booster; the depths of the channels are not modelled.  `fuel`
bounds the passes of the encoder's loop. -/
def hlsLz4Core {W : Type} (c : Collaborators W) (MAX_LIT_CNT fuel : Nat) (inStream : List Nat)
    (max_lit_limit : List Nat) (input_size core_idx : Nat) :
    Outcome (Part1State × Part2State) :=
  let compressdStream := c.lzCompress inStream input_size
  let bestMatchStream := c.lzBestMatchFilter compressdStream input_size
  let boosterStream := c.lzBooster bestMatchStream input_size
  lz4Compress MAX_LIT_CNT fuel boosterStream max_lit_limit input_size core_idx

/-- The cells `0` to `n - 1` of an array as a list, the form in which
`lz4CompressPart1` takes the array `max_lit_limit[NUM_BLOCK]`. -/
def cells (n : Nat) (a : Nat → Nat) : List Nat := (List.range n).map a

/-- The array `a` with the cells of the list `l` in place of its first
cells. -/
def withCells (l : List Nat) (a : Nat → Nat) : Nat → Nat := fun j => l.getD j (a j)

/-- Variables of the lane loop of `hlsLz4`: the 8-bit counter `i`, the array
`max_lit_limit` and, for each lane, what its pipeline has written to
`outStream`, `outStreamEos` and `compressedSize`. -/
structure LaneState where
  i : Nat
  max_lit_limit : List Nat
  outStream : Nat → List Nat
  outStreamEos : Nat → List Bool
  compressedSize : Nat → List Nat

/-- The loop `for (uint8_t i = 0; i < NUM_BLOCK; i++)` of `hlsLz4` (lines
362-367), run for at most `passes` passes.  Pass `i` calls
`hlsLz4Core<ap_uint<8>, DATAWIDTH, BURST_SIZE, NUM_BLOCK>`: the template
argument `MAX_LIT_CNT` is not given, so it has its default value 4096,
whatever `hlsLz4` and `lz4CompressMM` are instantiated with.  The lanes are
taken one after the other, as the loop reads: a lane that does not return
keeps the loop in its pass.  The counter is a `uint8_t`, compared with the
`int` `NUM_BLOCK`. -/
def laneLoop {W : Type} (c : Collaborators W) (NUM_BLOCK fuel : Nat) (inStream : Nat → List Nat)
    (input_size : Nat → Nat) : Nat → LaneState → Outcome LaneState
  | 0, s => if s.i < NUM_BLOCK then .running s else .returned s
  | passes + 1, s =>
    if s.i < NUM_BLOCK then
      match hlsLz4Core c 4096 fuel (inStream s.i) s.max_lit_limit (input_size s.i) s.i with
      | .returned r =>
        laneLoop c NUM_BLOCK fuel inStream input_size passes
          { i := (s.i + 1) % 256
            max_lit_limit := r.1.max_lit_limit
            outStream := setAt s.outStream s.i r.2.outStream
            outStreamEos := setAt s.outStreamEos s.i r.2.endOfStream
            compressedSize := setAt s.compressedSize s.i r.2.compressdSizeStream }
      | .blocked _ => .blocked s
      | .running _ => .running s
    else .returned s

/-- The function `hlsLz4<data_t, DATAWIDTH, BURST_SIZE, NUM_BLOCK>` (lines
345-370): the burst reader fills the byte streams of the lanes, the lane loop
runs the pipelines, and the burst writer, once every lane has returned, moves
the streams of the lanes to `out` and sets `output_size`.  The 8-bit counter of
the lane loop takes each of its 256 values at most once in 256 passes, after
which it is 0 again; so 256 passes are given: a loop that has not ended by
then has its counter back at a lane below `NUM_BLOCK` and never ends.  `fuel`
bounds the passes of each encoder's loop. -/
def hlsLz4 {W : Type} (c : Collaborators W) (NUM_BLOCK fuel : Nat) : LaneRun W :=
  fun world input_idx output_idx input_size output_size max_lit_limit =>
    match laneLoop c NUM_BLOCK fuel (c.mm2multStreamSize world input_idx input_size) input_size
        256
        { i := 0, max_lit_limit := cells NUM_BLOCK max_lit_limit, outStream := fun _ => [],
          outStreamEos := fun _ => [], compressedSize := fun _ => [] } with
    | .returned s =>
      let r := c.multStream2MM world s.outStream s.outStreamEos s.compressedSize output_idx
        output_size
      .returned (r.1, r.2, withCells s.max_lit_limit max_lit_limit)
    | .blocked s => .blocked (world, output_size, withCells s.max_lit_limit max_lit_limit)
    | .running s => .running (world, output_size, withCells s.max_lit_limit max_lit_limit)

/-- The function `lz4CompressMM<data_t, ..., NUM_BLOCK, ..., MAX_LIT_CNT,
MIN_B_SIZE>` (lines 384-452).  `mem` is the memory on entry: its arrays are the
uninitialised locals, its `world` the buffers `in` and `out`; no index of the
table is written yet.  The call of line 436 is
`hlsLz4<data_t, DATAWIDTH, BURST_SIZE, NUM_BLOCK>`: of the template arguments
of `lz4CompressMM` only these four reach the lanes, `MAX_LIT_CNT` does not.
The loop over the batches moves `i` by `NUM_BLOCK` up to `no_blocks`, so
`no_blocks` passes are all it can need when `NUM_BLOCK` is at least 1.  `fuel`
bounds the passes of each encoder's loop. -/
def lz4CompressMM {W : Type} (c : Collaborators W) (NUM_BLOCK MIN_B_SIZE : Nat)
    (mem : MMState W) (input_size fuel : Nat) : Outcome (MMState W) :=
  batchLoop (hlsLz4 c NUM_BLOCK fuel) NUM_BLOCK MIN_B_SIZE input_size (noBlocks input_size)
    (noBlocks input_size) 0
    { mem with compressd_size := fun _ => none, block_idx := 0, readBlockSize := 0 }

/-- Modelled from the spec: the input is cut into sequential blocks of 65536
bytes, the last of which may be shorter.  This is the size of block `b`. -/
def originalBlockSize (input_size b : Nat) : Nat := min 65536 (input_size - 65536 * b)

/-- Modelled from the spec: the burst reader `mm2multStreamSize` is not part of
this file; it moves the bytes of each lane's block from the input buffer to
the lane's byte stream.  These are the `size` bytes of `inBuf` from offset
`idx` on. -/
def blockBytes (inBuf : Nat → Nat) (idx size : Nat) : List Nat :=
  (List.range size).map (fun p => inBuf (idx + p))

/-- Modelled from the spec: collaborators to run the scheduler with.  The
buffers are the input buffer alone, one byte per cell.  The reader hands each
lane the bytes of its block.  The match finder finds no match: it writes one
literal token per byte of the block (the low 8 bits of the stream's value at
that place, 0 beyond its end), and the filter and the booster pass their
stream on.  The writer sets `output_size[j]` to the size the encoder of lane
`j` has reported and leaves the input buffer alone. -/
def literalLanes : Collaborators (Nat → Nat) where
  mm2multStreamSize := fun inBuf input_idx input_size j =>
    blockBytes inBuf (input_idx j) (input_size j)
  lzCompress := fun inStream input_size =>
    (List.range input_size).map (fun p => inStream.getD p 0 % 256)
  lzBestMatchFilter := fun compressdStream _ => compressdStream
  lzBooster := fun bestMatchStream _ => bestMatchStream
  multStream2MM := fun inBuf _ _ compressedSize _ output_size =>
    (inBuf, fun j => (compressedSize j).headD (output_size j))

/-- A memory for `lz4CompressMM` with every array and table cell cleared and an
input buffer of bytes 0. -/
def zeroMem : MMState (Nat → Nat) :=
  { world := fun _ => 0, compressd_size := fun _ => none, block_idx := 0, readBlockSize := 0,
    small_block := fun _ => false, input_block_size := fun _ => 0, input_idx := fun _ => 0,
    output_idx := fun _ => 0, output_block_size := fun _ => 0, max_lit_limit := fun _ => 0,
    small_block_inSize := fun _ => 0 }

/-- The call of `hlsLz4` in pass number `m`. -/
def passCall {W : Type} (run : LaneRun W) (NUM_BLOCK MIN_B_SIZE : Nat)
    (mem : MMState W) (input_size m : Nat) : Outcome (W × (Nat → Nat) × (Nat → Nat)) :=
  run (classified run NUM_BLOCK MIN_B_SIZE mem input_size m).world
    (classified run NUM_BLOCK MIN_B_SIZE mem input_size m).input_idx
    (classified run NUM_BLOCK MIN_B_SIZE mem input_size m).output_idx
    (classified run NUM_BLOCK MIN_B_SIZE mem input_size m).input_block_size
    (classified run NUM_BLOCK MIN_B_SIZE mem input_size m).output_block_size
    (classified run NUM_BLOCK MIN_B_SIZE mem input_size m).max_lit_limit

/-- Every pipeline of the collaborators `c` returns: on the bytes the reader
hands to a lane for a block of 1 to 65536 bytes, `hlsLz4Core` returns once
the encoder has enough passes. -/
def LanesReturn {W : Type} (c : Collaborators W) : Prop :=
  ∀ (world : W) (input_idx input_size : Nat → Nat) (j : Nat) (ml : List Nat) (idx : Nat),
    1 ≤ input_size j → input_size j ≤ 65536 →
    ∃ F r, ∀ fuel, F ≤ fuel →
      hlsLz4Core c 4096 fuel (c.mm2multStreamSize world input_idx input_size j) ml
        (input_size j) idx = .returned r

/-! # Theorems -/

/-! ## The encoder loop: runs, phases, descriptors -/

theorem streamWrite_eq_emit (v : Nat) (s : Part2State) : streamWrite v s = emit [v] s := by
  simp [streamWrite, emit]

theorem emit_emit (a b : List Nat) (s : Part2State) :
    emit b (emit a s) = emit (a ++ b) s := by
  simp only [emit, List.append_assoc, List.length_append, List.map_append,
    Part2State.mk.injEq, true_and, and_true]
  omega

theorem fsmRun_add (m n : Nat) (s : Part2State) :
    fsmRun (m + n) s =
      match fsmRun m s with
      | .running s1 => fsmRun n s1
      | o => o := by
  induction m generalizing s with
  | zero => simp [fsmRun]
  | succ m ih =>
    rw [Nat.succ_add]
    simp only [fsmRun]
    cases h : fsmStep s with
    | running s1 => simp [ih]
    | returned s1 => simp
    | blocked s1 => simp

theorem Reaches.refl (s : Part2State) : Reaches s s := ⟨0, rfl⟩

theorem Reaches.trans {s t u : Part2State} (h1 : Reaches s t) (h2 : Reaches t u) :
    Reaches s u := by
  obtain ⟨k1, h1⟩ := h1
  obtain ⟨k2, h2⟩ := h2
  exact ⟨k1 + k2, by rw [fsmRun_add, h1]; exact h2⟩

theorem Reaches.step {s t : Part2State} (h : fsmStep s = .running t) : Reaches s t :=
  ⟨1, by simp [fsmRun, h]⟩

theorem fsmRun_returned_mono {k : Nat} {s r : Part2State} (h : fsmRun k s = .returned r) :
    ∀ fuel, k ≤ fuel → fsmRun fuel s = .returned r := by
  intro fuel hle
  obtain ⟨d, rfl⟩ := Nat.exists_eq_add_of_le hle
  rw [fsmRun_add, h]

theorem Reaches.returned {s t r : Part2State} (h1 : Reaches s t)
    (h2 : fsmStep t = .returned r) : ∃ N, ∀ fuel, N ≤ fuel → fsmRun fuel s = .returned r := by
  obtain ⟨k, hk⟩ := h1
  refine ⟨k + 1, fsmRun_returned_mono ?_⟩
  rw [fsmRun_add, hk]
  simp [fsmRun, h2]

theorem lenExt_ge (n : Nat) (h : 255 ≤ n) : lenExt n = 255 :: lenExt (n - 255) := by
  unfold lenExt
  have h1 : n / 255 = (n - 255) / 255 + 1 := by omega
  have h2 : n % 255 = (n - 255) % 255 := by omega
  rw [h1, h2, List.replicate_succ]
  rfl

theorem litLen_phase (n : Nat) : ∀ s : Part2State, s.next_state = WRITE_LIT_LEN →
    s.lit_length_reg = n →
    Reaches s (emit (lenExt n) { s with
      lit_length_reg := n % 255
      next_state := if 0 < s.write_lit_length_reg then WRITE_LITERAL else WRITE_OFFSET0 }) := by
  induction n using Nat.strong_induction_on with
  | _ n ih =>
    intro s hs hn
    by_cases h : 255 ≤ n
    · have hstep : fsmStep s = .running (emit [255] { s with lit_length_reg := n - 255 }) := by
        simp [fsmStep, hs, hn, h, streamWrite_eq_emit]
      refine (Reaches.step hstep).trans ?_
      have := ih (n - 255) (by omega) (emit [255] { s with lit_length_reg := n - 255 }) hs rfl
      have h2 : (n - 255) % 255 = n % 255 := by omega
      rw [h2] at this
      rw [lenExt_ge n h, show (255 :: lenExt (n - 255)) = [255] ++ lenExt (n - 255) from rfl,
        ← emit_emit]
      exact this
    · have hstep : fsmStep s = .running (emit [n % 256] { s with
          next_state := if 0 < s.write_lit_length_reg then WRITE_LITERAL else WRITE_OFFSET0 }) := by
        simp [fsmStep, hs, hn, h, streamWrite_eq_emit]
      have h1 : n % 256 = n := by omega
      have h2 : n % 255 = n := by omega
      have h3 : n / 255 = 0 := by omega
      have h4 : lenExt n = [n] := by simp [lenExt, h2, h3]
      rw [h4, h2]
      rw [h1] at hstep
      have := Reaches.step hstep
      rw [← hn] at this ⊢
      exact this

theorem matchLen_phase (n : Nat) : ∀ s : Part2State, s.next_state = WRITE_MATCH_LEN →
    s.match_length_reg = n →
    Reaches s (emit (lenExt n) { s with
      match_length_reg := n % 255, next_state := READ_AND_DECODE }) := by
  induction n using Nat.strong_induction_on with
  | _ n ih =>
    intro s hs hn
    by_cases h : 255 ≤ n
    · have hstep : fsmStep s = .running (emit [255] { s with match_length_reg := n - 255 }) := by
        simp [fsmStep, hs, hn, h, streamWrite_eq_emit]
      refine (Reaches.step hstep).trans ?_
      have := ih (n - 255) (by omega) (emit [255] { s with match_length_reg := n - 255 }) hs rfl
      have h2 : (n - 255) % 255 = n % 255 := by omega
      rw [h2] at this
      rw [lenExt_ge n h, show (255 :: lenExt (n - 255)) = [255] ++ lenExt (n - 255) from rfl,
        ← emit_emit]
      exact this
    · have hstep : fsmStep s = .running (emit [n % 256] { s with
          next_state := READ_AND_DECODE }) := by
        simp [fsmStep, hs, hn, h, streamWrite_eq_emit]
      have h1 : n % 256 = n := by omega
      have h2 : n % 255 = n := by omega
      have h3 : n / 255 = 0 := by omega
      have h4 : lenExt n = [n] := by simp [lenExt, h2, h3]
      rw [h4, h2]
      rw [h1] at hstep
      have := Reaches.step hstep
      rw [← hn] at this ⊢
      exact this

theorem literal_phase (ls : List Nat) : ∀ s : Part2State, s.next_state = WRITE_LITERAL →
    ∀ rest, s.in_lit_inStream = ls ++ rest → s.write_lit_length_reg = ls.length →
    0 < ls.length → ls.length < 65536 →
    Reaches s (emit ls { s with
      in_lit_inStream := rest, write_lit_length_reg := 0
      next_state := if s.lit_ending_reg then READ_AND_DECODE else WRITE_OFFSET0 }) := by
  induction ls with
  | nil => intro s _ rest _ _ h; simp at h
  | cons b ls ih =>
    intro s hs rest hin hw _ hlt
    simp only [List.length_cons] at hw hlt
    by_cases hl : ls.length = 0
    · have hnil : ls = [] := List.length_eq_zero.mp hl
      subst hnil
      have hstep : fsmStep s = .running (emit [b] { s with
          in_lit_inStream := rest, write_lit_length_reg := 0
          next_state := if s.lit_ending_reg then READ_AND_DECODE else WRITE_OFFSET0 }) := by
        simp at hin hw
        simp [fsmStep, hs, hin, hw, streamWrite_eq_emit]
      exact Reaches.step hstep
    · have hstep : fsmStep s = .running (emit [b] { s with
          in_lit_inStream := ls ++ rest, write_lit_length_reg := ls.length }) := by
        have h1 : (ls.length + 1 + 65535) % 65536 = ls.length := by omega
        simp at hin
        simp [fsmStep, hs, hin, hw, streamWrite_eq_emit, h1, hl]
      refine (Reaches.step hstep).trans ?_
      have := ih (emit [b] { s with
          in_lit_inStream := ls ++ rest, write_lit_length_reg := ls.length }) hs rest rfl rfl
          (by omega) (by omega)
      rw [show (b :: ls) = [b] ++ ls from rfl, ← emit_emit]
      exact this

theorem escape_eq_lenExt (n : Nat) (h : 15 ≤ n) : escape n = lenExt (n - 15) := by
  simp [escape, lenExt, Nat.not_lt.mpr h]

theorem io_emit_congr {s t : Part2State} (h : s.io = t.io) (bytes : List Nat) :
    (emit bytes s).io = (emit bytes t).io := by
  simp only [Part2State.io, emit, Prod.mk.injEq] at h ⊢
  obtain ⟨h1, h2, h3, h4, h5, h6⟩ := h
  simp [h1, h2, h3, h4, h5, h6]

/-- From `GENERATE_TOKEN` to the end of the literal bytes of the descriptor. -/
theorem lit_part (s : Part2State) (ls rest : List Nat)
    (hs : s.next_state = GENERATE_TOKEN) (hL : s.lit_length_reg < 65536)
    (hin : s.in_lit_inStream = ls ++ rest) (hlen : ls.length = s.lit_length_reg) :
    ∃ t, Reaches s t ∧
      t.io = (emit (tokenByte s.lit_length_reg s.match_length_reg ::
        (escape s.lit_length_reg ++ ls)) { s with in_lit_inStream := rest }).io ∧
      t.next_state = (if 0 < s.lit_length_reg ∧ s.lit_ending_reg = true then READ_AND_DECODE
        else WRITE_OFFSET0) ∧
      t.match_length_reg = (if 15 ≤ s.match_length_reg then s.match_length_reg - 15
        else s.match_length_reg) ∧
      t.extra_match_len_reg = decide (15 ≤ s.match_length_reg) ∧
      t.match_offset_reg = s.match_offset_reg := by
  have htok : ∀ a b : Nat, ((if a < 15 then a % 256 else 15) % 16 * 16 +
      (if b < 15 then b % 256 else 15) % 16) = tokenByte a b := by
    intro a b
    unfold tokenByte
    split <;> split <;> omega
  by_cases h15 : 15 ≤ s.lit_length_reg
  · -- token, extension bytes, literals
    have hstep : fsmStep s = .running (emit [tokenByte s.lit_length_reg s.match_length_reg]
        { s with
          write_lit_length_reg := s.lit_length_reg
          lit_length_reg := s.lit_length_reg - 15
          next_state := WRITE_LIT_LEN
          match_length_reg := if 15 ≤ s.match_length_reg then s.match_length_reg - 15
            else s.match_length_reg
          extra_match_len_reg := decide (15 ≤ s.match_length_reg) }) := by
      simp only [fsmStep, hs, htok, streamWrite_eq_emit, h15, if_true]
      by_cases hm : 15 ≤ s.match_length_reg <;> simp [hm, emit]
    have h1 := Reaches.step hstep
    have h2 := litLen_phase (s.lit_length_reg - 15) _ rfl rfl |> h1.trans
    have hpos : 0 < s.lit_length_reg := by omega
    have h3 := literal_phase ls _ (by simp [emit, hpos]) rest (by simp [emit, hin])
      (by simp [emit, hlen]) (by omega) (by omega) |> h2.trans
    refine ⟨_, h3, ?_, ?_, ?_, ?_, ?_⟩
    · simp [Part2State.io, emit, escape_eq_lenExt _ h15, Nat.add_assoc]
      omega
    · simp [emit, hpos]
    · simp [emit]
    · simp [emit]
    · simp [emit]
  · have hesc : escape s.lit_length_reg = [] := by simp [escape, Nat.lt_of_not_le h15]
    by_cases hpos : 0 < s.lit_length_reg
    · have hstep : fsmStep s = .running (emit [tokenByte s.lit_length_reg s.match_length_reg]
          { s with
            write_lit_length_reg := s.lit_length_reg
            next_state := WRITE_LITERAL
            match_length_reg := if 15 ≤ s.match_length_reg then s.match_length_reg - 15
              else s.match_length_reg
            extra_match_len_reg := decide (15 ≤ s.match_length_reg) }) := by
        simp only [fsmStep, hs, htok, streamWrite_eq_emit, h15, if_false]
        by_cases hm : 15 ≤ s.match_length_reg <;> simp [hm, emit, hpos]
      have h1 := Reaches.step hstep
      have h3 := literal_phase ls _ (by simp [emit]) rest (by simp [emit, hin])
        (by simp [emit, hlen]) (by omega) (by omega) |> h1.trans
      refine ⟨_, h3, ?_, ?_, ?_, ?_, ?_⟩
      · simp [Part2State.io, emit, hesc, Nat.add_assoc]
        omega
      · simp [emit, hpos]
      · simp [emit]
      · simp [emit]
      · simp [emit]
    · have hz : s.lit_length_reg = 0 := by omega
      have hnil : ls = [] := List.length_eq_zero.mp (by omega)
      have hstep : fsmStep s = .running (emit [tokenByte s.lit_length_reg s.match_length_reg]
          { s with
            write_lit_length_reg := s.lit_length_reg
            next_state := WRITE_OFFSET0
            match_length_reg := if 15 ≤ s.match_length_reg then s.match_length_reg - 15
              else s.match_length_reg
            extra_match_len_reg := decide (15 ≤ s.match_length_reg) }) := by
        simp only [fsmStep, hs, htok, streamWrite_eq_emit, h15, if_false]
        by_cases hm : 15 ≤ s.match_length_reg <;> simp [hm, emit, hpos]
      have h1 := Reaches.step hstep
      refine ⟨_, h1, ?_, ?_, ?_, ?_, ?_⟩
      · subst hnil
        simp at hin
        simp [Part2State.io, emit, hesc, hin]
      · simp [emit, hz]
      · simp [emit]
      · simp [emit]
      · simp [emit]

/-- From `WRITE_OFFSET0` to the next `READ_AND_DECODE`: the two offset bytes
and the match length extension. -/
theorem tail_part (s : Part2State) (hs : s.next_state = WRITE_OFFSET0) :
    ∃ t, Reaches s t ∧
      t.io = (emit ([s.match_offset_reg % 256, s.match_offset_reg / 256 % 256] ++
        (if s.extra_match_len_reg = true then lenExt s.match_length_reg else [])) s).io ∧
      t.next_state = READ_AND_DECODE := by
  have hstep0 : fsmStep s = .running (emit [s.match_offset_reg % 256]
      { s with next_state := WRITE_OFFSET1 }) := by
    simp [fsmStep, hs, streamWrite_eq_emit]
  have h0 := Reaches.step hstep0
  by_cases hx : s.extra_match_len_reg = true
  · have hstep1 : fsmStep (emit [s.match_offset_reg % 256] { s with next_state := WRITE_OFFSET1 }) =
        .running (emit [s.match_offset_reg / 256 % 256]
          (emit [s.match_offset_reg % 256] { s with next_state := WRITE_MATCH_LEN })) := by
      simp [fsmStep, emit, streamWrite_eq_emit, hx]
    have h1 := h0.trans (Reaches.step hstep1)
    have h2 := matchLen_phase s.match_length_reg _ rfl rfl |> h1.trans
    refine ⟨_, h2, ?_, ?_⟩
    · simp [Part2State.io, emit, hx, Nat.add_assoc]
      omega
    · simp [emit]
  · have hstep1 : fsmStep (emit [s.match_offset_reg % 256] { s with next_state := WRITE_OFFSET1 }) =
        .running (emit [s.match_offset_reg / 256 % 256]
          (emit [s.match_offset_reg % 256] { s with next_state := READ_AND_DECODE })) := by
      simp [fsmStep, emit, streamWrite_eq_emit, hx]
    have h1 := h0.trans (Reaches.step hstep1)
    refine ⟨_, h1, ?_, ?_⟩
    · simp [Part2State.io, emit, hx]
    · simp [emit]

theorem read_step (s : Part2State) (d : Nat) (ds : List Nat)
    (hs : s.next_state = READ_AND_DECODE) (hd : s.in_lenOffset_Stream = d :: ds) (hne : d ≠ 0) :
    fsmStep s = .running { s with
      in_lenOffset_Stream := ds
      lit_length_reg := descLit d % 65536
      match_length_reg := descMatchLen d
      match_offset_reg := descOffset d
      lit_ending_reg := litEnding d
      next_state := GENERATE_TOKEN } := by
  simp [fsmStep, hs, hd, hne, descLit, descMatchLen, descOffset, litEnding]

/-- One descriptor, from `READ_AND_DECODE` to the next `READ_AND_DECODE`. -/
theorem descriptor_phase (s : Part2State) (d : Nat) (ds ls rest : List Nat)
    (hs : s.next_state = READ_AND_DECODE) (hd : s.in_lenOffset_Stream = d :: ds) (hne : d ≠ 0)
    (hin : s.in_lit_inStream = ls ++ rest) (hlen : ls.length = descLit d % 65536) :
    ∃ t, Reaches s t ∧ t.next_state = READ_AND_DECODE ∧
      t.io = (emit (seqBytes d ls)
        { s with in_lit_inStream := rest, in_lenOffset_Stream := ds }).io := by
  have h0 := Reaches.step (read_step s d ds hs hd hne)
  obtain ⟨t1, hr1, hio1, hst1, hm1, hx1, ho1⟩ := lit_part _ ls rest
    (show ({ s with
      in_lenOffset_Stream := ds
      lit_length_reg := descLit d % 65536
      match_length_reg := descMatchLen d
      match_offset_reg := descOffset d
      lit_ending_reg := litEnding d
      next_state := GENERATE_TOKEN } : Part2State).next_state = GENERATE_TOKEN from rfl)
    (by show descLit d % 65536 < 65536; omega) hin hlen
  simp only at hio1 hst1 hm1 hx1 ho1
  have h1 := h0.trans hr1
  by_cases hend : 0 < descLit d % 65536 ∧ litEnding d = true
  · refine ⟨t1, h1, by simp [hst1, hend], ?_⟩
    rw [hio1]
    simp [seqBytes, hend, Part2State.io, emit]
  · have hst : t1.next_state = WRITE_OFFSET0 := by simp [hst1, hend]
    obtain ⟨t2, hr2, hio2, hst2⟩ := tail_part t1 hst
    refine ⟨t2, h1.trans hr2, hst2, ?_⟩
    rw [hio2]
    have hoff : descOffset d / 256 % 256 = descOffset d / 256 := by
      unfold descOffset; omega
    have hext : (if t1.extra_match_len_reg = true then lenExt t1.match_length_reg else []) =
        escape (descMatchLen d) := by
      rw [hx1, hm1]
      by_cases hm : 15 ≤ descMatchLen d
      · simp [hm, escape_eq_lenExt]
      · simp [hm, escape, Nat.lt_of_not_le hm]
    rw [hext, ho1, hoff]
    simp only [Part2State.io, emit, Prod.mk.injEq] at hio1 ⊢
    obtain ⟨e1, e2, e3, e4, e5, e6⟩ := hio1
    simp only [seqBytes, hend, if_false, e1, e2, e3, e4, e5, e6]
    simp
    refine ⟨?_, by omega⟩
    rw [List.replicate_add, List.append_assoc]

/-- A run of non-zero descriptors, from `READ_AND_DECODE` to `READ_AND_DECODE`. -/
theorem stream_phase (ds : List Nat) : ∀ (s : Part2State) (rest : List Nat),
    s.next_state = READ_AND_DECODE → s.in_lenOffset_Stream = ds ++ rest →
    (∀ d ∈ ds, d ≠ 0) → litNeed ds ≤ s.in_lit_inStream.length →
    s.compressedSize < 4294967296 →
    ∃ t, Reaches s t ∧ t.next_state = READ_AND_DECODE ∧
      t.io = (emit (layout ds s.in_lit_inStream)
        { s with in_lit_inStream := s.in_lit_inStream.drop (litNeed ds),
                 in_lenOffset_Stream := rest }).io := by
  induction ds with
  | nil =>
    intro s rest hs hd _ _ hc
    refine ⟨s, Reaches.refl s, hs, ?_⟩
    simp at hd
    simp [layout, litNeed, Part2State.io, emit, hd, Nat.mod_eq_of_lt hc]
  | cons d ds ih =>
    intro s rest hs hd hne hlen hc
    simp only [litNeed, List.map_cons, List.sum_cons] at hlen
    have hlen' : litNeed ds ≤ s.in_lit_inStream.length - descLit d % 65536 := by
      unfold litNeed; omega
    obtain ⟨t1, hr1, hst1, hio1⟩ := descriptor_phase s d (ds ++ rest)
      (s.in_lit_inStream.take (descLit d % 65536)) (s.in_lit_inStream.drop (descLit d % 65536))
      hs (by simpa using hd) (hne d (by simp)) (by simp)
      (by simp; omega)
    simp only [Part2State.io, emit, Prod.mk.injEq] at hio1
    obtain ⟨e1, e2, e3, e4, e5, e6⟩ := hio1
    obtain ⟨t2, hr2, hst2, hio2⟩ := ih t1 rest hst1 e2
      (fun x hx => hne x (by simp [hx])) (by rw [e1]; simpa using hlen')
      (by rw [e6]; exact Nat.mod_lt _ (by norm_num))
    refine ⟨t2, hr1.trans hr2, hst2, ?_⟩
    rw [hio2]
    simp only [Part2State.io, emit, Prod.mk.injEq, e1, e2, e3, e4, e5, e6, layout, litNeed,
      List.map_cons, List.sum_cons, List.drop_drop]
    simp
    omega

/-! ## The byte counter of the encoder -/

theorem streamWrite_inv (v : Nat) (s : Part2State) (h : CountInv s) :
    CountInv (streamWrite v s) := by
  obtain ⟨h1, h2, h3⟩ := h
  refine ⟨?_, ?_, ?_⟩
  · simp [streamWrite, h1]
  · simp only [streamWrite, h2, List.length_append, List.length_singleton]
    omega
  · simpa [streamWrite] using h3

theorem CountInv.congr {s t : Part2State} (h : CountInv s)
    (h1 : t.outStream = s.outStream) (h2 : t.endOfStream = s.endOfStream)
    (h3 : t.compressedSize = s.compressedSize)
    (h4 : t.compressdSizeStream = s.compressdSizeStream) : CountInv t := by
  unfold CountInv at *
  rw [h1, h2, h3, h4]
  exact h

theorem fsmStep_inv (s : Part2State) (h : CountInv s) : CountInv (fsmStep s).state := by
  unfold fsmStep
  split
  · -- READ_AND_DECODE
    split
    · exact h
    · split
      · exact h.congr rfl rfl rfl rfl
      · exact h.congr rfl rfl rfl rfl
  · -- GENERATE_TOKEN
    simp only [Outcome.state]
    apply streamWrite_inv
    split <;> split <;> (try split) <;> exact h.congr rfl rfl rfl rfl
  · split
    · exact streamWrite_inv _ _ (h.congr rfl rfl rfl rfl)
    · exact streamWrite_inv _ _ (h.congr rfl rfl rfl rfl)
  · split
    · exact h
    · simp only [Outcome.state]
      apply streamWrite_inv
      split <;> exact h.congr rfl rfl rfl rfl
  · exact streamWrite_inv _ _ (h.congr rfl rfl rfl rfl)
  · exact streamWrite_inv _ _ (h.congr rfl rfl rfl rfl)
  · split
    · exact streamWrite_inv _ _ (h.congr rfl rfl rfl rfl)
    · exact streamWrite_inv _ _ (h.congr rfl rfl rfl rfl)

theorem fsmRun_inv (fuel : Nat) : ∀ s : Part2State, CountInv s → CountInv (fsmRun fuel s).state := by
  induction fuel with
  | zero => intro s h; exact h
  | succ n ih =>
    intro s h
    have hs := fsmStep_inv s h
    simp only [fsmRun]
    cases hstep : fsmStep s with
    | running s1 => rw [hstep] at hs; exact ih s1 hs
    | returned s1 => rw [hstep] at hs; exact hs
    | blocked s1 => rw [hstep] at hs; exact hs

theorem part2Init_inv (lits descs : List Nat) : CountInv (part2Init lits descs) := by
  simp [CountInv, part2Init]

/-! ## The whole run of the encoder -/

/-- The whole run of the encoder on a descriptor stream `ds ++ 0 :: junk` with
no zero word in `ds` and enough literal bytes. -/
theorem part2_run (lits ds junk : List Nat) (input_size : Nat) (h0 : input_size ≠ 0)
    (hne : ∀ d ∈ ds, d ≠ 0) (hlen : litNeed ds ≤ lits.length) :
    ∃ N, ∀ fuel, N ≤ fuel → ∃ r,
      lz4CompressPart2 fuel lits (ds ++ 0 :: junk) input_size = .returned r ∧
      r.outStream = layout ds lits ++ [0] ∧
      r.endOfStream = List.replicate (layout ds lits).length false ++ [true] ∧
      r.compressdSizeStream = [(layout ds lits).length % 4294967296] ∧
      r.in_lit_inStream = lits.drop (litNeed ds) ∧
      r.in_lenOffset_Stream = junk := by
  obtain ⟨t, hr, hst, hio⟩ := stream_phase ds (part2Init lits (ds ++ 0 :: junk)) (0 :: junk)
    rfl rfl hne hlen (by simp [part2Init])
  simp only [Part2State.io, emit, part2Init, Prod.mk.injEq] at hio
  obtain ⟨e1, e2, e3, e4, e5, e6⟩ := hio
  have hstep : fsmStep t = .returned { t with in_lenOffset_Stream := junk } := by
    simp [fsmStep, hst, e2]
  obtain ⟨N, hN⟩ := hr.returned hstep
  refine ⟨N, fun fuel hf => ⟨encodeEpilogue { t with in_lenOffset_Stream := junk }, ?_, ?_, ?_, ?_, ?_, ?_⟩⟩
  · simp [lz4CompressPart2, h0, hN fuel hf]
  · simp [encodeEpilogue, e3]
  · simp [encodeEpilogue, e4]
  · simp [encodeEpilogue, e5, e6]
  · simp [encodeEpilogue, e1]
  · simp [encodeEpilogue]

/-! ## C2, C3, C4: byte layout, length-escape law, reported size -/

theorem descLit_tmpValue (L M O : Nat) : descLit (tmpValue L M O) = L % 4294967296 := by
  unfold descLit tmpValue; omega

theorem descMatchLen_tmpValue (L M O : Nat) : descMatchLen (tmpValue L M O) = M % 65536 := by
  unfold descMatchLen tmpValue; omega

theorem descOffset_tmpValue (L M O : Nat) : descOffset (tmpValue L M O) = O % 65536 := by
  unfold descOffset tmpValue; omega

theorem tmpValue_eq_zero (L M O : Nat) :
    tmpValue L M O = 0 ↔ L % 4294967296 = 0 ∧ M % 65536 = 0 ∧ O % 65536 = 0 := by
  unfold tmpValue; omega

theorem seqBytes_match (L M O : Nat) (ls : List Nat) (hL : L ≤ 65535) (hM : M ≤ 65535)
    (hO : O ≤ 65535) (hO1 : 1 ≤ O) (h777 : ¬(M = 777 ∧ O = 777)) :
    seqBytes (tmpValue L M O) ls =
      tokenByte L M :: (escape L ++ ls ++ [O % 256, O / 256] ++ escape M) := by
  have h1 : descLit (tmpValue L M O) % 65536 = L := by rw [descLit_tmpValue]; omega
  have h2 : descMatchLen (tmpValue L M O) = M := by rw [descMatchLen_tmpValue]; omega
  have h3 : descOffset (tmpValue L M O) = O := by rw [descOffset_tmpValue]; omega
  have h4 : litEnding (tmpValue L M O) = false := by
    unfold litEnding
    rw [h2, h3]
    simp [h777]
    omega
  simp [seqBytes, h1, h2, h3, h4]

theorem seqBytes_terminal (L : Nat) (ls : List Nat) (hL : L ≤ 65535) (hpos : 0 < L) :
    seqBytes (tmpValue L 0 0) ls = tokenByte L 0 :: (escape L ++ ls) := by
  have h1 : descLit (tmpValue L 0 0) % 65536 = L := by rw [descLit_tmpValue]; omega
  have h2 : descMatchLen (tmpValue L 0 0) = 0 := by rw [descMatchLen_tmpValue]
  have h3 : descOffset (tmpValue L 0 0) = 0 := by rw [descOffset_tmpValue]
  have h4 : litEnding (tmpValue L 0 0) = true := by
    unfold litEnding
    rw [h2, h3]
    simp
  simp [seqBytes, h1, h2, h3, h4, hpos]

/-- C3 (length-escape law).  Whatever the state in which `READ_AND_DECODE`
reads a non-sentinel descriptor `d` (with the literal bytes it asks for in the
literal stream), the loop comes back to `READ_AND_DECODE` having written a
token byte, the literal length extension, the literals and a tail.  For a
literal run length `n ≤ 65535` the high nibble is `min n 15` and the extension
is `escape n`: nothing for `n < 15`, else `(n-15)/255` bytes 255 and the byte
`(n-15) % 255`.  The low nibble is `min M 15`, and when `d` is not a terminal
literal run the tail is the two offset bytes followed by `escape M`.  Match
lengths 15, 16, 270, 271, 525 have 1, 1, 2, 2, 3 extension bytes. -/
theorem length_escape_law (s : Part2State) (d : Nat) (ds ls rest : List Nat)
    (hs : s.next_state = READ_AND_DECODE) (hd : s.in_lenOffset_Stream = d :: ds) (hne : d ≠ 0)
    (hin : s.in_lit_inStream = ls ++ rest) (hlen : ls.length = descLit d % 65536) :
    (∃ k t tok litExt tail, fsmRun k s = .running t ∧ t.next_state = READ_AND_DECODE ∧
      t.in_lenOffset_Stream = ds ∧
      t.outStream = s.outStream ++ tok :: (litExt ++ ls ++ tail) ∧
      (descLit d ≤ 65535 → tok / 16 = min (descLit d) 15 ∧ litExt = escape (descLit d)) ∧
      tok % 16 = min (descMatchLen d) 15 ∧
      (litEnding d = false →
        tail = [descOffset d % 256, descOffset d / 256] ++ escape (descMatchLen d))) ∧
    (∀ n, n < 15 → escape n = []) ∧
    (∀ n, 15 ≤ n → escape n = List.replicate ((n - 15) / 255) 255 ++ [(n - 15) % 255]) ∧
    (escape 15).length = 1 ∧ (escape 16).length = 1 ∧ (escape 270).length = 2 ∧
    (escape 271).length = 2 ∧ (escape 525).length = 3 := by
  refine ⟨?_, ?_, ?_, by decide, by decide, by decide, by decide, by decide⟩
  · obtain ⟨t, ⟨k, hk⟩, hst, hio⟩ := descriptor_phase s d ds ls rest hs hd hne hin hlen
    simp only [Part2State.io, emit, Prod.mk.injEq] at hio
    obtain ⟨-, e2, e3, -⟩ := hio
    refine ⟨k, t, tokenByte (descLit d % 65536) (descMatchLen d), escape (descLit d % 65536),
      (if 0 < descLit d % 65536 ∧ litEnding d = true then []
        else [descOffset d % 256, descOffset d / 256] ++ escape (descMatchLen d)),
      hk, hst, e2, ?_, ?_, ?_, ?_⟩
    · rw [e3]; simp [seqBytes]
    · intro hL
      have : descLit d % 65536 = descLit d := by omega
      rw [this]
      refine ⟨?_, rfl⟩
      unfold tokenByte
      omega
    · unfold tokenByte
      omega
    · intro he
      simp [he]
  · intro n hn
    simp [escape, hn]
  · intro n hn
    simp [escape, Nat.not_lt.mpr hn]

theorem length_escape_law_witness :
    (∃ k t tok litExt tail, fsmRun k (part2Init [7] [4295033102, 0]) = .running t ∧
      t.next_state = READ_AND_DECODE ∧ t.in_lenOffset_Stream = [0] ∧
      t.outStream = (part2Init [7] [4295033102, 0]).outStream ++ tok :: (litExt ++ [7] ++ tail) ∧
      (descLit 4295033102 ≤ 65535 →
        tok / 16 = min (descLit 4295033102) 15 ∧ litExt = escape (descLit 4295033102)) ∧
      tok % 16 = min (descMatchLen 4295033102) 15 ∧
      (litEnding 4295033102 = false →
        tail = [descOffset 4295033102 % 256, descOffset 4295033102 / 256] ++
          escape (descMatchLen 4295033102))) ∧
    (∀ n, n < 15 → escape n = []) ∧
    (∀ n, 15 ≤ n → escape n = List.replicate ((n - 15) / 255) 255 ++ [(n - 15) % 255]) ∧
    (escape 15).length = 1 ∧ (escape 16).length = 1 ∧ (escape 270).length = 2 ∧
    (escape 271).length = 2 ∧ (escape 525).length = 3 :=
  length_escape_law (part2Init [7] [4295033102, 0]) 4295033102 [0] [7] [] rfl rfl (by decide)
    rfl (by decide)

/-- C4 (reported size).  For a non-empty block on which `lz4CompressPart2`
returns, `outStream` is some data bytes followed by the terminator byte 0,
`endOfStream` marks every data byte with 0 and the terminator with 1, and the
value written to `compressdSizeStream` is the number of data bytes, reduced
modulo `2^32` as the counter is a `uint32_t`: it is that number itself
whenever the number fits 32 bits, as for any block of at most 64 KiB. -/
theorem reported_size_counts_data_bytes (fuel : Nat) (lits descs : List Nat) (input_size : Nat)
    (r : Part2State) (h0 : input_size ≠ 0)
    (h : lz4CompressPart2 fuel lits descs input_size = .returned r) :
    ∃ data, r.outStream = data ++ [0] ∧
      r.endOfStream = List.replicate data.length false ++ [true] ∧
      r.compressdSizeStream = [data.length % 4294967296] ∧
      (data.length < 4294967296 → r.compressdSizeStream = [data.length]) := by
  simp only [lz4CompressPart2, h0, if_false] at h
  have hinv := fsmRun_inv fuel _ (part2Init_inv lits descs)
  cases hrun : fsmRun fuel (part2Init lits descs) with
  | running t => rw [hrun] at h; simp at h
  | blocked t => rw [hrun] at h; simp at h
  | returned t =>
    rw [hrun] at h hinv
    simp only [Outcome.returned.injEq] at h
    obtain ⟨h1, h2, h3⟩ := hinv
    simp only [Outcome.state] at h1 h2 h3
    subst h
    refine ⟨t.outStream, by simp [encodeEpilogue], by simp [encodeEpilogue, h1],
      by simp [encodeEpilogue, h2, h3], ?_⟩
    intro hlt
    simp [encodeEpilogue, h2, h3, Nat.mod_eq_of_lt hlt]

theorem reported_size_counts_data_bytes_witness :
    ∃ data, (lz4CompressPart2 20 [97, 98] [4295032832, 4294967296, 0] 6).state.outStream
        = data ++ [0] ∧
      (lz4CompressPart2 20 [97, 98] [4295032832, 4294967296, 0] 6).state.endOfStream
        = List.replicate data.length false ++ [true] ∧
      (lz4CompressPart2 20 [97, 98] [4295032832, 4294967296, 0] 6).state.compressdSizeStream
        = [data.length % 4294967296] ∧
      (data.length < 4294967296 →
        (lz4CompressPart2 20 [97, 98] [4295032832, 4294967296, 0] 6).state.compressdSizeStream
          = [data.length]) :=
  reported_size_counts_data_bytes 20 [97, 98] [4295032832, 4294967296, 0] 6 _ (by decide)
    (by decide)

/-! ## The divider loop -/

theorem advance_pos (v : Nat) : 1 ≤ advance v := by
  unfold advance; split <;> omega

theorem divideToken_i (M v : Nat) (s : Part1State) : (divideToken M v s).i = s.i := by
  unfold divideToken; split <;> [rfl; (split <;> rfl)]

theorem divideToken_next (M v : Nat) (s : Part1State) :
    (divideToken M v s).nextEncodedValue = s.nextEncodedValue := by
  unfold divideToken; split <;> [rfl; (split <;> rfl)]

theorem divideToken_inStream (M v : Nat) (s : Part1State) :
    (divideToken M v s).inStream = s.inStream := by
  unfold divideToken; split <;> [rfl; (split <;> rfl)]

theorem divideToken_written_congr (M v : Nat) {s t : Part1State} (h : s.written = t.written) :
    (divideToken M v s).written = (divideToken M v t).written := by
  simp only [Part1State.written, Prod.mk.injEq] at h
  obtain ⟨h1, h2, h3, h4, h5⟩ := h
  unfold divideToken
  rw [h4]
  split
  · simp [Part1State.written, h1, h2, h3, h4]
  · split <;> simp [Part1State.written, h1, h2, h3, h4, h5]

theorem divideTokens_written_congr (M : Nat) (toks : List Nat) :
    ∀ {s t : Part1State}, s.written = t.written →
      (divideTokens M toks s).written = (divideTokens M toks t).written := by
  induction toks with
  | nil => intro s t h; exact h
  | cons v vs ih =>
    intro s t h
    exact ih (divideToken_written_congr M v h)

theorem divideTokens_append (M : Nat) (a b : List Nat) (s : Part1State) :
    divideTokens M (a ++ b) s = divideTokens M b (divideTokens M a s) := by
  simp [divideTokens, List.foldl_append]

/-- The loop on a stream that holds the tokens `t :: toks` of the rest of the
block, then `extra`: it returns if the last token moves `i` by 1 or a further
value can be prefetched. -/
theorem lz4_divide_returned (M input_size : Nat) (hsz : input_size < 4294967296) :
    ∀ (toks : List Nat) (t : Nat) (extra : List Nat) (fuel : Nat) (s : Part1State),
      s.nextEncodedValue = t → s.inStream = toks ++ extra →
      s.i + advance t + (toks.map advance).sum = input_size → toks.length < fuel →
      (advance ((t :: toks).getLast (List.cons_ne_nil t toks)) = 1 ∨ extra ≠ []) →
      ∃ s', lz4_divide M input_size fuel s = .returned s' ∧
        s'.written = (divideTokens M (t :: toks) s).written := by
  intro toks
  induction toks with
  | nil =>
    intro t extra fuel s hn hin hi hf hlast
    obtain ⟨fuel, rfl⟩ : ∃ k, fuel = k + 1 := ⟨fuel - 1, by simp at hf; omega⟩
    simp only [List.map_nil, List.sum_nil, Nat.add_zero] at hi
    have hpos := advance_pos t
    have hlt : s.i < input_size := by omega
    simp only [List.getLast_singleton] at hlast
    have hfin : ∀ s1 : Part1State, s1.i = input_size → ∀ k,
        lz4_divide M input_size k s1 = .returned s1 := by
      intro s1 h1 k
      cases k <;> simp [lz4_divide, h1]
    by_cases h1 : s.i < input_size - 1
    · have hex : extra ≠ [] := by
        rcases hlast with h | h
        · omega
        · exact h
      obtain ⟨e, es, rfl⟩ := List.exists_cons_of_ne_nil hex
      simp only [List.nil_append] at hin
      simp only [lz4_divide, hlt, if_true, divideBody, h1, hin, hn]
      refine ⟨_, hfin _ ?_ fuel, ?_⟩
      · simp only [divideToken_i]
        omega
      · simp only [divideTokens, List.foldl_cons, List.foldl_nil]
        exact divideToken_written_congr M t rfl
    · simp only [lz4_divide, hlt, if_true, divideBody, h1, if_false, hn]
      refine ⟨_, hfin _ ?_ fuel, ?_⟩
      · simp only [divideToken_i]
        omega
      · simp only [divideTokens, List.foldl_cons, List.foldl_nil]
        exact divideToken_written_congr M t rfl
  | cons t' toks ih =>
    intro t extra fuel s hn hin hi hf hlast
    obtain ⟨fuel, rfl⟩ : ∃ k, fuel = k + 1 := ⟨fuel - 1, by simp at hf; omega⟩
    simp only [List.map_cons, List.sum_cons] at hi
    have hpos := advance_pos t
    have hpos' := advance_pos t'
    have hlt : s.i < input_size := by omega
    have h1 : s.i < input_size - 1 := by omega
    simp only [List.cons_append] at hin
    simp only [lz4_divide, hlt, if_true, divideBody, h1, hin, hn]
    have hmod : (s.i + advance t) % 4294967296 = s.i + advance t := by omega
    obtain ⟨s', hs', hw⟩ := ih t' extra fuel
      { divideToken M t { s with nextEncodedValue := t', inStream := toks ++ extra } with
        i := ((divideToken M t { s with nextEncodedValue := t', inStream := toks ++ extra }).i
          + advance t) % 4294967296 }
      (by simp [divideToken_next]) (by simp [divideToken_inStream])
      (by simp only [divideToken_i]; omega) (by simpa using hf)
      (by simpa [List.getLast_cons] using hlast)
    refine ⟨s', hs', ?_⟩
    rw [hw]
    show _ = (divideTokens M (t' :: toks) (divideToken M t s)).written
    apply divideTokens_written_congr
    exact divideToken_written_congr M t rfl

/-- The loop on a stream that ends with its tokens, the last of which moves `i`
by more than 1: the prefetch at the last token finds the stream empty. -/
theorem lz4_divide_blocked (M input_size : Nat) (hsz : input_size < 4294967296) :
    ∀ (toks : List Nat) (t : Nat) (fuel : Nat) (s : Part1State),
      s.nextEncodedValue = t → s.inStream = toks →
      s.i + advance t + (toks.map advance).sum = input_size → toks.length < fuel →
      advance ((t :: toks).getLast (List.cons_ne_nil t toks)) ≠ 1 →
      ∃ s', lz4_divide M input_size fuel s = .blocked s' ∧
        s'.written = (divideTokens M (t :: toks).dropLast s).written := by
  intro toks
  induction toks with
  | nil =>
    intro t fuel s hn hin hi hf hlast
    obtain ⟨fuel, rfl⟩ : ∃ k, fuel = k + 1 := ⟨fuel - 1, by simp at hf; omega⟩
    simp only [List.map_nil, List.sum_nil, Nat.add_zero] at hi
    have hpos := advance_pos t
    have hlt : s.i < input_size := by omega
    simp only [List.getLast_singleton] at hlast
    have h1 : s.i < input_size - 1 := by omega
    simp only [lz4_divide, hlt, if_true, divideBody, h1, hin]
    exact ⟨s, rfl, by simp [divideTokens]⟩
  | cons t' toks ih =>
    intro t fuel s hn hin hi hf hlast
    obtain ⟨fuel, rfl⟩ : ∃ k, fuel = k + 1 := ⟨fuel - 1, by simp at hf; omega⟩
    simp only [List.map_cons, List.sum_cons] at hi
    have hpos := advance_pos t
    have hpos' := advance_pos t'
    have hlt : s.i < input_size := by omega
    have h1 : s.i < input_size - 1 := by omega
    simp only [lz4_divide, hlt, if_true, divideBody, h1, hin, hn]
    obtain ⟨s', hs', hw⟩ := ih t' fuel
      { divideToken M t { s with nextEncodedValue := t', inStream := toks } with
        i := ((divideToken M t { s with nextEncodedValue := t', inStream := toks }).i
          + advance t) % 4294967296 }
      (by simp [divideToken_next]) (by simp [divideToken_inStream])
      (by simp only [divideToken_i]; omega) (by simpa using hf)
      (by simpa [List.getLast_cons] using hlast)
    refine ⟨s', hs', ?_⟩
    rw [hw]
    show _ = (divideTokens M (t' :: toks).dropLast (divideToken M t s)).written
    apply divideTokens_written_congr
    exact divideToken_written_congr M t rfl

theorem length_le_sum_advance (toks : List Nat) : toks.length ≤ (toks.map advance).sum := by
  induction toks with
  | nil => simp
  | cons v vs ih =>
    have := advance_pos v
    simp only [List.length_cons, List.map_cons, List.sum_cons]
    omega

theorem divideEpilogue_written_congr (M idx : Nat) {s t : Part1State}
    (h : s.written = t.written) :
    (divideEpilogue M idx s).written = (divideEpilogue M idx t).written := by
  simp only [Part1State.written, Prod.mk.injEq] at h
  obtain ⟨h1, h2, h3, h4, h5⟩ := h
  unfold divideEpilogue
  simp only [h4]
  split
  · split <;> simp [Part1State.written, h1, h2, h3, h4, h5]
  · simp [Part1State.written, h1, h2, h3, h4, h5]

/-- The divider `lz4CompressPart1` returns on a stream `toks ++ extra` whose tokens `toks`
cover the block, provided the last token moves `i` by 1 or `extra` is not
empty. -/
theorem part1_returned (M input_size : Nat) (toks extra ml : List Nat) (idx : Nat)
    (hne : toks ≠ []) (hcov : (toks.map advance).sum = input_size)
    (hsz : input_size < 4294967296)
    (hlast : advance (toks.getLast hne) = 1 ∨ extra ≠ []) :
    ∃ s, lz4CompressPart1 M (toks ++ extra) input_size ml idx = .returned s ∧
      s.written = (divided M toks ml idx).written := by
  obtain ⟨t, toks, rfl⟩ := List.exists_cons_of_ne_nil hne
  have hlen := length_le_sum_advance (t :: toks)
  simp only [List.map_cons, List.sum_cons] at hcov
  have hpos := advance_pos t
  have h0 : input_size ≠ 0 := by omega
  have hl := length_le_sum_advance toks
  obtain ⟨s', hs', hw⟩ := lz4_divide_returned M input_size hsz toks t extra input_size
    { part1Init (t :: toks ++ extra) ml with nextEncodedValue := t, inStream := toks ++ extra }
    rfl rfl (by simp [part1Init]; omega) (by omega) hlast
  refine ⟨divideEpilogue M idx s', ?_, ?_⟩
  · simp only [lz4CompressPart1, h0, if_false, List.cons_append]
    simp only [part1Init] at hs'
    rw [hs']
  · unfold divided
    apply divideEpilogue_written_congr
    rw [hw]
    apply divideTokens_written_congr
    rfl

/-- The divider `lz4CompressPart1` stays in the prefetch of its last pass when the stream
ends with a token that moves `i` by more than 1. -/
theorem part1_blocked (M input_size : Nat) (toks ml : List Nat) (idx : Nat)
    (hne : toks ≠ []) (hcov : (toks.map advance).sum = input_size)
    (hsz : input_size < 4294967296)
    (hlast : advance (toks.getLast hne) ≠ 1) :
    ∃ s, lz4CompressPart1 M toks input_size ml idx = .blocked s ∧
      s.written = (divideTokens M toks.dropLast (part1Init [] ml)).written := by
  obtain ⟨t, toks, rfl⟩ := List.exists_cons_of_ne_nil hne
  simp only [List.map_cons, List.sum_cons] at hcov
  have hpos := advance_pos t
  have h0 : input_size ≠ 0 := by omega
  have hl := length_le_sum_advance toks
  obtain ⟨s', hs', hw⟩ := lz4_divide_blocked M input_size hsz toks t input_size
    { part1Init (t :: toks) ml with nextEncodedValue := t, inStream := toks }
    rfl rfl (by simp [part1Init]; omega) (by omega) hlast
  refine ⟨s', ?_, ?_⟩
  · simp only [lz4CompressPart1, h0, if_false]
    simp only [part1Init] at hs'
    rw [hs']
  · rw [hw]
    apply divideTokens_written_congr
    rfl

/-! ## What the divider writes -/

theorem le_longestRun (toks : List Nat) : ∀ k, k ≤ longestRun k toks := by
  induction toks with
  | nil => intro k; simp [longestRun]
  | cons v vs ih =>
    intro k
    unfold longestRun
    split
    · have := ih (k + 1); omega
    · omega

theorem tLen_lt (v : Nat) : tLen v < 256 := by unfold tLen; omega

/-- Without a literal run that reaches `M`: the descriptors, the literals and
the flag after the tokens `toks` and the epilogue. -/
theorem divided_no_overflow (M idx : Nat) (toks : List Nat) :
    ∀ s : Part1State, longestRun s.lit_count toks < M →
      (∀ v ∈ toks, tLen v ≠ 0 → 4 ≤ tLen v) →
      (divideEpilogue M idx (divideTokens M toks s)).lenOffset_Stream =
        s.lenOffset_Stream ++ expectedDescs s.lit_count toks ∧
      (divideEpilogue M idx (divideTokens M toks s)).lit_outStream =
        s.lit_outStream ++ litBytes toks ∧
      (divideEpilogue M idx (divideTokens M toks s)).max_lit_limit =
        s.max_lit_limit.set idx s.lit_count_flag := by
  induction toks with
  | nil =>
    intro s hrun _
    simp only [longestRun] at hrun
    have hne : s.lit_count ≠ M := by omega
    by_cases hz : s.lit_count = 0
    · simp [divideTokens, divideEpilogue, expectedDescs, litBytes, hz]
    · have hpos : 0 < s.lit_count := by omega
      simp [divideTokens, divideEpilogue, expectedDescs, litBytes, hz, hne, hpos]
  | cons v vs ih =>
    intro s hrun hlen
    have hk := le_longestRun (v :: vs) s.lit_count
    have hlt : ¬ M ≤ s.lit_count := by omega
    have hlen' : ∀ x ∈ vs, tLen x ≠ 0 → 4 ≤ tLen x := fun x hx => hlen x (by simp [hx])
    simp only [divideTokens, List.foldl_cons] at ih ⊢
    by_cases hv : tLen v = 0
    · have hstep : divideToken M v s = { s with
          lit_outStream := s.lit_outStream ++ [tCh v], lit_count := s.lit_count + 1 } := by
        simp [divideToken, hlt, hv]
      rw [hstep]
      simp only [longestRun, hv, if_true] at hrun
      obtain ⟨h1, h2, h3⟩ := ih { s with
          lit_outStream := s.lit_outStream ++ [tCh v], lit_count := s.lit_count + 1 } hrun hlen'
      refine ⟨?_, ?_, ?_⟩
      · rw [h1]; simp [expectedDescs, hv]
      · rw [h2]; simp [litBytes, hv]
      · rw [h3]
    · have h4 := hlen v (by simp) hv
      have h256 := tLen_lt v
      have hm : (tLen v + 252) % 256 = tLen v - 4 := by omega
      have hstep : divideToken M v s = { s with
          lenOffset_Stream := s.lenOffset_Stream ++
            [tmpValue s.lit_count (tLen v - 4) (tOffset v)], lit_count := 0 } := by
        simp [divideToken, hlt, hv, hm]
      rw [hstep]
      simp only [longestRun, hv, if_false] at hrun
      obtain ⟨h1, h2, h3⟩ := ih { s with
          lenOffset_Stream := s.lenOffset_Stream ++
            [tmpValue s.lit_count (tLen v - 4) (tOffset v)], lit_count := 0 }
        (show longestRun 0 vs < M by omega) hlen'
      refine ⟨?_, ?_, ?_⟩
      · rw [h1]; simp [expectedDescs, hv]
      · rw [h2]; simp [litBytes, hv]
      · rw [h3]

theorem divideToken_flag_sticky (M v : Nat) (s : Part1State) (h : s.lit_count_flag = 1) :
    (divideToken M v s).lit_count_flag = 1 := by
  unfold divideToken; split <;> [rfl; (split <;> exact h)]

theorem divideTokens_flag_sticky (M : Nat) (toks : List Nat) :
    ∀ s : Part1State, s.lit_count_flag = 1 → (divideTokens M toks s).lit_count_flag = 1 := by
  induction toks with
  | nil => intro s h; exact h
  | cons v vs ih => intro s h; exact ih _ (divideToken_flag_sticky M v s h)

theorem divideEpilogue_flag_sticky (M idx : Nat) (s : Part1State) (h : s.lit_count_flag = 1) :
    (divideEpilogue M idx s).lit_count_flag = 1 := by
  unfold divideEpilogue
  split <;> [(split <;> simp [h]); simp [h]]

/-- The flag after the tokens `toks` and the epilogue: raised exactly when a
run of consecutive literal tokens reaches `M`. -/
theorem divided_flag (M idx : Nat) (toks : List Nat) :
    ∀ s : Part1State, s.lit_count ≤ M → (toks ≠ [] ∨ s.lit_count ≠ 0 ∨ 0 < M) →
      (divideEpilogue M idx (divideTokens M toks s)).lit_count_flag =
        if M ≤ longestRun s.lit_count toks then 1 else s.lit_count_flag := by
  induction toks with
  | nil =>
    intro s hle hside
    simp only [divideTokens, List.foldl_nil, longestRun]
    have hside' : s.lit_count ≠ 0 ∨ 0 < M := by simpa using hside
    unfold divideEpilogue
    by_cases hz : s.lit_count = 0
    · have : ¬ M ≤ 0 := by omega
      simp [hz, this]
    · by_cases he : s.lit_count = M
      · subst he
        simp [hz]
      · have : ¬ M ≤ s.lit_count := by omega
        simp [hz, he, this]
  | cons v vs ih =>
    intro s hle _
    have hk := le_longestRun (v :: vs) s.lit_count
    simp only [divideTokens, List.foldl_cons] at ih ⊢
    by_cases hge : M ≤ s.lit_count
    · have hstep : divideToken M v s = { s with lit_count_flag := 1 } := by
        simp [divideToken, hge]
      rw [hstep, if_pos (by omega)]
      exact divideEpilogue_flag_sticky M idx _ (divideTokens_flag_sticky M vs _ rfl)
    · by_cases hv : tLen v = 0
      · have hstep : divideToken M v s = { s with
            lit_outStream := s.lit_outStream ++ [tCh v], lit_count := s.lit_count + 1 } := by
          simp [divideToken, hge, hv]
        rw [hstep, ih { s with
            lit_outStream := s.lit_outStream ++ [tCh v], lit_count := s.lit_count + 1 }
          (by show s.lit_count + 1 ≤ M; omega) (Or.inr (Or.inl (by simp)))]
        simp [longestRun, hv]
      · have hstep : divideToken M v s = { s with
            lenOffset_Stream := s.lenOffset_Stream ++
              [tmpValue s.lit_count ((tLen v + 252) % 256) (tOffset v)], lit_count := 0 } := by
          simp [divideToken, hge, hv]
        rw [hstep, ih { s with
            lenOffset_Stream := s.lenOffset_Stream ++
              [tmpValue s.lit_count ((tLen v + 252) % 256) (tOffset v)], lit_count := 0 }
          (by show 0 ≤ M; omega) (Or.inr (Or.inr (by omega)))]
        simp only [longestRun, hv, if_false]
        have : (M ≤ max s.lit_count (longestRun 0 vs)) ↔ M ≤ longestRun 0 vs := by omega
        simp [this]

theorem divideToken_max_lit_limit (M v : Nat) (s : Part1State) :
    (divideToken M v s).max_lit_limit = s.max_lit_limit := by
  unfold divideToken; split <;> [rfl; (split <;> rfl)]

theorem divideTokens_max_lit_limit (M : Nat) (toks : List Nat) :
    ∀ s : Part1State, (divideTokens M toks s).max_lit_limit = s.max_lit_limit := by
  induction toks with
  | nil => intro s; rfl
  | cons v vs ih => intro s; exact (ih _).trans (divideToken_max_lit_limit M v s)

theorem divideEpilogue_max_lit_limit (M idx : Nat) (s : Part1State) :
    (divideEpilogue M idx s).max_lit_limit =
      s.max_lit_limit.set idx (divideEpilogue M idx s).lit_count_flag := by
  unfold divideEpilogue
  split <;> [(split <;> rfl); rfl]

theorem divideToken_inv (M v : Nat) (s : Part1State) (h : RunInv M s) :
    RunInv M (divideToken M v s) := by
  obtain ⟨h1, h2⟩ := h
  unfold divideToken
  split
  · exact ⟨h1, h2⟩
  · split
    · refine ⟨Nat.zero_le _, ?_⟩
      intro d hd
      simp only [List.mem_append, List.mem_singleton] at hd
      rcases hd with hd | hd
      · exact h2 d hd
      · subst hd
        rw [descLit_tmpValue]
        have := Nat.mod_le s.lit_count 4294967296
        omega
    · exact ⟨by show s.lit_count + 1 ≤ M; omega, h2⟩

theorem divideTokens_inv (M : Nat) (toks : List Nat) :
    ∀ s : Part1State, RunInv M s → RunInv M (divideTokens M toks s) := by
  induction toks with
  | nil => intro s h; exact h
  | cons v vs ih => intro s h; exact ih _ (divideToken_inv M v s h)

/-- After the epilogue every descriptor has a literal run length of at most
`M`, and one equal to `M` is the sentinel or comes with the flag raised. -/
theorem divideEpilogue_descs (M idx : Nat) (s : Part1State) (h : RunInv M s) :
    ∀ d ∈ (divideEpilogue M idx s).lenOffset_Stream,
      descLit d ≤ M ∧ (descLit d = M → d = 0 ∨ (divideEpilogue M idx s).lit_count_flag = 1) := by
  obtain ⟨h1, h2⟩ := h
  have hz : descLit 0 = 0 := by decide
  intro d hd
  unfold divideEpilogue at hd ⊢
  by_cases hc : s.lit_count = 0
  · simp only [hc, ne_eq, not_true_eq_false, if_false, List.mem_append,
      List.mem_singleton] at hd ⊢
    rcases hd with hd | hd
    · have := h2 d hd
      exact ⟨by omega, by omega⟩
    · subst hd
      exact ⟨by omega, fun _ => Or.inl rfl⟩
  · by_cases he : s.lit_count = M
    · subst he
      simp only [hc, ne_eq, not_false_eq_true, if_true, List.mem_append,
        List.mem_singleton] at hd ⊢
      rcases hd with (hd | hd) | hd
      · have := h2 d hd
        exact ⟨by omega, by omega⟩
      · subst hd
        rw [descLit_tmpValue]
        exact ⟨Nat.mod_le _ _, fun _ => Or.inr trivial⟩
      · subst hd
        exact ⟨by omega, fun _ => Or.inl rfl⟩
    · simp only [hc, he, ne_eq, not_false_eq_true, if_true, if_false, List.mem_append,
        List.mem_singleton] at hd ⊢
      rcases hd with (hd | hd) | hd
      · have := h2 d hd
        exact ⟨by omega, by omega⟩
      · subst hd
        rw [descLit_tmpValue]
        have := Nat.mod_le s.lit_count 4294967296
        exact ⟨by omega, by omega⟩
      · subst hd
        exact ⟨by omega, fun _ => Or.inl rfl⟩

theorem keptTokens_of_le (M k : Nat) (toks : List Nat) (h : M ≤ k) :
    keptTokens M k toks = [] := by
  cases toks <;> simp [keptTokens, h]

/-- The literal stream after the tokens `toks`. -/
theorem divideTokens_lits (M : Nat) (toks : List Nat) :
    ∀ s : Part1State, (divideTokens M toks s).lit_outStream =
      s.lit_outStream ++ litBytes (keptTokens M s.lit_count toks) := by
  induction toks with
  | nil => intro s; simp [divideTokens, keptTokens, litBytes]
  | cons v vs ih =>
    intro s
    simp only [divideTokens, List.foldl_cons] at ih ⊢
    by_cases hge : M ≤ s.lit_count
    · have hstep : divideToken M v s = { s with lit_count_flag := 1 } := by
        simp [divideToken, hge]
      rw [hstep, ih]
      simp [keptTokens_of_le M _ _ hge]
    · by_cases hv : tLen v = 0
      · have hstep : divideToken M v s = { s with
            lit_outStream := s.lit_outStream ++ [tCh v], lit_count := s.lit_count + 1 } := by
          simp [divideToken, hge, hv]
        rw [hstep, ih]
        simp [keptTokens, hge, hv, litBytes]
      · have hstep : divideToken M v s = { s with
            lenOffset_Stream := s.lenOffset_Stream ++
              [tmpValue s.lit_count ((tLen v + 252) % 256) (tOffset v)], lit_count := 0 } := by
          simp [divideToken, hge, hv]
        rw [hstep, ih]
        simp [keptTokens, hge, hv, litBytes]

theorem divideEpilogue_lits (M idx : Nat) (s : Part1State) :
    (divideEpilogue M idx s).lit_outStream = s.lit_outStream := by
  unfold divideEpilogue
  split <;> [(split <;> rfl); rfl]

theorem keptTokens_initial (M : Nat) (toks : List Nat) :
    ∀ k, keptTokens M k toks <+: toks := by
  induction toks with
  | nil => intro k; simp [keptTokens]
  | cons v vs ih =>
    intro k
    unfold keptTokens
    split
    · exact List.nil_prefix
    · exact List.cons_prefix_cons.mpr ⟨rfl, ih _⟩

theorem keptTokens_eq_self (M : Nat) (toks : List Nat) :
    ∀ k, longestRun k toks < M → keptTokens M k toks = toks := by
  induction toks with
  | nil => intro k _; simp [keptTokens]
  | cons v vs ih =>
    intro k h
    have hk := le_longestRun (v :: vs) k
    have hlt : ¬ M ≤ k := by omega
    unfold longestRun at h
    by_cases hv : tLen v = 0
    · simp only [hv, if_true] at h
      simp [keptTokens, hlt, hv, ih _ h]
    · simp only [hv, if_false] at h
      simp [keptTokens, hlt, hv, ih 0 (by omega)]

theorem litBytes_keptTokens_snoc (M : Nat) (toks : List Nat) (v : Nat) (hv : tLen v ≠ 0) :
    ∀ k, litBytes (keptTokens M k (toks ++ [v])) = litBytes (keptTokens M k toks) := by
  induction toks with
  | nil =>
    intro k
    by_cases h : M ≤ k <;> simp [keptTokens, h, litBytes, hv]
  | cons w ws ih =>
    intro k
    by_cases h : M ≤ k
    · simp [keptTokens, h]
    · simp only [List.cons_append, keptTokens, h, if_false, litBytes] at ih ⊢
      by_cases hw : tLen w = 0
      · simp [hw, List.filter_cons, ih (k + 1)]
      · simp [hw, List.filter_cons, ih 0]

/-! ## C5, C6, C7: descriptors, literal stream, overflow invariant -/

theorem advance_of_literal {v : Nat} (h : tLen v = 0) : advance v = 1 := by
  simp [advance, h]

theorem tLen_of_advance_ne_one {v : Nat} (h : advance v ≠ 1) : tLen v ≠ 0 := by
  intro h0; exact h (advance_of_literal h0)

/-- C5 (divider descriptors), amended.  For a non-empty token stream `toks`
that covers `input_size` bytes, with match lengths between 4 and 255 and no
literal run reaching `M`, whose last token is a literal or which is followed
in the input stream by at least one more value, `lz4CompressPart1` returns and
the descriptor stream holds exactly: one descriptor (literals since the
previous match or the start, match length - 4, offset) per match token, then
`(k, 0, 0)` if `k > 0` literal tokens end the stream, then the all-zero
sentinel. -/
theorem divider_descriptors (M input_size : Nat) (toks extra ml : List Nat) (idx : Nat)
    (hne : toks ≠ []) (hcov : (toks.map advance).sum = input_size)
    (hsz : input_size < 4294967296)
    (hlen : ∀ v ∈ toks, tLen v ≠ 0 → 4 ≤ tLen v ∧ tLen v ≤ 255)
    (hrun : longestRun 0 toks < M)
    (hlast : tLen (toks.getLast hne) = 0 ∨ extra ≠ []) :
    ∃ s, lz4CompressPart1 M (toks ++ extra) input_size ml idx = .returned s ∧
      s.lenOffset_Stream = expectedDescs 0 toks := by
  obtain ⟨s, hs, hw⟩ := part1_returned M input_size toks extra ml idx hne hcov hsz
    (hlast.imp advance_of_literal id)
  refine ⟨s, hs, ?_⟩
  have h := (divided_no_overflow M idx toks (part1Init [] ml) hrun
    (fun v hv h0 => (hlen v hv h0).1)).1
  simp only [Part1State.written, Prod.mk.injEq] at hw
  rw [hw.2.1]
  simpa [divided, part1Init] using h

theorem divider_descriptors_witness :
    ∃ s, lz4CompressPart1 4096 ([97, 66560, 98] ++ []) 6 [0] 0 = .returned s ∧
      s.lenOffset_Stream = expectedDescs 0 [97, 66560, 98] :=
  divider_descriptors 4096 6 [97, 66560, 98] [] [0] 0 (by decide) (by decide) (by decide)
    (by decide) (by decide) (Or.inl (by decide))

/-- C5 as stated fails: on the two tokens literal `a`, match (length 4, offset
1) of a 5-byte block the divider prefetches a third value at the match token,
finds the stream empty and writes no descriptor at all. -/
theorem divider_descriptors_counterexample :
    ([97, 66560] : List Nat) ≠ [] ∧ (([97, 66560] : List Nat).map advance).sum = 5 ∧
    (∀ v ∈ ([97, 66560] : List Nat), tLen v ≠ 0 → 4 ≤ tLen v ∧ tLen v ≤ 255) ∧
    longestRun 0 [97, 66560] < 4096 ∧
    (lz4CompressPart1 4096 [97, 66560] 5 [0] 0).isReturned = false ∧
    (lz4CompressPart1 4096 [97, 66560] 5 [0] 0).state.lenOffset_Stream = [] ∧
    expectedDescs 0 [97, 66560] = [4295032832, 0] := by
  decide

/-- C6 (divider literal stream), amended.  For a token stream `toks` that
covers `input_size` bytes, the literal stream written by `lz4CompressPart1`,
whether it returns or stays in a prefetch, is the literal bytes, in order, of
the literal tokens among `keptTokens M 0 toks`: the tokens up to and including
the one that completes the first run of `M` consecutive literal tokens.  These
are all the tokens when no run reaches `M`; match tokens append nothing. -/
theorem divider_literal_stream (M input_size : Nat) (toks extra ml : List Nat) (idx : Nat)
    (hcov : (toks.map advance).sum = input_size) (hsz : input_size < 4294967296) :
    (lz4CompressPart1 M (toks ++ extra) input_size ml idx).state.lit_outStream =
      litBytes (keptTokens M 0 toks) ∧
    keptTokens M 0 toks <+: toks ∧
    (longestRun 0 toks < M → keptTokens M 0 toks = toks) := by
  refine ⟨?_, keptTokens_initial M toks 0, keptTokens_eq_self M toks 0⟩
  by_cases hne : toks = []
  · subst hne
    simp only [List.map_nil, List.sum_nil] at hcov
    subst hcov
    simp [lz4CompressPart1, Outcome.state, keptTokens, litBytes]
  · by_cases hlast : advance (toks.getLast hne) = 1 ∨ extra ≠ []
    · obtain ⟨s, hs, hw⟩ := part1_returned M input_size toks extra ml idx hne hcov hsz hlast
      rw [hs]
      simp only [Part1State.written, Prod.mk.injEq] at hw
      simp only [Outcome.state, hw.1, divided, divideEpilogue_lits]
      rw [divideTokens_lits]
      simp [part1Init]
    · have h1 : advance (toks.getLast hne) ≠ 1 := fun h => hlast (Or.inl h)
      have h2 : extra = [] := by
        by_contra h; exact hlast (Or.inr h)
      subst h2
      obtain ⟨s, hs, hw⟩ := part1_blocked M input_size toks ml idx hne hcov hsz h1
      rw [List.append_nil, hs]
      simp only [Part1State.written, Prod.mk.injEq] at hw
      simp only [Outcome.state, hw.1]
      rw [divideTokens_lits]
      have hsplit := List.dropLast_append_getLast hne
      have := litBytes_keptTokens_snoc M toks.dropLast (toks.getLast hne)
        (tLen_of_advance_ne_one h1) 0
      rw [hsplit] at this
      simp [part1Init, this]

theorem divider_literal_stream_witness :
    (lz4CompressPart1 2 ([97, 98, 99] ++ []) 3 [0] 0).state.lit_outStream =
      litBytes (keptTokens 2 0 [97, 98, 99]) ∧
    keptTokens 2 0 [97, 98, 99] <+: [97, 98, 99] ∧
    (longestRun 0 [97, 98, 99] < 2 → keptTokens 2 0 [97, 98, 99] = [97, 98, 99]) :=
  divider_literal_stream 2 3 [97, 98, 99] [] [0] 0 (by decide) (by decide)

/-- The literal stream at a small limit: with `MAX_LIT_COUNT = 2` and three
literal tokens the divider returns with only the first two literal bytes in
the literal stream; the third token meets `lit_count >= MAX_LIT_COUNT` and is
dropped. -/
theorem divider_literal_stream_small_limit :
    (([97, 98, 99] : List Nat).map advance).sum = 3 ∧
    (lz4CompressPart1 2 [97, 98, 99] 3 [0] 0).isReturned = true ∧
    (lz4CompressPart1 2 [97, 98, 99] 3 [0] 0).state.lit_outStream = [97, 98] ∧
    litBytes [97, 98, 99] = [97, 98, 99] := by
  decide

/-- C7 (overflow invariant), amended.  For a non-empty token stream `toks`
that covers `input_size` bytes, whose last token is a literal or which is
followed in the input stream by at least one more value, `lz4CompressPart1`
returns; every descriptor it wrote has a literal run length of at most `M`;
`max_lit_limit[index]` is set to 1 if a run of consecutive literal tokens
reaches `M` and to 0 otherwise; and a descriptor with literal run length `M`
only occurs with the flag set to 1. -/
theorem divider_overflow_invariant (M input_size : Nat) (toks extra ml : List Nat) (idx : Nat)
    (hne : toks ≠ []) (hcov : (toks.map advance).sum = input_size)
    (hsz : input_size < 4294967296)
    (hlast : tLen (toks.getLast hne) = 0 ∨ extra ≠ []) :
    ∃ s, lz4CompressPart1 M (toks ++ extra) input_size ml idx = .returned s ∧
      (∀ d ∈ s.lenOffset_Stream, descLit d ≤ M) ∧
      s.max_lit_limit = ml.set idx (if M ≤ longestRun 0 toks then 1 else 0) ∧
      (∀ d ∈ s.lenOffset_Stream, descLit d = M → s.max_lit_limit = ml.set idx 1) := by
  obtain ⟨s, hs, hw⟩ := part1_returned M input_size toks extra ml idx hne hcov hsz
    (hlast.imp advance_of_literal id)
  simp only [Part1State.written, Prod.mk.injEq] at hw
  obtain ⟨-, hd, hm, -, -⟩ := hw
  have hinv : RunInv M (divideTokens M toks (part1Init [] ml)) :=
    divideTokens_inv M toks _ ⟨Nat.zero_le _, by simp [part1Init]⟩
  have hdesc := divideEpilogue_descs M idx _ hinv
  have hflag := divided_flag M idx toks (part1Init [] ml) (Nat.zero_le _) (Or.inl hne)
  have hml : s.max_lit_limit = ml.set idx (if M ≤ longestRun 0 toks then 1 else 0) := by
    rw [hm, divided, divideEpilogue_max_lit_limit, divideTokens_max_lit_limit, hflag]
    simp [part1Init]
  refine ⟨s, hs, ?_, hml, ?_⟩
  · intro d hdm
    rw [hd] at hdm
    exact (hdesc d hdm).1
  · intro d hdm hM
    rw [hd] at hdm
    rw [hml]
    rcases (hdesc d hdm).2 hM with h0 | h1
    · subst h0
      have hz : descLit 0 = 0 := by decide
      have : M = 0 := by omega
      subst this
      simp
    · rw [hflag] at h1
      simp only [part1Init] at h1
      by_cases hc : M ≤ longestRun 0 toks
      · simp [hc]
      · simp [hc] at h1

theorem divider_overflow_invariant_witness :
    ∃ s, lz4CompressPart1 2 ([97, 98, 99] ++ []) 3 [0] 0 = .returned s ∧
      (∀ d ∈ s.lenOffset_Stream, descLit d ≤ 2) ∧
      s.max_lit_limit = ([0] : List Nat).set 0 (if 2 ≤ longestRun 0 [97, 98, 99] then 1 else 0) ∧
      (∀ d ∈ s.lenOffset_Stream, descLit d = 2 → s.max_lit_limit = ([0] : List Nat).set 0 1) :=
  divider_overflow_invariant 2 3 [97, 98, 99] [] [0] 0 (by decide) (by decide) (by decide)
    (Or.inl (by decide))

/-- C7 as stated fails: on two literal tokens and a final match token of a
6-byte block the divider stays in the prefetch of its last pass and never
assigns `max_lit_limit[index]`; the entry keeps the caller's value 5, although
no literal run reaches `MAX_LIT_COUNT = 4096`. -/
theorem divider_overflow_invariant_counterexample :
    ([98, 99, 66560] : List Nat) ≠ [] ∧ (([98, 99, 66560] : List Nat).map advance).sum = 6 ∧
    ¬ (4096 ≤ longestRun 0 [98, 99, 66560]) ∧
    (lz4CompressPart1 4096 [98, 99, 66560] 6 [5] 0).isReturned = false ∧
    (lz4CompressPart1 4096 [98, 99, 66560] 6 [5] 0).state.max_lit_limit = [5] ∧
    ([5] : List Nat).set 0 0 = [0] := by
  decide

/-! ## The decoder on the records of the encoder -/

theorem readLenExt_lenExt (n : Nat) : ∀ (rest : List Nat) (acc : Nat),
    readLenExt (lenExt n ++ rest) acc = some (acc + n, rest) := by
  induction n using Nat.strong_induction_on with
  | _ n ih =>
    intro rest acc
    by_cases h : 255 ≤ n
    · rw [lenExt_ge n h]
      simp only [List.cons_append, readLenExt, if_true, List.append_eq]
      rw [ih (n - 255) (by omega)]
      have : acc + 255 + (n - 255) = acc + n := by omega
      rw [this]
    · have h2 : n % 255 = n := by omega
      have h3 : n / 255 = 0 := by omega
      have hne : n ≠ 255 := by omega
      simp [lenExt, h2, h3, readLenExt, hne]

theorem readLen_escape (n : Nat) (rest : List Nat) :
    readLen (min n 15) (escape n ++ rest) = some (n, rest) := by
  by_cases h : 15 ≤ n
  · have : min n 15 = 15 := by omega
    rw [this, escape_eq_lenExt n h]
    simp only [readLen, if_true, readLenExt_lenExt]
    have : 15 + (n - 15) = n := by omega
    rw [this]
  · have h1 : min n 15 = n := by omega
    have h2 : n ≠ 15 := by omega
    simp [readLen, h1, h2, escape, Nat.lt_of_not_le h]

theorem tokenByte_div (L M : Nat) : tokenByte L M / 16 = min L 15 := by
  unfold tokenByte; omega

theorem tokenByte_mod (L M : Nat) : tokenByte L M % 16 = min M 15 := by
  unfold tokenByte; omega

/-- The decoder on one record that ends with a match. -/
theorem decode_match_record (fuel L M O : Nat) (ls rest out : List Nat)
    (hL : ls.length = L) (hO1 : 1 ≤ O) (hO : O ≤ (out ++ ls).length) :
    lz4DecodeLoop (fuel + 1)
      (tokenByte L M :: (escape L ++ ls ++ [O % 256, O / 256] ++ escape M) ++ rest) out =
    lz4DecodeLoop fuel rest (copyMatch O (M + 4) (out ++ ls)) := by
  have hoff : O % 256 + 256 * (O / 256) = O := by omega
  have h1 : tokenByte L M :: (escape L ++ ls ++ [O % 256, O / 256] ++ escape M) ++ rest =
      tokenByte L M :: (escape L ++ (ls ++ (O % 256 :: O / 256 :: (escape M ++ rest)))) := by
    simp
  rw [h1]
  simp only [lz4DecodeLoop, tokenByte_div, tokenByte_mod, readLen_escape]
  have h2 : ¬ (ls ++ O % 256 :: O / 256 :: (escape M ++ rest)).length < L := by
    simp; omega
  have h3 : List.drop L (ls ++ O % 256 :: O / 256 :: (escape M ++ rest)) =
      O % 256 :: O / 256 :: (escape M ++ rest) := by
    rw [← hL]; simp
  have h4 : List.take L (ls ++ O % 256 :: O / 256 :: (escape M ++ rest)) = ls := by
    rw [← hL]; simp
  simp only [h2, if_false, h3, h4, hoff, readLen_escape]
  have h5 : ¬ (O = 0 ∨ (out ++ ls).length < O) := by omega
  simp only [h5, if_false]

/-- The decoder on a final record of literals only. -/
theorem decode_terminal_record (fuel L : Nat) (ls out : List Nat) (hL : ls.length = L) :
    lz4DecodeLoop (fuel + 1) (tokenByte L 0 :: (escape L ++ ls)) out = some (out ++ ls) := by
  have h1 : escape L ++ ls = escape L ++ (ls ++ []) := by simp
  simp only [lz4DecodeLoop, tokenByte_div, h1, readLen_escape]
  simp [← hL]

/-! ## Tokens, descriptors and blocks -/

theorem expectedDescs_eq (toks : List Nat) :
    ∀ k, expectedDescs k toks = tokenDescs k toks ++ [0] := by
  induction toks with
  | nil => intro k; simp [expectedDescs, tokenDescs]
  | cons v vs ih =>
    intro k
    by_cases hv : tLen v = 0
    · simp [expectedDescs, tokenDescs, hv, ih]
    · simp [expectedDescs, tokenDescs, hv, ih]

theorem tOffset_lt (v : Nat) : tOffset v < 65536 := by unfold tOffset; omega

/-- The encoder's layout of the divider's descriptors and literals is the
block encoding of the tokens. -/
theorem layout_tokenDescs (toks : List Nat) :
    ∀ pend : List Nat, longestRun pend.length toks ≤ 65535 →
      (∀ v ∈ toks, tLen v ≠ 0 → 4 ≤ tLen v ∧ 1 ≤ tOffset v) →
      (∀ w ∈ tokenDescs pend.length toks, w ≠ 0) ∧
      litNeed (tokenDescs pend.length toks) = pend.length + (litBytes toks).length ∧
      layout (tokenDescs pend.length toks) (pend ++ litBytes toks) = encTokens pend toks := by
  induction toks with
  | nil =>
    intro pend hrun _
    simp only [longestRun] at hrun
    by_cases hp : pend = []
    · subst hp
      simp [tokenDescs, litNeed, layout, encTokens, litBytes]
    · have hpos : 0 < pend.length := List.length_pos.mpr hp
      have h1 : descLit (tmpValue pend.length 0 0) % 65536 = pend.length := by
        rw [descLit_tmpValue]; omega
      refine ⟨?_, ?_, ?_⟩
      · intro w hw
        simp only [tokenDescs, hpos, if_true, List.mem_singleton] at hw
        subst hw
        rw [Ne, tmpValue_eq_zero]
        omega
      · simp [tokenDescs, hpos, litNeed, h1, litBytes]
      · simp [tokenDescs, hpos, layout, encTokens, hp, litBytes, h1,
          seqBytes_terminal _ _ hrun hpos]
  | cons v vs ih =>
    intro pend hrun hm
    have hk := le_longestRun (v :: vs) pend.length
    have hm' : ∀ x ∈ vs, tLen x ≠ 0 → 4 ≤ tLen x ∧ 1 ≤ tOffset x :=
      fun x hx => hm x (by simp [hx])
    by_cases hv : tLen v = 0
    · simp only [longestRun, hv, if_true] at hrun
      have := ih (pend ++ [tCh v]) (by simpa using hrun) hm'
      simp only [List.length_append, List.length_singleton] at this
      obtain ⟨h1, h2, h3⟩ := this
      have hl : litBytes (v :: vs) = tCh v :: litBytes vs := by simp [litBytes, hv]
      refine ⟨?_, ?_, ?_⟩
      · simpa [tokenDescs, hv] using h1
      · simp only [tokenDescs, hv, if_true, h2, hl, List.length_cons]; omega
      · simp only [tokenDescs, hv, if_true, encTokens, hl]
        rw [← h3]; simp
    · simp only [longestRun, hv, if_false] at hrun
      obtain ⟨h4, hO1⟩ := hm v (by simp) hv
      have h256 := tLen_lt v
      have hO := tOffset_lt v
      have := ih [] (by simp; omega) hm'
      simp only [List.length_nil, List.nil_append, Nat.zero_add] at this
      obtain ⟨h1, h2, h3⟩ := this
      have hl : litBytes (v :: vs) = litBytes vs := by simp [litBytes, hv]
      have hL : descLit (tmpValue pend.length (tLen v - 4) (tOffset v)) % 65536 = pend.length := by
        rw [descLit_tmpValue]; omega
      refine ⟨?_, ?_, ?_⟩
      · intro w hw
        simp only [tokenDescs, hv, if_false, List.mem_cons] at hw
        rcases hw with hw | hw
        · subst hw
          rw [Ne, tmpValue_eq_zero]
          omega
        · exact h1 w hw
      · simp only [tokenDescs, hv, if_false, hl]
        unfold litNeed at h2 ⊢
        simp only [List.map_cons, List.sum_cons, h2, hL]
      · simp only [tokenDescs, hv, if_false, layout, hL, hl, encTokens]
        rw [seqBytes_match _ _ _ _ (by omega) (by omega) (by omega) hO1 (by omega)]
        simp [h3]

theorem escape_length_le (n : Nat) : (escape n).length ≤ n / 255 + 1 := by
  unfold escape
  split
  · simp
  · simp; omega

theorem encTokens_length_le (toks : List Nat) :
    ∀ pend : List Nat, (encTokens pend toks).length ≤ 2 * pend.length + 5 * toks.length + 2 := by
  induction toks with
  | nil =>
    intro pend
    have := escape_length_le pend.length
    unfold encTokens
    split
    · simp
    · simp only [List.length_cons, List.length_append, List.length_nil]; omega
  | cons v vs ih =>
    intro pend
    unfold encTokens
    split
    · have := ih (pend ++ [tCh v])
      simp only [List.length_append, List.length_singleton, List.length_cons,
        List.length_nil] at this ⊢
      omega
    · have := ih []
      have h1 := escape_length_le pend.length
      have h2 := escape_length_le (tLen v - 4)
      have h3 := tLen_lt v
      simp only [List.length_append, List.length_cons, List.length_nil] at this ⊢
      omega

/-- The decoder gives back the bytes the tokens stand for. -/
theorem decode_encTokens (toks : List Nat) :
    ∀ (pend out : List Nat) (fuel : Nat), matchesInRange (out ++ pend) toks = true →
      (encTokens pend toks).length ≤ fuel →
      lz4DecodeLoop fuel (encTokens pend toks) out = some (expand (out ++ pend) toks) := by
  induction toks with
  | nil =>
    intro pend out fuel _ hf
    by_cases hp : pend = []
    · subst hp
      cases fuel <;> simp [encTokens, lz4DecodeLoop, expand]
    · simp only [encTokens, hp, if_false] at hf ⊢
      obtain ⟨fuel, rfl⟩ : ∃ k, fuel = k + 1 := ⟨fuel - 1, by simp at hf; omega⟩
      rw [decode_terminal_record fuel _ pend out rfl]
      simp [expand]
  | cons v vs ih =>
    intro pend out fuel hwf hf
    by_cases hv : tLen v = 0
    · simp only [matchesInRange, hv, if_true] at hwf
      simp only [encTokens, hv, if_true] at hf ⊢
      rw [ih (pend ++ [tCh v]) out fuel (by simpa using hwf) hf]
      simp [expand, hv]
    · simp only [matchesInRange, hv, if_false, Bool.and_eq_true, decide_eq_true_eq] at hwf
      obtain ⟨⟨⟨h4, hO1⟩, hO⟩, hrest⟩ := hwf
      simp only [encTokens, hv, if_false] at hf ⊢
      obtain ⟨fuel, rfl⟩ : ∃ k, fuel = k + 1 := ⟨fuel - 1, by simp at hf; omega⟩
      rw [decode_match_record fuel _ _ _ pend _ out rfl hO1 hO]
      have h5 : tLen v - 4 + 4 = tLen v := by omega
      rw [h5, ih [] _ fuel (by simpa using hrest)
        (by simp only [List.length_append, List.length_cons] at hf; omega)]
      simp [expand, hv]

/-! ## Valid parses -/

theorem validParseAt_le (block : List Nat) (toks : List Nat) :
    ∀ p, validParseAt block p toks = true → p + (toks.map advance).sum = block.length := by
  induction toks with
  | nil => intro p h; simpa [validParseAt] using h
  | cons v vs ih =>
    intro p h
    simp only [validParseAt, Bool.and_eq_true] at h
    have := ih _ h.2
    simp only [List.map_cons, List.sum_cons]
    omega

theorem copyMatch_take (block : List Nat) (off : Nat) (hoff : 1 ≤ off) :
    ∀ (n q : Nat), q + n ≤ block.length → off ≤ q →
      (∀ j, j < n → block[q + j]? = block[q + j - off]?) →
      copyMatch off n (block.take q) = block.take (q + n) := by
  intro n
  induction n with
  | zero => intro q _ _ _; simp [copyMatch]
  | succ n ih =>
    intro q hq hle hcopy
    have hlen : (block.take q).length = q := by rw [List.length_take]; omega
    have h0 := hcopy 0 (by omega)
    simp only [Nat.add_zero] at h0
    have hq' : q < block.length := by omega
    have hget : (block.take q).getD (q - off) 0 = block[q] := by
      rw [List.getD_eq_getElem?_getD, List.getElem?_take_of_lt (by omega), ← h0,
        List.getElem?_eq_getElem hq']
      rfl
    have hnext : block.take q ++ [block[q]] = block.take (q + 1) := by
      rw [List.take_succ, List.getElem?_eq_getElem hq']
      rfl
    simp only [copyMatch, hlen, hget, hnext]
    rw [ih (q + 1) (by omega) (by omega)]
    · congr 1; omega
    · intro j hj
      have := hcopy (j + 1) (by omega)
      have e1 : q + (j + 1) = q + 1 + j := by omega
      have e2 : q + (j + 1) - off = q + 1 + j - off := by omega
      rw [e1] at this
      exact this

/-- A valid parse has its matches in range and stands for the block. -/
theorem validParseAt_expand (block : List Nat) (toks : List Nat) :
    ∀ p, validParseAt block p toks = true →
      matchesInRange (block.take p) toks = true ∧ expand (block.take p) toks = block := by
  induction toks with
  | nil =>
    intro p h
    simp only [validParseAt, decide_eq_true_eq] at h
    simp [matchesInRange, expand, h]
  | cons v vs ih =>
    intro p h
    have hsum := validParseAt_le block (v :: vs) p h
    simp only [List.map_cons, List.sum_cons] at hsum
    simp only [validParseAt, Bool.and_eq_true] at h
    obtain ⟨hv, hrest⟩ := h
    by_cases hz : tLen v = 0
    · simp only [hz, if_true, decide_eq_true_eq] at hv
      have hadv : advance v = 1 := by simp [advance, hz]
      rw [hadv] at hrest
      have hnext : block.take p ++ [tCh v] = block.take (p + 1) := by
        rw [List.take_succ, hv]
        rfl
      obtain ⟨h1, h2⟩ := ih _ hrest
      simp only [matchesInRange, expand, hz, if_true, hnext]
      exact ⟨h1, h2⟩
    · simp only [hz, if_false, Bool.and_eq_true, decide_eq_true_eq, List.all_eq_true,
        List.mem_range] at hv
      obtain ⟨⟨⟨⟨h4, -⟩, hO1⟩, hO⟩, hcopy⟩ := hv
      have hadv : advance v = tLen v := by simp [advance, hz]
      rw [hadv] at hrest hsum
      have hlen : (block.take p).length = p := by rw [List.length_take]; omega
      have hcm := copyMatch_take block (tOffset v) hO1 (tLen v) p (by omega) hO hcopy
      obtain ⟨h1, h2⟩ := ih _ hrest
      simp only [matchesInRange, expand, hz, if_false, hcm, hlen, h1, h2, Bool.and_eq_true,
        decide_eq_true_eq]
      exact ⟨⟨⟨⟨h4, hO1⟩, hO⟩, trivial⟩, trivial⟩

theorem validParseAt_lengths (block : List Nat) (toks : List Nat) :
    ∀ p, validParseAt block p toks = true →
      ∀ v ∈ toks, tLen v ≠ 0 → (4 ≤ tLen v ∧ tLen v ≤ 255) ∧ 1 ≤ tOffset v := by
  induction toks with
  | nil => intro p _ v hv; simp at hv
  | cons w ws ih =>
    intro p h v hv hz
    simp only [validParseAt, Bool.and_eq_true] at h
    rcases List.mem_cons.mp hv with rfl | hmem
    · have := h.1
      simp only [hz, if_false, Bool.and_eq_true, decide_eq_true_eq] at this
      exact ⟨⟨this.1.1.1.1, this.1.1.1.2⟩, this.1.1.2⟩
    · exact ih _ h.2 v hmem hz

theorem longestRun_le_add_length (toks : List Nat) :
    ∀ k, longestRun k toks ≤ k + toks.length := by
  induction toks with
  | nil => intro k; simp [longestRun]
  | cons v vs ih =>
    intro k
    have h1 := ih (k + 1)
    have h2 := ih 0
    unfold longestRun
    simp only [List.length_cons]
    split <;> omega

/-! ## C1: round trip -/

/-- C1 (round trip), amended.  Take a non-empty block of at most 65536 bytes,
a token stream `toks` that is a valid parse of it, with no literal run
reaching `M ≤ 65536`, whose last token is a literal or which is followed in
the input stream by at least one more value.  Then `lz4CompressPart1` returns,
`lz4CompressPart2` returns on the two streams it wrote once it has enough
passes, and decoding the first `compressedSize` bytes of `outStream` with the
LZ4 block decoder gives back the block. -/
theorem round_trip (M : Nat) (block toks extra ml : List Nat) (idx : Nat)
    (hM : M ≤ 65536) (hb : block ≠ []) (hlen : block.length ≤ 65536)
    (hv : validParseAt block 0 toks = true) (hrun : longestRun 0 toks < M)
    (hlast : (∃ v, toks.getLast? = some v ∧ tLen v = 0) ∨ extra ≠ []) :
    ∃ s1, lz4CompressPart1 M (toks ++ extra) block.length ml idx = .returned s1 ∧
      ∃ N, ∀ fuel, N ≤ fuel → ∃ r n,
        lz4CompressPart2 fuel s1.lit_outStream s1.lenOffset_Stream block.length
          = .returned r ∧
        r.compressdSizeStream = [n] ∧
        lz4Decode (r.outStream.take n) = some block := by
  have hcov := validParseAt_le block toks 0 hv
  simp only [Nat.zero_add] at hcov
  have hfields := validParseAt_lengths block toks 0 hv
  have hne : toks ≠ [] := by
    intro h
    rw [h] at hcov
    exact hb (List.length_eq_zero.mp hcov.symm)
  have hlast' : advance (toks.getLast hne) = 1 ∨ extra ≠ [] := by
    rcases hlast with ⟨v, hv1, hv2⟩ | h
    · rw [List.getLast?_eq_getLast _ hne] at hv1
      rw [Option.some.inj hv1]
      exact Or.inl (advance_of_literal hv2)
    · exact Or.inr h
  obtain ⟨s1, hs1, hw⟩ := part1_returned M block.length toks extra ml idx hne hcov
    (by omega) hlast'
  obtain ⟨hd, hl, -⟩ := divided_no_overflow M idx toks (part1Init [] ml) hrun
    (fun v hv h0 => (hfields v hv h0).1.1)
  simp only [Part1State.written, Prod.mk.injEq] at hw
  have hdesc : s1.lenOffset_Stream = tokenDescs 0 toks ++ 0 :: [] := by
    rw [hw.2.1]
    simpa [divided, part1Init, expectedDescs_eq] using hd
  have hlits : s1.lit_outStream = litBytes toks := by
    rw [hw.1]
    simpa [divided, part1Init] using hl
  obtain ⟨h1, h2, h3⟩ := layout_tokenDescs toks [] (by simp; omega)
    (fun v hv h0 => ⟨(hfields v hv h0).1.1, (hfields v hv h0).2⟩)
  simp only [List.length_nil, List.nil_append, Nat.zero_add] at h1 h2 h3
  have h0 : block.length ≠ 0 := fun h => hb (List.length_eq_zero.mp h)
  obtain ⟨N, hN⟩ := part2_run (litBytes toks) (tokenDescs 0 toks) [] block.length h0 h1
    (by omega)
  have hsize : (encTokens [] toks).length < 4294967296 := by
    have := encTokens_length_le toks []
    have := length_le_sum_advance toks
    simp only [List.length_nil] at *
    omega
  obtain ⟨hwf, hex⟩ := validParseAt_expand block toks 0 hv
  simp only [List.take_zero] at hwf hex
  refine ⟨s1, hs1, N, fun fuel hf => ?_⟩
  obtain ⟨r, hr, hout, -, hsz, -⟩ := hN fuel hf
  refine ⟨r, (encTokens [] toks).length, ?_, ?_, ?_⟩
  · rw [hdesc, hlits]; exact hr
  · rw [hsz, h3, Nat.mod_eq_of_lt hsize]
  · rw [hout, h3, List.take_left' rfl]
    unfold lz4Decode
    rw [decode_encTokens toks [] [] _ (by simpa using hwf) (Nat.le_refl _)]
    simp [hex]

theorem round_trip_witness :
    ∃ s1, lz4CompressPart1 4096 ([97, 66560, 98] ++ []) [97, 97, 97, 97, 97, 98].length [0] 0
        = .returned s1 ∧
      ∃ N, ∀ fuel, N ≤ fuel → ∃ r n,
        lz4CompressPart2 fuel s1.lit_outStream s1.lenOffset_Stream
          [97, 97, 97, 97, 97, 98].length = .returned r ∧
        r.compressdSizeStream = [n] ∧
        lz4Decode (r.outStream.take n) = some [97, 97, 97, 97, 97, 98] :=
  round_trip 4096 [97, 97, 97, 97, 97, 98] [97, 66560, 98] [] [0] 0 (by decide) (by decide)
    (by decide) (by decide) (by decide) (Or.inl ⟨98, by decide, by decide⟩)

/-- C1 as stated fails: the tokens literal `a`, match (length 4, offset 1)
are a valid parse of the block `aaaaa`, yet the divider stays in the prefetch
of its last pass with an empty descriptor stream, and the encoder, whatever
the number of passes, never reports a size nor writes a byte. -/
theorem round_trip_counterexample :
    validParseAt [97, 97, 97, 97, 97] 0 [97, 66560] = true ∧
    longestRun 0 [97, 66560] < 4096 ∧
    (lz4CompressPart1 4096 [97, 66560] 5 [0] 0).isReturned = false ∧
    (lz4CompressPart1 4096 [97, 66560] 5 [0] 0).state.lit_outStream = [97] ∧
    (lz4CompressPart1 4096 [97, 66560] 5 [0] 0).state.lenOffset_Stream = [] ∧
    (∀ fuel, (lz4CompressPart2 fuel [97] [] 5).isReturned = false ∧
      (lz4CompressPart2 fuel [97] [] 5).state.compressdSizeStream = [] ∧
      (lz4CompressPart2 fuel [97] [] 5).state.outStream = []) := by
  refine ⟨by decide, by decide, by decide, by decide, by decide, ?_⟩
  intro fuel
  cases fuel <;> exact ⟨rfl, rfl, rfl⟩

/-! ## The scheduler: lanes, batches, the table -/

theorem setAt_same {α : Type} (a : Nat → α) (j : Nat) (v : α) : setAt a j v j = v := by
  simp [setAt]

theorem setAt_ne {α : Type} (a : Nat → α) (j : Nat) (v : α) {x : Nat} (h : x ≠ j) :
    setAt a j v x = a x := by
  simp [setAt, h]

theorem setAt_setAt {α : Type} (a : Nat → α) (j : Nat) (v w : α) :
    setAt (setAt a j v) j w = setAt a j w := by
  funext x
  simp only [setAt]
  split <;> rfl

theorem classifyLane_small {W : Type} (MIN input_size i nblocks j : Nat) (s : MMState W)
    (hj : j < nblocks) (hs : inBlockSizeOf input_size s.readBlockSize < MIN) :
    classifyLane MIN input_size i nblocks j s =
      { s with
        small_block := setAt s.small_block j true
        small_block_inSize := setAt s.small_block_inSize j
          (inBlockSizeOf input_size s.readBlockSize)
        input_block_size := setAt s.input_block_size j 0
        input_idx := setAt s.input_idx j 0
        output_block_size := setAt s.output_block_size j 0
        max_lit_limit := setAt s.max_lit_limit j 0 } := by
  simp [classifyLane, hj, hs]

theorem classifyLane_normal {W : Type} (MIN input_size i nblocks j : Nat) (s : MMState W)
    (hj : j < nblocks) (hs : ¬ inBlockSizeOf input_size s.readBlockSize < MIN) :
    classifyLane MIN input_size i nblocks j s =
      { s with
        small_block := setAt s.small_block j false
        input_block_size := setAt s.input_block_size j
          (inBlockSizeOf input_size s.readBlockSize)
        readBlockSize :=
          (s.readBlockSize + inBlockSizeOf input_size s.readBlockSize) % 4294967296
        input_idx := setAt s.input_idx j ((i + j) % 4294967296 * 65536 % 4294967296)
        output_idx := setAt s.output_idx j ((i + j) % 4294967296 * 65536 % 4294967296)
        output_block_size := setAt s.output_block_size j 0
        max_lit_limit := setAt s.max_lit_limit j 0 } := by
  simp [classifyLane, hj, hs]

theorem classifyLane_idle {W : Type} (MIN input_size i nblocks j : Nat) (s : MMState W)
    (hj : ¬ j < nblocks) :
    classifyLane MIN input_size i nblocks j s =
      { s with
        input_block_size := setAt s.input_block_size j 0
        input_idx := setAt s.input_idx j 0
        output_block_size := setAt s.output_block_size j 0
        max_lit_limit := setAt s.max_lit_limit j 0 } := by
  simp [classifyLane, hj]

theorem recordLane_eq {W : Type} (k : Nat) (s : MMState W) :
    recordLane k s =
      { s with
        compressd_size := setAt s.compressd_size s.block_idx (some (resolved s k))
        block_idx := (s.block_idx + 1) % 4294967296 } := by
  unfold recordLane resolved
  by_cases hs : s.small_block k = true <;> by_cases hm : s.max_lit_limit k = 0 <;>
    simp [hs, hm, setAt_setAt]

theorem classifyLane_table {W : Type} (MIN input_size i nblocks j : Nat) (s : MMState W) :
    (classifyLane MIN input_size i nblocks j s).compressd_size = s.compressd_size ∧
    (classifyLane MIN input_size i nblocks j s).block_idx = s.block_idx := by
  by_cases hj : j < nblocks
  · by_cases hs : inBlockSizeOf input_size s.readBlockSize < MIN
    · rw [classifyLane_small _ _ _ _ _ _ hj hs]; exact ⟨rfl, rfl⟩
    · rw [classifyLane_normal _ _ _ _ _ _ hj hs]; exact ⟨rfl, rfl⟩
  · rw [classifyLane_idle _ _ _ _ _ _ hj]; exact ⟨rfl, rfl⟩

theorem classifyLanes_table {W : Type} (MIN input_size i nblocks : Nat) (n : Nat)
    (s : MMState W) :
    (classifyLanes MIN input_size i nblocks n s).compressd_size = s.compressd_size ∧
    (classifyLanes MIN input_size i nblocks n s).block_idx = s.block_idx := by
  induction n with
  | zero => exact ⟨rfl, rfl⟩
  | succ n ih =>
    have := classifyLane_table MIN input_size i nblocks n
      (classifyLanes MIN input_size i nblocks n s)
    simp only [classifyLanes]
    exact ⟨this.1.trans ih.1, this.2.trans ih.2⟩

/-- After the first `n` passes of the loop over `j`: the lanes `k` below `n`
that hold a block are classified by their original size. -/
theorem classifyLanes_spec {W : Type} (MIN input_size i nblocks : Nat) (s : MMState W) :
    ∀ n, (classifyLanes MIN input_size i nblocks n s).readBlockSize =
        readAfter MIN input_size s.readBlockSize (min n nblocks) ∧
      ∀ k, k < n → k < nblocks →
        (classifyLanes MIN input_size i nblocks n s).small_block k =
          decide (laneSize MIN input_size s.readBlockSize k < MIN) ∧
        (laneSize MIN input_size s.readBlockSize k < MIN →
          (classifyLanes MIN input_size i nblocks n s).small_block_inSize k =
            laneSize MIN input_size s.readBlockSize k) ∧
        (¬ laneSize MIN input_size s.readBlockSize k < MIN →
          (classifyLanes MIN input_size i nblocks n s).input_block_size k =
            laneSize MIN input_size s.readBlockSize k) := by
  intro n
  induction n with
  | zero => exact ⟨by simp [classifyLanes, readAfter], fun k hk => absurd hk (Nat.not_lt_zero k)⟩
  | succ n ih =>
    obtain ⟨ihr, ihk⟩ := ih
    simp only [classifyLanes]
    by_cases hn : n < nblocks
    · have hmin : min n nblocks = n := by omega
      have hmin' : min (n + 1) nblocks = n + 1 := by omega
      rw [hmin] at ihr
      by_cases hsmall : inBlockSizeOf input_size
          (classifyLanes MIN input_size i nblocks n s).readBlockSize < MIN
      · rw [classifyLane_small _ _ _ _ _ _ hn hsmall]
        rw [ihr] at hsmall
        refine ⟨?_, ?_⟩
        · simp only [hmin', readAfter, hsmall, if_true, ihr]
        · intro k hk hkb
          by_cases hkn : k = n
          · subst hkn
            simp only [setAt_same, laneSize, ihr]
            simp [hsmall]
          · have hlt : k < n := by omega
            obtain ⟨h1, h2, h3⟩ := ihk k hlt hkb
            simp only [setAt_ne _ _ _ hkn]
            exact ⟨h1, h2, h3⟩
      · rw [classifyLane_normal _ _ _ _ _ _ hn hsmall]
        rw [ihr] at hsmall
        refine ⟨?_, ?_⟩
        · simp only [hmin', readAfter, hsmall, if_false, ihr]
        · intro k hk hkb
          by_cases hkn : k = n
          · subst hkn
            simp only [setAt_same, laneSize, ihr]
            simp [hsmall]
          · have hlt : k < n := by omega
            obtain ⟨h1, h2, h3⟩ := ihk k hlt hkb
            simp only [setAt_ne _ _ _ hkn]
            exact ⟨h1, h2, h3⟩
    · have hmin : min n nblocks = nblocks := by omega
      have hmin' : min (n + 1) nblocks = nblocks := by omega
      rw [hmin] at ihr
      rw [classifyLane_idle _ _ _ _ _ _ hn]
      refine ⟨?_, ?_⟩
      · simp only [hmin', ihr]
      · intro k hk hkb
        have hkn : k ≠ n := by omega
        have hlt : k < n := by omega
        obtain ⟨h1, h2, h3⟩ := ihk k hlt hkb
        simp only [setAt_ne _ _ _ hkn]
        exact ⟨h1, h2, h3⟩

/-- After the first `n` passes of the loop over `k`. -/
theorem recordLanes_spec {W : Type} (s : MMState W) :
    ∀ n, s.block_idx + n < 4294967296 →
      (recordLanes n s).block_idx = s.block_idx + n ∧
      (recordLanes n s).small_block = s.small_block ∧
      (recordLanes n s).small_block_inSize = s.small_block_inSize ∧
      (recordLanes n s).input_block_size = s.input_block_size ∧
      (recordLanes n s).output_block_size = s.output_block_size ∧
      (recordLanes n s).max_lit_limit = s.max_lit_limit ∧
      (recordLanes n s).readBlockSize = s.readBlockSize ∧
      ∀ b, (recordLanes n s).compressd_size b =
        if s.block_idx ≤ b ∧ b < s.block_idx + n then some (resolved s (b - s.block_idx))
        else s.compressd_size b := by
  intro n
  induction n with
  | zero =>
    intro _
    refine ⟨rfl, rfl, rfl, rfl, rfl, rfl, rfl, fun b => ?_⟩
    have : ¬ (s.block_idx ≤ b ∧ b < s.block_idx + 0) := by omega
    rw [if_neg this]
    rfl
  | succ n ih =>
    intro hlt
    obtain ⟨h1, h2, h3, h4, h5, h6, h7, h8⟩ := ih (by omega)
    have hmod : (s.block_idx + n + 1) % 4294967296 = s.block_idx + (n + 1) := by omega
    have hres : resolved (recordLanes n s) n = resolved s n := by
      simp only [resolved, h2, h3, h4, h5, h6]
    simp only [recordLanes, recordLane_eq, h1, hmod, hres]
    refine ⟨trivial, h2, h3, h4, h5, h6, h7, fun b => ?_⟩
    by_cases hb : b = s.block_idx + n
    · have hin : s.block_idx ≤ b ∧ b < s.block_idx + (n + 1) := by omega
      have hk : b - s.block_idx = n := by omega
      rw [if_pos hin, hk, hb, setAt_same]
    · rw [setAt_ne _ _ _ hb, h8 b]
      by_cases hin : s.block_idx ≤ b ∧ b < s.block_idx + n
      · have hin' : s.block_idx ≤ b ∧ b < s.block_idx + (n + 1) := by omega
        rw [if_pos hin, if_pos hin']
      · have hin' : ¬ (s.block_idx ≤ b ∧ b < s.block_idx + (n + 1)) := by omega
        rw [if_neg hin, if_neg hin']

theorem inBlockSizeOf_lt (input_size readBlockSize : Nat) :
    inBlockSizeOf input_size readBlockSize < 4294967296 := by
  unfold inBlockSizeOf
  split <;> omega

theorem nblocksOf_eq (NUM_BLOCK no_blocks i : Nat) (hi : i < no_blocks)
    (hnb : no_blocks ≤ 65536) (hN : NUM_BLOCK < 2147483648) :
    nblocksOf NUM_BLOCK no_blocks i = min NUM_BLOCK (no_blocks - i) := by
  unfold nblocksOf
  have h1 : (i + NUM_BLOCK) % 4294967296 = i + NUM_BLOCK := by omega
  have h2 : (no_blocks + 4294967296 - i) % 4294967296 = no_blocks - i := by omega
  rw [h1, h2]
  split <;> omega

/-- One pass in which the call returns: the table gets the resolved sizes of
its `nblocks` lanes at the indices from `block_idx` on, and nothing else
changes in it. -/
theorem pass_spec {W : Type} (run : LaneRun W)
    (NUM_BLOCK MIN_B_SIZE input_size no_blocks i : Nat) (s : MMState W)
    (hi : i < no_blocks) (hnb : no_blocks ≤ 65536) (hN : NUM_BLOCK < 2147483648)
    (hidx : s.block_idx ≤ 65536) :
    (pass run NUM_BLOCK MIN_B_SIZE input_size no_blocks i s).block_idx =
      s.block_idx + nblocksOf NUM_BLOCK no_blocks i ∧
    ∀ b, (pass run NUM_BLOCK MIN_B_SIZE input_size no_blocks i s).compressd_size b =
      if s.block_idx ≤ b ∧ b < s.block_idx + nblocksOf NUM_BLOCK no_blocks i then
        some (resolved (afterCall run (classifyLanes MIN_B_SIZE input_size i
          (nblocksOf NUM_BLOCK no_blocks i) NUM_BLOCK s)) (b - s.block_idx))
      else s.compressd_size b := by
  have hn := nblocksOf_eq NUM_BLOCK no_blocks i hi hnb hN
  have htab := classifyLanes_table MIN_B_SIZE input_size i (nblocksOf NUM_BLOCK no_blocks i)
    NUM_BLOCK s
  have hc1 : (afterCall run (classifyLanes MIN_B_SIZE input_size i
      (nblocksOf NUM_BLOCK no_blocks i) NUM_BLOCK s)).block_idx = s.block_idx := htab.2
  have hc2 : (afterCall run (classifyLanes MIN_B_SIZE input_size i
      (nblocksOf NUM_BLOCK no_blocks i) NUM_BLOCK s)).compressd_size = s.compressd_size := htab.1
  have hrec := recordLanes_spec (afterCall run (classifyLanes MIN_B_SIZE input_size i
    (nblocksOf NUM_BLOCK no_blocks i) NUM_BLOCK s)) (nblocksOf NUM_BLOCK no_blocks i)
    (by rw [hc1]; omega)
  obtain ⟨h1, -, -, -, -, -, -, h8⟩ := hrec
  rw [hc1] at h1
  refine ⟨h1, fun b => ?_⟩
  have := h8 b
  rw [hc1, hc2] at this
  exact this

/-- The lanes of a batch after the call of `hlsLz4`: lane `k` resolves to its
original size if that is below `MIN_B_SIZE` or if its flag is not 0, and to
the size `hlsLz4` reported otherwise. -/
theorem resolved_spec {W : Type} (run : LaneRun W)
    (NUM_BLOCK MIN_B_SIZE input_size i nblocks k : Nat) (s : MMState W)
    (hk : k < nblocks) (hkN : k < NUM_BLOCK) :
    resolved (afterCall run (classifyLanes MIN_B_SIZE input_size i nblocks NUM_BLOCK s)) k =
      if laneSize MIN_B_SIZE input_size s.readBlockSize k < MIN_B_SIZE then
        laneSize MIN_B_SIZE input_size s.readBlockSize k
      else if (afterCall run (classifyLanes MIN_B_SIZE input_size i nblocks NUM_BLOCK s)
          ).max_lit_limit k ≠ 0 then
        laneSize MIN_B_SIZE input_size s.readBlockSize k
      else (afterCall run (classifyLanes MIN_B_SIZE input_size i nblocks NUM_BLOCK s)
          ).output_block_size k := by
  obtain ⟨h1, h2, h3⟩ := (classifyLanes_spec MIN_B_SIZE input_size i nblocks s NUM_BLOCK).2 k
    hkN hk
  by_cases hs : laneSize MIN_B_SIZE input_size s.readBlockSize k < MIN_B_SIZE
  · simp only [resolved, afterCall, h1, hs, decide_True, if_true, h2 hs]
  · simp only [resolved, afterCall, h1, hs, decide_False, if_false, h3 hs]
    simp

theorem noBlocks_le (input_size : Nat) : noBlocks input_size ≤ 65536 := by
  unfold noBlocks; omega

theorem noBlocks_pos (input_size : Nat) : 1 ≤ noBlocks input_size := by
  unfold noBlocks; omega

theorem noBlocks_eq_ceil (input_size : Nat) (h1 : 1 ≤ input_size)
    (h2 : input_size < 4294967296) : noBlocks input_size = (input_size + 65535) / 65536 := by
  unfold noBlocks; omega

/-! ## Literal tokens -/

theorem longestRun_literals (toks : List Nat) (hall : ∀ v ∈ toks, tLen v = 0) :
    ∀ k, longestRun k toks = k + toks.length := by
  induction toks with
  | nil => intro k; simp [longestRun]
  | cons v vs ih =>
    intro k
    have hv : tLen v = 0 := hall v (by simp)
    simp only [longestRun, hv, if_true, List.length_cons]
    rw [ih (fun x hx => hall x (by simp [hx]))]
    omega

theorem sum_advance_literals (toks : List Nat) (hall : ∀ v ∈ toks, tLen v = 0) :
    (toks.map advance).sum = toks.length := by
  induction toks with
  | nil => simp
  | cons v vs ih =>
    have hv : advance v = 1 := advance_of_literal (hall v (by simp))
    simp only [List.map_cons, List.sum_cons, List.length_cons, hv]
    rw [ih (fun x hx => hall x (by simp [hx]))]
    omega

theorem readAfter_zero_input (MIN : Nat) (hMIN : 1 ≤ MIN) :
    ∀ k, readAfter MIN 0 0 k = 0 := by
  intro k
  induction k with
  | zero => rfl
  | succ k ih =>
    have h0 : inBlockSizeOf 0 0 = 0 := by decide
    simp only [readAfter, ih, h0]
    have : (0 : Nat) < MIN := by omega
    simp [this]

theorem pass_readBlockSize {W : Type} (run : LaneRun W)
    (NUM_BLOCK MIN_B_SIZE input_size no_blocks i : Nat) (s : MMState W)
    (hi : i < no_blocks) (hnb : no_blocks ≤ 65536) (hN : NUM_BLOCK < 2147483648)
    (hidx : s.block_idx ≤ 65536) :
    (pass run NUM_BLOCK MIN_B_SIZE input_size no_blocks i s).readBlockSize =
      readAfter MIN_B_SIZE input_size s.readBlockSize (nblocksOf NUM_BLOCK no_blocks i) := by
  have hn := nblocksOf_eq NUM_BLOCK no_blocks i hi hnb hN
  have htab := classifyLanes_table MIN_B_SIZE input_size i (nblocksOf NUM_BLOCK no_blocks i)
    NUM_BLOCK s
  have hc1 : (afterCall run (classifyLanes MIN_B_SIZE input_size i
      (nblocksOf NUM_BLOCK no_blocks i) NUM_BLOCK s)).block_idx = s.block_idx := htab.2
  obtain ⟨-, -, -, -, -, -, h7, -⟩ := recordLanes_spec (afterCall run
    (classifyLanes MIN_B_SIZE input_size i (nblocksOf NUM_BLOCK no_blocks i) NUM_BLOCK s))
    (nblocksOf NUM_BLOCK no_blocks i) (by rw [hc1]; omega)
  have hr := (classifyLanes_spec MIN_B_SIZE input_size i (nblocksOf NUM_BLOCK no_blocks i) s
    NUM_BLOCK).1
  have hmin : min NUM_BLOCK (nblocksOf NUM_BLOCK no_blocks i) = nblocksOf NUM_BLOCK no_blocks i := by
    omega
  rw [hmin] at hr
  exact h7.trans hr

/-! ## Runs at the limits: wide literal runs, the empty block, the default literal limit -/

theorem expectedDescs_literals (toks : List Nat) (hall : ∀ v ∈ toks, tLen v = 0) :
    ∀ k, expectedDescs k toks =
      (if 0 < k + toks.length then [tmpValue (k + toks.length) 0 0] else []) ++ [0] := by
  induction toks with
  | nil => intro k; simp [expectedDescs]
  | cons v vs ih =>
    intro k
    have hv : tLen v = 0 := hall v (by simp)
    simp only [expectedDescs, hv, if_true, List.length_cons]
    rw [ih (fun x hx => hall x (by simp [hx]))]
    have : k + 1 + vs.length = k + (vs.length + 1) := by omega
    rw [this]

theorem validParseAt_replicate (c : Nat) (hc : c < 256) (n : Nat) :
    ∀ m p, p + m = n →
      validParseAt (List.replicate n c) p (List.replicate m c) = true := by
  have hl : tLen c = 0 := by unfold tLen; omega
  have hch : tCh c = c := by unfold tCh; omega
  intro m
  induction m with
  | zero => intro p hp; simp [validParseAt]; omega
  | succ m ih =>
    intro p hp
    have hadv : advance c = 1 := advance_of_literal hl
    have hget : (List.replicate n c)[p]? = some c := by
      rw [List.getElem?_replicate]; simp; omega
    simp only [List.replicate_succ, validParseAt, hl, if_true, hget, hch, hadv, decide_True,
      Bool.true_and]
    exact ih (p + 1) (by omega)

theorem wide_literal_run_general (toks : List Nat) (hall : ∀ v ∈ toks, tLen v = 0)
    (hlen : toks.length = 65536) :
    ∃ s1, lz4CompressPart1 65537 toks 65536 [0] 0 = .returned s1 ∧
      ∃ N, ∀ fuel, N ≤ fuel → ∃ r,
        lz4CompressPart2 fuel s1.lit_outStream s1.lenOffset_Stream 65536 = .returned r ∧
        r.compressdSizeStream = [3] ∧ r.outStream = [0, 0, 0, 0] ∧
        lz4Decode (r.outStream.take 3) = none := by
  have hne : toks ≠ [] := by
    intro h; rw [h] at hlen; simp at hlen
  have hrun : longestRun 0 toks = 65536 := by
    rw [longestRun_literals _ hall 0, hlen]
  obtain ⟨s1, hs1, hw⟩ := part1_returned 65537 65536 toks [] [0] 0 hne
    (by rw [sum_advance_literals _ hall, hlen]) (by omega)
    (Or.inl (advance_of_literal (hall _ (List.getLast_mem hne))))
  rw [List.append_nil] at hs1
  obtain ⟨hd, -, -⟩ := divided_no_overflow 65537 0 toks (part1Init [] [0])
    (by show longestRun 0 _ < 65537; omega) (fun v hv h0 => absurd (hall v hv) h0)
  simp only [Part1State.written, Prod.mk.injEq] at hw
  have hdesc : s1.lenOffset_Stream = [tmpValue 65536 0 0] ++ 0 :: [] := by
    rw [hw.2.1]
    have := expectedDescs_literals _ hall 0
    rw [hlen] at this
    simpa [divided, part1Init, this] using hd
  have hword : tmpValue 65536 0 0 = 281474976710656 := by decide
  have hL : descLit 281474976710656 % 65536 = 0 := by decide
  obtain ⟨N, hN⟩ := part2_run s1.lit_outStream [tmpValue 65536 0 0] [] 65536 (by omega)
    (by intro d hd; simp at hd; subst hd; rw [hword]; omega)
    (by simp [litNeed, hword, hL])
  refine ⟨s1, hs1, N, fun fuel hf => ?_⟩
  obtain ⟨r, hr, hout, -, hsz, -⟩ := hN fuel hf
  have hlay : layout [tmpValue 65536 0 0] s1.lit_outStream = [0, 0, 0] := by
    simp only [layout, hword, hL, List.take_zero, seqBytes, List.append_nil]
    decide
  rw [hlay] at hout hsz
  refine ⟨r, by rw [hdesc]; exact hr, by simpa using hsz, by simpa using hout, ?_⟩
  rw [hout]
  decide

/-- The bound `MAX_LIT_COUNT ≤ 65536` of the round trip cannot be dropped: with
`MAX_LIT_COUNT = 65537`, a block of 65536 bytes `a` parsed as 65536 literal
tokens gives the descriptor `(65536, 0, 0)`, whose run length the 16-bit
`lit_length_reg` reads as 0; the encoder reports 3 bytes, which do not decode. -/
theorem round_trip_wide_literal_run :
    validParseAt (List.replicate 65536 97) 0 (List.replicate 65536 97) = true ∧
    longestRun 0 (List.replicate 65536 97) < 65537 ∧
    ∃ s1, lz4CompressPart1 65537 (List.replicate 65536 97) 65536 [0] 0 = .returned s1 ∧
      ∃ N, ∀ fuel, N ≤ fuel → ∃ r,
        lz4CompressPart2 fuel s1.lit_outStream s1.lenOffset_Stream 65536 = .returned r ∧
        r.compressdSizeStream = [3] ∧ r.outStream = [0, 0, 0, 0] ∧
        lz4Decode (r.outStream.take 3) = none := by
  have hall : ∀ v ∈ List.replicate 65536 97, tLen v = 0 := by
    intro v hv
    rw [List.eq_of_mem_replicate hv]
    decide
  have hlen : (List.replicate 65536 97).length = 65536 := List.length_replicate _ _
  have hrun : longestRun 0 (List.replicate 65536 97) = 65536 := by
    rw [longestRun_literals _ hall 0, hlen]
  exact ⟨validParseAt_replicate 97 (by omega) 65536 65536 0 (by omega), by omega,
    wide_literal_run_general _ hall hlen⟩

/-- The empty block: the divider returns at once and writes nothing, so the
encoder, after the size 0 and the terminator byte, waits for a sentinel that
never comes. -/
theorem empty_block_run (M : Nat) (ml : List Nat) (idx fuel : Nat) :
    lz4CompressPart1 M [] 0 ml idx = .returned (part1Init [] ml) ∧
    (lz4CompressPart2 fuel [] [] 0).isReturned = false ∧
    (lz4CompressPart2 fuel [] [] 0).state.compressdSizeStream = [0] ∧
    (lz4CompressPart2 fuel [] [] 0).state.outStream = [0] ∧
    (lz4CompressPart2 fuel [] [] 0).state.endOfStream = [true] := by
  refine ⟨rfl, rfl, rfl, rfl, rfl⟩

theorem keptTokens_literals (M : Nat) (toks : List Nat) (hall : ∀ v ∈ toks, tLen v = 0) :
    ∀ k, keptTokens M k toks = toks.take (M - k) := by
  induction toks with
  | nil => intro k; simp [keptTokens]
  | cons v vs ih =>
    intro k
    have hv : tLen v = 0 := hall v (by simp)
    by_cases h : M ≤ k
    · have : M - k = 0 := by omega
      simp [keptTokens, h, this]
    · have : M - k = (M - (k + 1)) + 1 := by omega
      rw [this, List.take_succ_cons]
      simp only [keptTokens, h, if_false, hv, if_true]
      rw [ih (fun x hx => hall x (by simp [hx]))]

theorem litBytes_length_literals (toks : List Nat) (hall : ∀ v ∈ toks, tLen v = 0) :
    (litBytes toks).length = toks.length := by
  unfold litBytes
  rw [List.length_map, List.filter_eq_self.mpr]
  intro v hv
  simp [hall v hv]

theorem literal_overflow_general (M : Nat) (toks : List Nat) (hall : ∀ v ∈ toks, tLen v = 0)
    (hlen : toks.length = M + 1) (hM : M + 1 < 4294967296) (ml : List Nat) (idx : Nat) :
    (lz4CompressPart1 M toks (M + 1) ml idx).isReturned = true ∧
    (lz4CompressPart1 M toks (M + 1) ml idx).state.lit_outStream.length = M ∧
    (litBytes toks).length = M + 1 := by
  have hne : toks ≠ [] := by
    intro h; rw [h] at hlen; simp at hlen
  obtain ⟨s, hs, hw⟩ := part1_returned M (M + 1) toks [] ml idx hne
    (by rw [sum_advance_literals _ hall, hlen]) hM
    (Or.inl (advance_of_literal (hall _ (List.getLast_mem hne))))
  rw [List.append_nil] at hs
  simp only [Part1State.written, Prod.mk.injEq] at hw
  refine ⟨by rw [hs]; rfl, ?_, by rw [litBytes_length_literals _ hall, hlen]⟩
  rw [hs]
  simp only [Outcome.state, hw.1, divided, divideEpilogue_lits]
  rw [divideTokens_lits]
  show ([] ++ litBytes (keptTokens M 0 toks)).length = M
  rw [keptTokens_literals M toks hall 0]
  have hall' : ∀ v ∈ toks.take (M - 0), tLen v = 0 :=
    fun v hv => hall v (List.mem_of_mem_take hv)
  rw [List.nil_append, litBytes_length_literals _ hall', List.length_take, hlen]
  omega

/-- C6 as stated fails: with the default `MAX_LIT_COUNT = 4096`, on a block of
4097 literal tokens the divider returns with 4096 bytes in the literal stream,
one fewer than there are literal tokens; the last token meets
`lit_count >= MAX_LIT_COUNT` and is dropped. -/
theorem divider_literal_stream_counterexample :
    (lz4CompressPart1 4096 (List.replicate 4097 97) 4097 [0] 0).isReturned = true ∧
    (lz4CompressPart1 4096 (List.replicate 4097 97) 4097 [0] 0).state.lit_outStream.length
      = 4096 ∧
    (litBytes (List.replicate 4097 97)).length = 4097 := by
  have hall : ∀ v ∈ List.replicate 4097 97, tLen v = 0 := by
    intro v hv
    rw [List.eq_of_mem_replicate hv]
    decide
  exact literal_overflow_general 4096 _ hall (List.length_replicate _ _) (by omega) [0] 0

/-! ## C14, C16: the empty block -/

/-- C14 (empty block): the code at `input_size = 0`.  The divider returns at
once and has written nothing, no sentinel either; the encoder writes the size
0, the terminator byte and its end-of-stream mark, and then reads the
descriptor stream, which is empty and stays so: `lz4Compress` does not
complete, whatever the number of passes allowed. -/
theorem empty_block_compress (M fuel : Nat) (inStream ml : List Nat) (idx : Nat) :
    lz4Compress M fuel inStream ml 0 idx =
      .blocked (part1Init inStream ml,
        { part2Init [] [] with
          compressdSizeStream := [0], outStream := [0], endOfStream := [true] }) ∧
    (lz4Compress M fuel inStream ml 0 idx).isReturned = false ∧
    (lz4Compress M fuel inStream ml 0 idx).state.1.lenOffset_Stream = [] ∧
    (lz4Compress M fuel inStream ml 0 idx).state.2.in_lenOffset_Stream = [] ∧
    (lz4Compress M fuel inStream ml 0 idx).state.2.compressdSizeStream = [0] ∧
    (lz4Compress M fuel inStream ml 0 idx).state.2.outStream = [0] ∧
    (lz4Compress M fuel inStream ml 0 idx).state.2.endOfStream = [true] ∧
    (lz4Compress M fuel inStream ml 0 idx).state.1.max_lit_limit = ml :=
  ⟨rfl, rfl, rfl, rfl, rfl, rfl, rfl, rfl⟩

/-- C16 (empty-block divider): the code at `input_size = 0`.  Line 51 returns
before anything is written: the descriptor stream holds no sentinel, the
literal stream is empty, and `max_lit_limit[index]` keeps the caller's
value. -/
theorem empty_block_divider (M : Nat) (inStream ml : List Nat) (idx : Nat) :
    (lz4CompressPart1 M inStream 0 ml idx).isReturned = true ∧
    (lz4CompressPart1 M inStream 0 ml idx).state.lenOffset_Stream = [] ∧
    (lz4CompressPart1 M inStream 0 ml idx).state.lit_outStream = [] ∧
    (lz4CompressPart1 M inStream 0 ml idx).state.max_lit_limit = ml ∧
    (lz4CompressPart1 M inStream 0 ml idx).state.inStream = inStream :=
  ⟨rfl, rfl, rfl, rfl, rfl⟩

/-! ## C17: offset emission -/

/-- C17 (offset emission), amended.  Whatever the state in which
`READ_AND_DECODE` reads a non-sentinel descriptor `d`, with the literal bytes
`ls` it asks for at the head of the literal stream, the loop comes back to
`READ_AND_DECODE` having written the token byte, the literal length extension,
the bytes `ls` and a tail.  When the (matchLength, matchOffset) pair of `d` is
neither (0, 0) nor (777, 777) the tail starts with the two bytes
`matchOffset % 256` and `matchOffset / 256`, which so come right after the
literal bytes.  When the pair is (777, 777) and `d` asks for at least one
literal byte, the tail is empty, as for the terminal marker: no offset byte
is written. -/
theorem offset_emission (s : Part2State) (d : Nat) (ds ls rest : List Nat)
    (hs : s.next_state = READ_AND_DECODE) (hd : s.in_lenOffset_Stream = d :: ds) (hne : d ≠ 0)
    (hin : s.in_lit_inStream = ls ++ rest) (hlen : ls.length = descLit d % 65536) :
    ∃ k t tail, fsmRun k s = .running t ∧ t.next_state = READ_AND_DECODE ∧
      t.in_lenOffset_Stream = ds ∧ t.in_lit_inStream = rest ∧
      t.outStream = s.outStream ++
        tokenByte (descLit d % 65536) (descMatchLen d) ::
          (escape (descLit d % 65536) ++ ls ++ tail) ∧
      (¬ (descMatchLen d = 0 ∧ descOffset d = 0) →
        ¬ (descMatchLen d = 777 ∧ descOffset d = 777) →
        tail = [descOffset d % 256, descOffset d / 256] ++ escape (descMatchLen d)) ∧
      (descMatchLen d = 777 → descOffset d = 777 → 0 < descLit d % 65536 → tail = []) := by
  obtain ⟨t, ⟨k, hk⟩, hst, hio⟩ := descriptor_phase s d ds ls rest hs hd hne hin hlen
  simp only [Part2State.io, emit, Prod.mk.injEq] at hio
  obtain ⟨e1, e2, e3, -⟩ := hio
  refine ⟨k, t, (if 0 < descLit d % 65536 ∧ litEnding d = true then []
      else [descOffset d % 256, descOffset d / 256] ++ escape (descMatchLen d)),
    hk, hst, e2, e1, ?_, ?_, ?_⟩
  · rw [e3]; simp [seqBytes]
  · intro h0 h7
    have he : litEnding d = false := by
      unfold litEnding
      rw [if_neg h7]
      simp only [decide_eq_false_iff_not]
      tauto
    simp [he]
  · intro hM hO hL
    have he : litEnding d = true := by
      unfold litEnding
      rw [if_pos ⟨hM, hO⟩]
    simp [he, hL]

theorem offset_emission_witness :
    ∃ k t tail, fsmRun k (part2Init [7] [4295033102, 0]) = .running t ∧
      t.next_state = READ_AND_DECODE ∧
      t.in_lenOffset_Stream = [0] ∧ t.in_lit_inStream = [] ∧
      t.outStream = (part2Init [7] [4295033102, 0]).outStream ++
        tokenByte (descLit 4295033102 % 65536) (descMatchLen 4295033102) ::
          (escape (descLit 4295033102 % 65536) ++ [7] ++ tail) ∧
      (¬ (descMatchLen 4295033102 = 0 ∧ descOffset 4295033102 = 0) →
        ¬ (descMatchLen 4295033102 = 777 ∧ descOffset 4295033102 = 777) →
        tail = [descOffset 4295033102 % 256, descOffset 4295033102 / 256] ++
          escape (descMatchLen 4295033102)) ∧
      (descMatchLen 4295033102 = 777 → descOffset 4295033102 = 777 →
        0 < descLit 4295033102 % 65536 → tail = []) :=
  offset_emission (part2Init [7] [4295033102, 0]) 4295033102 [0] [7] [] rfl rfl (by decide)
    rfl (by decide)

/-- C17 as stated fails: the encoder reads the overflow descriptor
(1, 777, 777), which is neither the sentinel nor the (0, 0) marker, writes the
token byte `0x1f` and the literal byte 7, and is back in `READ_AND_DECODE`
after three passes: the offset bytes 9 and 3 of 777 are not written.  The
whole run returns the size 2 and the bytes `0x1f, 7` before the terminator. -/
theorem offset_emission_counterexample :
    tmpValue 1 777 777 ≠ 0 ∧
    descMatchLen (tmpValue 1 777 777) = 777 ∧ descOffset (tmpValue 1 777 777) = 777 ∧
    777 % 256 = 9 ∧ 777 / 256 = 3 ∧
    (fsmRun 3 (part2Init [7] [tmpValue 1 777 777, 0])).state.next_state = READ_AND_DECODE ∧
    (fsmRun 3 (part2Init [7] [tmpValue 1 777 777, 0])).state.outStream = [31, 7] ∧
    (lz4CompressPart2 4 [7] [tmpValue 1 777 777, 0] 1).isReturned = true ∧
    (lz4CompressPart2 4 [7] [tmpValue 1 777 777, 0] 1).state.outStream = [31, 7, 0] ∧
    (lz4CompressPart2 4 [7] [tmpValue 1 777 777, 0] 1).state.compressdSizeStream = [2] := by
  decide

/-! ## The divider on any token stream, overflow included -/

/-- The descriptor stream after the tokens `toks` and the epilogue. -/
theorem divideTokens_descs (M idx : Nat) (toks : List Nat) :
    ∀ s : Part1State, (divideEpilogue M idx (divideTokens M toks s)).lenOffset_Stream =
      s.lenOffset_Stream ++ dividerDescs M s.lit_count toks ++ [0] := by
  induction toks with
  | nil =>
    intro s
    by_cases hz : s.lit_count = 0
    · simp [divideTokens, divideEpilogue, dividerDescs, hz]
    · by_cases he : s.lit_count = M
      · subst he
        simp [divideTokens, divideEpilogue, dividerDescs, hz]
      · simp [divideTokens, divideEpilogue, dividerDescs, hz, he]
  | cons v vs ih =>
    intro s
    simp only [divideTokens, List.foldl_cons] at ih ⊢
    by_cases hge : M ≤ s.lit_count
    · have hstep : divideToken M v s = { s with lit_count_flag := 1 } := by
        simp [divideToken, hge]
      rw [hstep, ih]
      simp [dividerDescs, hge]
    · by_cases hv : tLen v = 0
      · have hstep : divideToken M v s = { s with
            lit_outStream := s.lit_outStream ++ [tCh v], lit_count := s.lit_count + 1 } := by
          simp [divideToken, hge, hv]
        rw [hstep, ih]
        simp [dividerDescs, hge, hv]
      · have hstep : divideToken M v s = { s with
            lenOffset_Stream := s.lenOffset_Stream ++
              [tmpValue s.lit_count ((tLen v + 252) % 256) (tOffset v)], lit_count := 0 } := by
          simp [divideToken, hge, hv]
        rw [hstep, ih]
        simp [dividerDescs, hge, hv]

/-- What `lz4CompressPart1` has written when it returns on the tokens `toks`. -/
theorem divided_streams (M idx : Nat) (toks ml : List Nat) :
    (divided M toks ml idx).lenOffset_Stream = dividerDescs M 0 toks ++ [0] ∧
    (divided M toks ml idx).lit_outStream = litBytes (keptTokens M 0 toks) := by
  unfold divided
  rw [divideTokens_descs, divideEpilogue_lits, divideTokens_lits]
  simp [part1Init]

/-- Literal accounting: the run lengths of the descriptors add up to the
pending literals plus the literal bytes written. -/
theorem dividerDescs_sum (M : Nat) (toks : List Nat) :
    ∀ k, k + toks.length < 4294967296 →
      ((dividerDescs M k toks).map descLit).sum =
        k + (litBytes (keptTokens M k toks)).length := by
  induction toks with
  | nil =>
    intro k hk
    simp only [List.length_nil, Nat.add_zero] at hk
    by_cases hz : k = 0
    · simp [dividerDescs, keptTokens, litBytes, hz]
    · have hmod : k % 4294967296 = k := Nat.mod_eq_of_lt hk
      by_cases he : k = M
      · subst he
        simp [dividerDescs, keptTokens, litBytes, hz, descLit_tmpValue, hmod]
      · simp [dividerDescs, keptTokens, litBytes, hz, he, descLit_tmpValue, hmod]
  | cons v vs ih =>
    intro k hk
    simp only [List.length_cons] at hk
    by_cases hge : M ≤ k
    · have := ih k (by omega)
      rw [keptTokens_of_le M k vs hge] at this
      simp only [dividerDescs, hge, if_true, this, keptTokens_of_le M k (v :: vs) hge]
    · by_cases hv : tLen v = 0
      · have := ih (k + 1) (by omega)
        simp only [dividerDescs, hge, if_false, hv, ne_eq, not_true_eq_false, this, keptTokens,
          if_true, litBytes]
        simp [List.filter_cons, hv]
        omega
      · have := ih 0 (by omega)
        have hmod : k % 4294967296 = k := Nat.mod_eq_of_lt (by omega)
        simp only [dividerDescs, hge, if_false, hv, ne_eq, not_false_eq_true, if_true,
          List.map_cons, List.sum_cons, this, keptTokens, litBytes, descLit_tmpValue, hmod]
        simp [List.filter_cons, hv]

/-- No premature sentinel: with offsets of at least 1, no descriptor before the
sentinel is the all-zero word. -/
theorem dividerDescs_ne_zero (M : Nat) (toks : List Nat)
    (hoff : ∀ v ∈ toks, tLen v ≠ 0 → 1 ≤ tOffset v) :
    ∀ k, k + toks.length < 4294967296 → ∀ d ∈ dividerDescs M k toks, d ≠ 0 := by
  induction toks with
  | nil =>
    intro k hk d hd
    simp only [List.length_nil, Nat.add_zero] at hk
    by_cases hz : k = 0
    · simp [dividerDescs, hz] at hd
    · by_cases he : k = M
      · subst he
        simp only [dividerDescs, hz, if_false, if_true, List.mem_singleton] at hd
        subst hd
        rw [Ne, tmpValue_eq_zero]
        omega
      · simp only [dividerDescs, hz, he, if_false, List.mem_singleton] at hd
        subst hd
        rw [Ne, tmpValue_eq_zero]
        omega
  | cons v vs ih =>
    intro k hk d hd
    simp only [List.length_cons] at hk
    have hoff' : ∀ x ∈ vs, tLen x ≠ 0 → 1 ≤ tOffset x := fun x hx => hoff x (by simp [hx])
    by_cases hge : M ≤ k
    · simp only [dividerDescs, hge, if_true] at hd
      exact ih hoff' k (by omega) d hd
    · by_cases hv : tLen v = 0
      · simp only [dividerDescs, hge, if_false, hv, ne_eq, not_true_eq_false] at hd
        exact ih hoff' (k + 1) (by omega) d hd
      · simp only [dividerDescs, hge, if_false, hv, ne_eq, not_false_eq_true, if_true,
          List.mem_cons] at hd
        rcases hd with hd | hd
        · subst hd
          have h1 := hoff v (by simp) hv
          have h2 := tOffset_lt v
          rw [Ne, tmpValue_eq_zero]
          omega
        · exact ih hoff' 0 (by omega) d hd

/-! ## C19, C20: literal accounting, no premature sentinel -/

theorem litNeed_le_sum (ds : List Nat) : litNeed ds ≤ (ds.map descLit).sum := by
  induction ds with
  | nil => simp [litNeed]
  | cons d ds ih =>
    unfold litNeed at ih ⊢
    simp only [List.map_cons, List.sum_cons]
    have := Nat.mod_le (descLit d) 65536
    omega

theorem litNeed_eq_sum (ds : List Nat) (h : ∀ d ∈ ds, descLit d ≤ 65535) :
    litNeed ds = (ds.map descLit).sum := by
  induction ds with
  | nil => simp [litNeed]
  | cons d ds ih =>
    have h1 := h d (by simp)
    have h2 := ih (fun x hx => h x (by simp [hx]))
    unfold litNeed at h2 ⊢
    simp only [List.map_cons, List.sum_cons, h2]
    omega

/-- The trailing condition in the two forms used: a last token that is a
literal moves `i` by 1. -/
theorem last_literal_advance (toks extra : List Nat) (hne : toks ≠ [])
    (hlast : (∃ v, toks.getLast? = some v ∧ tLen v = 0) ∨ extra ≠ []) :
    advance (toks.getLast hne) = 1 ∨ extra ≠ [] := by
  rcases hlast with ⟨v, hv1, hv2⟩ | h
  · rw [List.getLast?_eq_getLast _ hne] at hv1
    rw [Option.some.inj hv1]
    exact Or.inl (advance_of_literal hv2)
  · exact Or.inr h

/-- The descriptors of a returned run of the divider have run lengths of at
most `M`. -/
theorem dividerDescs_descLit_le (M : Nat) (toks : List Nat) :
    ∀ d ∈ dividerDescs M 0 toks, descLit d ≤ M := by
  intro d hd
  have hinv : RunInv M (divideTokens M toks (part1Init [] [])) :=
    divideTokens_inv M toks _ ⟨Nat.zero_le _, fun d hd => by simp [part1Init] at hd⟩
  have := divideEpilogue_descs M 0 _ hinv d
    (by rw [divideTokens_descs]; simp [part1Init, hd])
  exact this.1

/-- The divider returns on the tokens `toks` followed by `extra`, with the
descriptors `dividerDescs`, the sentinel, and the literal bytes of the tokens
kept. -/
theorem part1_streams (M input_size : Nat) (toks extra ml : List Nat) (idx : Nat)
    (hne : toks ≠ []) (hcov : (toks.map advance).sum = input_size)
    (hsz : input_size < 4294967296)
    (hlast : (∃ v, toks.getLast? = some v ∧ tLen v = 0) ∨ extra ≠ []) :
    ∃ s1, lz4CompressPart1 M (toks ++ extra) input_size ml idx = .returned s1 ∧
      s1.lenOffset_Stream = dividerDescs M 0 toks ++ [0] ∧
      s1.lit_outStream = litBytes (keptTokens M 0 toks) := by
  obtain ⟨s1, hs1, hw⟩ := part1_returned M input_size toks extra ml idx hne hcov hsz
    (last_literal_advance toks extra hne hlast)
  simp only [Part1State.written, Prod.mk.injEq] at hw
  obtain ⟨h1, h2⟩ := divided_streams M idx toks ml
  exact ⟨s1, hs1, by rw [hw.2.1, h1], by rw [hw.1, h2]⟩

/-- C19 (literal accounting), amended.  On a non-empty token stream whose last
token is a literal or which is followed in the input stream by one more value,
`lz4CompressPart1` returns, whatever `M` and overflowing streams included, and
the literal run lengths of the descriptors it wrote add up to the number of
bytes it wrote to the literal stream.  When moreover `M ≤ 65535`, so that
every run length fits the 16-bit `lit_length_reg`, and no descriptor before
the last is the all-zero word, so that the encoder reads every descriptor,
`lz4CompressPart2` returns once it has enough passes, having read the whole
descriptor stream and the whole literal stream. -/
theorem literal_accounting (M input_size : Nat) (toks extra ml : List Nat) (idx : Nat)
    (hne : toks ≠ []) (hcov : (toks.map advance).sum = input_size)
    (hsz : input_size < 4294967296)
    (hlast : (∃ v, toks.getLast? = some v ∧ tLen v = 0) ∨ extra ≠ []) :
    ∃ s1, lz4CompressPart1 M (toks ++ extra) input_size ml idx = .returned s1 ∧
      (s1.lenOffset_Stream.map descLit).sum = s1.lit_outStream.length ∧
      (M ≤ 65535 → (∀ d ∈ s1.lenOffset_Stream.dropLast, d ≠ 0) →
        ∃ N, ∀ fuel, N ≤ fuel → ∃ r,
          lz4CompressPart2 fuel s1.lit_outStream s1.lenOffset_Stream input_size
            = .returned r ∧
          r.in_lenOffset_Stream = [] ∧ r.in_lit_inStream = []) := by
  obtain ⟨s1, hs1, hd, hl⟩ := part1_streams M input_size toks extra ml idx hne hcov hsz hlast
  have hlen := length_le_sum_advance toks
  have hsum := dividerDescs_sum M toks 0 (by omega)
  rw [Nat.zero_add] at hsum
  have h0 : input_size ≠ 0 := by
    obtain ⟨t, ts, rfl⟩ := List.exists_cons_of_ne_nil hne
    have := advance_pos t
    simp only [List.map_cons, List.sum_cons] at hcov
    omega
  refine ⟨s1, hs1, ?_, ?_⟩
  · rw [hd, hl, List.map_append, List.sum_append, hsum]
    simp [descLit]
  · intro hM hz
    rw [hd, List.dropLast_concat] at hz
    have hneed : litNeed (dividerDescs M 0 toks) = (litBytes (keptTokens M 0 toks)).length := by
      rw [litNeed_eq_sum _ (fun d hd => by
        have := dividerDescs_descLit_le M toks d hd; omega), hsum]
    obtain ⟨N, hN⟩ := part2_run (litBytes (keptTokens M 0 toks)) (dividerDescs M 0 toks) []
      input_size h0 hz (by omega)
    refine ⟨N, fun fuel hf => ?_⟩
    obtain ⟨r, hr, -, -, -, hlit, hdesc⟩ := hN fuel hf
    refine ⟨r, by rw [hd, hl]; exact hr, hdesc, ?_⟩
    rw [hlit, hneed, List.drop_length]

theorem dividerDescs_literals (M : Nat) (toks : List Nat) (hall : ∀ v ∈ toks, tLen v = 0) :
    ∀ k, k + toks.length < M →
      dividerDescs M k toks =
        if k + toks.length = 0 then [] else [tmpValue (k + toks.length) 0 0] := by
  induction toks with
  | nil =>
    intro k hk
    simp only [List.length_nil, Nat.add_zero] at hk ⊢
    have : k ≠ M := by omega
    simp [dividerDescs, this]
  | cons v vs ih =>
    intro k hk
    simp only [List.length_cons] at hk ⊢
    have hv : tLen v = 0 := hall v (by simp)
    have hge : ¬ M ≤ k := by omega
    simp only [dividerDescs, hge, if_false, hv, ne_eq, not_true_eq_false]
    rw [ih (fun x hx => hall x (by simp [hx])) (k + 1) (by omega)]
    have : k + 1 + vs.length = k + (vs.length + 1) := by omega
    rw [this]

/-- A run of 65536 literal tokens under `MAX_LIT_COUNT = 65537`: the divider
writes 65536 literal bytes and the descriptor (65536, 0, 0); the encoder reads
the run length into its 16-bit register as 0, takes no literal byte, reads the
sentinel and returns with the 65536 bytes still in the literal stream. -/
theorem wide_run_left_behind (toks : List Nat) (hall : ∀ v ∈ toks, tLen v = 0)
    (hlen : toks.length = 65536) :
    ∃ s1, lz4CompressPart1 65537 toks 65536 [0] 0 = .returned s1 ∧
      s1.lit_outStream.length = 65536 ∧
      (s1.lenOffset_Stream.map descLit).sum = 65536 ∧
      (∀ d ∈ s1.lenOffset_Stream.dropLast, d ≠ 0) ∧
      ∃ N, ∀ fuel, N ≤ fuel → ∃ r,
        lz4CompressPart2 fuel s1.lit_outStream s1.lenOffset_Stream 65536 = .returned r ∧
        r.in_lenOffset_Stream = [] ∧ r.in_lit_inStream.length = 65536 := by
  have hne : toks ≠ [] := by
    intro h; rw [h] at hlen; simp at hlen
  obtain ⟨s1, hs1, hd, hl⟩ := part1_streams 65537 65536 toks [] [0] 0 hne
    (by rw [sum_advance_literals _ hall, hlen]) (by omega)
    (Or.inl ⟨toks.getLast hne, List.getLast?_eq_getLast _ hne,
      hall _ (List.getLast_mem hne)⟩)
  rw [List.append_nil] at hs1
  have hds : dividerDescs 65537 0 toks = [tmpValue 65536 0 0] := by
    rw [dividerDescs_literals 65537 toks hall 0 (by omega), hlen]
    simp
  have hword : tmpValue 65536 0 0 = 281474976710656 := by decide
  have hL : descLit 281474976710656 = 65536 := by decide
  have hkept : (litBytes (keptTokens 65537 0 toks)).length = 65536 := by
    rw [keptTokens_literals 65537 toks hall 0]
    have hall' : ∀ v ∈ toks.take (65537 - 0), tLen v = 0 :=
      fun v hv => hall v (List.mem_of_mem_take hv)
    rw [litBytes_length_literals _ hall', List.length_take, hlen]
    omega
  rw [hds, hword] at hd
  have hneed : litNeed [281474976710656] = 0 := by
    simp [litNeed, hL]
  obtain ⟨N, hN⟩ := part2_run s1.lit_outStream [281474976710656] [] 65536 (by omega)
    (by intro d hd; simp at hd; subst hd; omega) (by rw [hneed]; omega)
  refine ⟨s1, hs1, by rw [hl, hkept], ?_, ?_, N, fun fuel hf => ?_⟩
  · rw [hd]
    simp [hL, descLit]
  · rw [hd]
    intro d hd
    simp at hd
    subst hd
    omega
  · obtain ⟨r, hr, -, -, -, hlit, hdesc⟩ := hN fuel hf
    refine ⟨r, by rw [hd]; exact hr, hdesc, ?_⟩
    rw [hlit, hneed, List.drop_zero, hl, hkept]

/-- C19 as stated fails, in two ways.  On the tokens literal `a`, match
(length 4, offset 1), with the default limit 4096, the divider has written
one literal byte and no descriptor when it stops in the prefetch of its last
pass: the run lengths add up to 0, not 1.  With `MAX_LIT_COUNT = 65537` and
65536 literal tokens the run lengths do add up to the 65536 bytes written,
yet the encoder, which reads every descriptor and returns, leaves all 65536
bytes in the literal stream. -/
theorem literal_accounting_counterexample :
    ((lz4CompressPart1 4096 [97, 66560] 5 [0] 0).isReturned = false ∧
      (lz4CompressPart1 4096 [97, 66560] 5 [0] 0).state.lit_outStream = [97] ∧
      (lz4CompressPart1 4096 [97, 66560] 5 [0] 0).state.lenOffset_Stream = [] ∧
      (((lz4CompressPart1 4096 [97, 66560] 5 [0] 0).state.lenOffset_Stream.map descLit).sum
        ≠ (lz4CompressPart1 4096 [97, 66560] 5 [0] 0).state.lit_outStream.length)) ∧
    ∃ s1, lz4CompressPart1 65537 (List.replicate 65536 97) 65536 [0] 0 = .returned s1 ∧
      s1.lit_outStream.length = 65536 ∧
      (s1.lenOffset_Stream.map descLit).sum = 65536 ∧
      (∀ d ∈ s1.lenOffset_Stream.dropLast, d ≠ 0) ∧
      ∃ N, ∀ fuel, N ≤ fuel → ∃ r,
        lz4CompressPart2 fuel s1.lit_outStream s1.lenOffset_Stream 65536 = .returned r ∧
        r.in_lenOffset_Stream = [] ∧ r.in_lit_inStream.length = 65536 := by
  refine ⟨⟨by decide, by decide, by decide, by decide⟩, ?_⟩
  have hall : ∀ v ∈ List.replicate 65536 97, tLen v = 0 := by
    intro v hv
    rw [List.eq_of_mem_replicate hv]
    decide
  exact wide_run_left_behind _ hall (List.length_replicate _ _)

/-- The descriptor a match token gives (line 71-76, the guard of line 68 not
taken): one word, not all-zero when the offset is at least 1, and never a
terminal literal run, its length field being at most 255 and its offset field
at least 1. -/
theorem divideToken_match (M v : Nat) (s : Part1State) (hv : tLen v ≠ 0)
    (hoff : 1 ≤ tOffset v) (hk : s.lit_count < M) :
    ∃ w, (divideToken M v s).lenOffset_Stream = s.lenOffset_Stream ++ [w] ∧ w ≠ 0 ∧
      ¬ (descMatchLen w = 0 ∧ descOffset w = 0) ∧
      ¬ (descMatchLen w = 777 ∧ descOffset w = 777) ∧ litEnding w = false := by
  have hge : ¬ M ≤ s.lit_count := by omega
  have h2 := tOffset_lt v
  refine ⟨tmpValue s.lit_count ((tLen v + 252) % 256) (tOffset v), ?_, ?_, ?_, ?_, ?_⟩
  · simp [divideToken, hge, hv]
  · rw [Ne, tmpValue_eq_zero]; omega
  · rw [descOffset_tmpValue]; omega
  · rw [descMatchLen_tmpValue]; omega
  · unfold litEnding
    rw [descOffset_tmpValue, descMatchLen_tmpValue]
    have h7 : ¬ ((tLen v + 252) % 256 % 65536 = 777 ∧ tOffset v % 65536 = 777) := by omega
    rw [if_neg h7]
    simp only [decide_eq_false_iff_not]
    omega

/-- C20 (no premature end sentinel), amended.  On a non-empty token stream in
which every match token has an offset of at least 1, and whose last token is a
literal or which is followed in the input stream by one more value,
`lz4CompressPart1` returns with a descriptor stream `ds ++ [0]` in which no
word of `ds` is the all-zero word.  The descriptor a match token gives is
never all-zero, has not matchLength = 0 together with matchOffset = 0, and
does not set `lit_ending_reg`.  `lz4CompressPart2` returns once it has enough
passes, and it has then read the whole descriptor stream. -/
theorem no_premature_sentinel (M input_size : Nat) (toks extra ml : List Nat) (idx : Nat)
    (hne : toks ≠ []) (hcov : (toks.map advance).sum = input_size)
    (hsz : input_size < 4294967296)
    (hoff : ∀ v ∈ toks, tLen v ≠ 0 → 1 ≤ tOffset v)
    (hlast : (∃ v, toks.getLast? = some v ∧ tLen v = 0) ∨ extra ≠ []) :
    (∃ s1 ds, lz4CompressPart1 M (toks ++ extra) input_size ml idx = .returned s1 ∧
      s1.lenOffset_Stream = ds ++ [0] ∧ (∀ d ∈ ds, d ≠ 0) ∧
      ∃ N, ∀ fuel, N ≤ fuel → ∃ r,
        lz4CompressPart2 fuel s1.lit_outStream s1.lenOffset_Stream input_size
          = .returned r ∧
        r.in_lenOffset_Stream = []) ∧
    (∀ v ∈ toks, tLen v ≠ 0 → ∀ s : Part1State, s.lit_count < M →
      ∃ w, (divideToken M v s).lenOffset_Stream = s.lenOffset_Stream ++ [w] ∧ w ≠ 0 ∧
        ¬ (descMatchLen w = 0 ∧ descOffset w = 0) ∧ litEnding w = false) := by
  obtain ⟨s1, hs1, hd, hl⟩ := part1_streams M input_size toks extra ml idx hne hcov hsz hlast
  have hlen := length_le_sum_advance toks
  have hnz := dividerDescs_ne_zero M toks hoff 0 (by omega)
  have hsum := dividerDescs_sum M toks 0 (by omega)
  rw [Nat.zero_add] at hsum
  have hneed := litNeed_le_sum (dividerDescs M 0 toks)
  have h0 : input_size ≠ 0 := by
    obtain ⟨t, ts, rfl⟩ := List.exists_cons_of_ne_nil hne
    have := advance_pos t
    simp only [List.map_cons, List.sum_cons] at hcov
    omega
  obtain ⟨N, hN⟩ := part2_run (litBytes (keptTokens M 0 toks)) (dividerDescs M 0 toks) []
    input_size h0 hnz (by omega)
  refine ⟨⟨s1, dividerDescs M 0 toks, hs1, hd, hnz, N, fun fuel hf => ?_⟩, ?_⟩
  · obtain ⟨r, hr, -, -, -, -, hdesc⟩ := hN fuel hf
    exact ⟨r, by rw [hd, hl]; exact hr, hdesc⟩
  · intro v hv hlen s hk
    obtain ⟨w, h1, h2, h3, -, h5⟩ := divideToken_match M v s hlen (hoff v hv hlen) hk
    exact ⟨w, h1, h2, h3, h5⟩

theorem no_premature_sentinel_witness :
    (∃ s1 ds, lz4CompressPart1 4096 ([97, 66560, 98] ++ []) 6 [0] 0 = .returned s1 ∧
      s1.lenOffset_Stream = ds ++ [0] ∧ (∀ d ∈ ds, d ≠ 0) ∧
      ∃ N, ∀ fuel, N ≤ fuel → ∃ r,
        lz4CompressPart2 fuel s1.lit_outStream s1.lenOffset_Stream 6 = .returned r ∧
        r.in_lenOffset_Stream = []) ∧
    (∀ v ∈ [97, 66560, 98], tLen v ≠ 0 → ∀ s : Part1State, s.lit_count < 4096 →
      ∃ w, (divideToken 4096 v s).lenOffset_Stream = s.lenOffset_Stream ++ [w] ∧ w ≠ 0 ∧
        ¬ (descMatchLen w = 0 ∧ descOffset w = 0) ∧ litEnding w = false) :=
  no_premature_sentinel 4096 6 [97, 66560, 98] [] [0] 0 (by decide) (by decide) (by decide)
    (by decide) (Or.inl ⟨98, by decide, by decide⟩)

/-- C20 as stated fails: the tokens literal `a`, match (length 4, offset 1)
form a non-empty stream whose match has offset 1, yet the divider stops in the
prefetch of its last pass with an empty descriptor stream: there is no
all-zero value in it, last or not, and the encoder, whatever the number of
passes, waits in its first read and never stops. -/
theorem no_premature_sentinel_counterexample :
    (∀ v ∈ [97, 66560], tLen v ≠ 0 → 1 ≤ tOffset v) ∧
    ([97, 66560].map advance).sum = 5 ∧
    (lz4CompressPart1 4096 [97, 66560] 5 [0] 0).isReturned = false ∧
    (lz4CompressPart1 4096 [97, 66560] 5 [0] 0).state.lenOffset_Stream.getLast? ≠ some 0 ∧
    (∀ d ∈ (lz4CompressPart1 4096 [97, 66560] 5 [0] 0).state.lenOffset_Stream, d ≠ 0) ∧
    (∀ fuel, (lz4CompressPart2 fuel
        (lz4CompressPart1 4096 [97, 66560] 5 [0] 0).state.lit_outStream
        (lz4CompressPart1 4096 [97, 66560] 5 [0] 0).state.lenOffset_Stream 5).isReturned
      = false) := by
  refine ⟨by decide, by decide, by decide, by decide, by decide, ?_⟩
  intro fuel
  have h1 : (lz4CompressPart1 4096 [97, 66560] 5 [0] 0).state.lit_outStream = [97] := by decide
  have h2 : (lz4CompressPart1 4096 [97, 66560] 5 [0] 0).state.lenOffset_Stream = [] := by decide
  rw [h1, h2]
  cases fuel <;> rfl

/-! ## The size of the encoder's output -/

theorem escape_length (n : Nat) :
    (escape n).length = if n < 15 then 0 else (n - 15) / 255 + 1 := by
  unfold escape
  split <;> simp

theorem seqBytes_length_le (d : Nat) (ls : List Nat) (h : ls.length ≤ descLit d % 65536) :
    (seqBytes d ls).length ≤ descCost d := by
  unfold seqBytes descCost
  split
  · simp only [List.length_cons, List.length_append, List.length_nil]
    omega
  · simp only [List.length_cons, List.length_append, List.length_nil]
    omega

theorem layout_length_le (ds : List Nat) :
    ∀ lits : List Nat, (layout ds lits).length ≤ (ds.map descCost).sum := by
  induction ds with
  | nil => intro lits; simp [layout]
  | cons d ds ih =>
    intro lits
    have h1 := seqBytes_length_le d (lits.take (descLit d % 65536))
      (by rw [List.length_take]; omega)
    have h2 := ih (lits.drop (descLit d % 65536))
    simp only [layout, List.length_append, List.map_cons, List.sum_cons]
    omega

/-- The cost of a trailing literal run of `k` tokens, `k` below `2^32`. -/
theorem descCost_trailing (k x : Nat) (hk : 0 < k) (hk2 : k < 4294967296)
    (hx : x = 0 ∨ x = 777) : descCost (tmpValue k x x) ≤ k + k / 255 + 2 := by
  have hL : descLit (tmpValue k x x) = k := by
    rw [descLit_tmpValue]; omega
  have hM : descMatchLen (tmpValue k x x) = x := by
    rw [descMatchLen_tmpValue]; omega
  have hO : descOffset (tmpValue k x x) = x := by
    rw [descOffset_tmpValue]; omega
  have he : litEnding (tmpValue k x x) = true := by
    unfold litEnding
    rw [hM, hO]
    rcases hx with hx | hx <;> simp [hx]
  have h777 : (escape 777).length = 3 := by decide
  have h0 : (escape 0).length = 0 := by decide
  unfold descCost
  rw [hL, hM, he, escape_length]
  by_cases hpos : 0 < k % 65536
  · simp only [hpos, and_self, if_true]
    split <;> omega
  · have hz : k % 65536 = 0 := by omega
    have hbig : 65536 ≤ k := by omega
    simp only [hz, Nat.lt_irrefl, false_and, if_false]
    rcases hx with hx | hx
    · rw [hx, h0]; simp; omega
    · rw [hx, h777]; simp; omega

/-- The cost of the descriptor of a match token of length 4 to 255 met with
`k` literals pending. -/
theorem descCost_match (k v : Nat) (hk : k < 4294967296) (h4 : 4 ≤ tLen v)
    (hoff : 1 ≤ tOffset v) :
    descCost (tmpValue k ((tLen v + 252) % 256) (tOffset v)) + 1 ≤
      k + tLen v + (escape (k % 65536)).length := by
  have h256 := tLen_lt v
  have h2 := tOffset_lt v
  have hm : (tLen v + 252) % 256 = tLen v - 4 := by omega
  have hL : descLit (tmpValue k (tLen v - 4) (tOffset v)) = k := by
    rw [descLit_tmpValue]; omega
  have hM : descMatchLen (tmpValue k (tLen v - 4) (tOffset v)) = tLen v - 4 := by
    rw [descMatchLen_tmpValue]; omega
  have hO : descOffset (tmpValue k (tLen v - 4) (tOffset v)) = tOffset v := by
    rw [descOffset_tmpValue]; omega
  have he : litEnding (tmpValue k (tLen v - 4) (tOffset v)) = false := by
    unfold litEnding
    rw [hM, hO]
    have h7 : ¬ (tLen v - 4 = 777 ∧ tOffset v = 777) := by omega
    rw [if_neg h7]
    simp only [decide_eq_false_iff_not]
    omega
  have hext : (escape (tLen v - 4)).length = if tLen v - 4 < 15 then 0 else 1 := by
    rw [escape_length]
    split
    · rfl
    · have : (tLen v - 4 - 15) / 255 = 0 := by omega
      omega
  have hmod := Nat.mod_le k 65536
  unfold descCost
  rw [hm, hL, hM, he, hext]
  simp only [Bool.false_eq_true, and_false, if_false]
  split <;> omega

/-- The bytes the encoder writes for the descriptors of a token list, `k`
literals pending, are at most the bytes the pending literals and the tokens
cover, plus one byte per 255 of them, plus 2. -/
theorem dividerDescs_cost (M : Nat) (toks : List Nat)
    (hm : ∀ v ∈ toks, tLen v ≠ 0 → 4 ≤ tLen v ∧ 1 ≤ tOffset v) :
    ∀ k, k + (toks.map advance).sum < 4294967296 →
      ((dividerDescs M k toks).map descCost).sum ≤
        k + (toks.map advance).sum + (k + (toks.map advance).sum) / 255 + 2 := by
  induction toks with
  | nil =>
    intro k hk
    have hk2 : k < 4294967296 := by simpa using hk
    have hs : ((([] : List Nat).map advance).sum) = 0 := rfl
    rw [hs]
    by_cases hz : k = 0
    · have hd : dividerDescs M k [] = [] := by simp [dividerDescs, hz]
      simp only [hd, List.map_nil, List.sum_nil]
      omega
    · by_cases he : k = M
      · subst he
        have hd : dividerDescs k k [] = [tmpValue k 777 777] := by
          simp [dividerDescs, hz]
        have hx : (777 : Nat) = 0 ∨ (777 : Nat) = 777 := Or.inr rfl
        have := descCost_trailing k 777 (by omega) hk2 hx
        simp only [hd, List.map_cons, List.map_nil, List.sum_singleton]
        generalize descCost (tmpValue k 777 777) = c at this ⊢
        omega
      · have hd : dividerDescs M k [] = [tmpValue k 0 0] := by
          simp [dividerDescs, hz, he]
        have hx : (0 : Nat) = 0 ∨ (0 : Nat) = 777 := Or.inl rfl
        have := descCost_trailing k 0 (by omega) hk2 hx
        simp only [hd, List.map_cons, List.map_nil, List.sum_singleton]
        generalize descCost (tmpValue k 0 0) = c at this ⊢
        omega
  | cons v vs ih =>
    intro k hk
    have hm' : ∀ x ∈ vs, tLen x ≠ 0 → 4 ≤ tLen x ∧ 1 ≤ tOffset x :=
      fun x hx => hm x (by simp [hx])
    have hadv := advance_pos v
    have hs : ((v :: vs).map advance).sum = advance v + (vs.map advance).sum := by
      simp only [List.map_cons, List.sum_cons]
    rw [hs] at hk ⊢
    generalize (vs.map advance).sum = S at hk ih ⊢
    by_cases hge : M ≤ k
    · have hd : dividerDescs M k (v :: vs) = dividerDescs M k vs := by
        simp only [dividerDescs, hge, if_true]
      have := ih hm' k (by omega)
      rw [hd]
      generalize ((dividerDescs M k vs).map descCost).sum = c at this ⊢
      omega
    · by_cases hv : tLen v = 0
      · have hd : dividerDescs M k (v :: vs) = dividerDescs M (k + 1) vs := by
          simp only [dividerDescs, hge, if_false, hv, ne_eq, not_true_eq_false]
        have ha := advance_of_literal hv
        have := ih hm' (k + 1) (by omega)
        rw [hd]
        generalize ((dividerDescs M (k + 1) vs).map descCost).sum = c at this ⊢
        omega
      · obtain ⟨h4, ho⟩ := hm v (by simp) hv
        have ha : advance v = tLen v := by simp [advance, hv]
        have hd : dividerDescs M k (v :: vs) =
            tmpValue k ((tLen v + 252) % 256) (tOffset v) :: dividerDescs M 0 vs := by
          simp only [dividerDescs, hge, if_false, hv, ne_eq, not_false_eq_true, if_true]
        have := ih hm' 0 (by omega)
        have hc := descCost_match k v (by omega) h4 ho
        have he : (escape (k % 65536)).length ≤ k / 255 + 1 := by
          have hmod := Nat.mod_le k 65536
          rw [escape_length]
          split
          · omega
          · have : (k % 65536 - 15) / 255 ≤ k / 255 :=
              Nat.div_le_div_right (by omega)
            omega
        simp only [hd, List.map_cons, List.sum_cons]
        generalize ((dividerDescs M 0 vs).map descCost).sum = c at this ⊢
        generalize descCost (tmpValue k ((tLen v + 252) % 256) (tOffset v)) = c1 at hc ⊢
        generalize (escape (k % 65536)).length = e at hc he
        omega

/-! ## C18: the size of a compressed block -/

theorem input_size_ne_zero (toks : List Nat) (input_size : Nat) (hne : toks ≠ [])
    (hcov : (toks.map advance).sum = input_size) : input_size ≠ 0 := by
  obtain ⟨t, ts, rfl⟩ := List.exists_cons_of_ne_nil hne
  have := advance_pos t
  simp only [List.map_cons, List.sum_cons] at hcov
  omega

/-- On a non-empty token stream that covers a block of at most 65536 bytes,
with match lengths from 4 to 255 and offsets of at least 1, and whose last
token is a literal or which is followed in the input stream by one more value,
both stages return and the size reported is at most
`input_size + input_size / 255 + 2`. -/
theorem compressed_size_returned (M input_size : Nat) (toks extra ml : List Nat) (idx : Nat)
    (hne : toks ≠ []) (hcov : (toks.map advance).sum = input_size)
    (hsz : input_size ≤ 65536)
    (hm : ∀ v ∈ toks, tLen v ≠ 0 → 4 ≤ tLen v ∧ 1 ≤ tOffset v)
    (hlast : (∃ v, toks.getLast? = some v ∧ tLen v = 0) ∨ extra ≠ []) :
    ∃ s1, lz4CompressPart1 M (toks ++ extra) input_size ml idx = .returned s1 ∧
      ∃ N, ∀ fuel, N ≤ fuel → ∃ r n,
        lz4CompressPart2 fuel s1.lit_outStream s1.lenOffset_Stream input_size
          = .returned r ∧
        r.compressdSizeStream = [n] ∧ r.outStream.length = n + 1 ∧
        n ≤ input_size + input_size / 255 + 2 := by
  obtain ⟨s1, hs1, hd, hl⟩ := part1_streams M input_size toks extra ml idx hne hcov
    (by omega) hlast
  have hlen := length_le_sum_advance toks
  have hnz := dividerDescs_ne_zero M toks (fun v hv h0 => (hm v hv h0).2) 0 (by omega)
  have hsum := dividerDescs_sum M toks 0 (by omega)
  rw [Nat.zero_add] at hsum
  have hneed := litNeed_le_sum (dividerDescs M 0 toks)
  have h0 := input_size_ne_zero toks input_size hne hcov
  obtain ⟨N, hN⟩ := part2_run (litBytes (keptTokens M 0 toks)) (dividerDescs M 0 toks) []
    input_size h0 hnz (by omega)
  have hcost := dividerDescs_cost M toks hm 0 (by omega)
  have hlay := layout_length_le (dividerDescs M 0 toks) (litBytes (keptTokens M 0 toks))
  rw [Nat.zero_add, hcov] at hcost
  have hbound : (layout (dividerDescs M 0 toks) (litBytes (keptTokens M 0 toks))).length ≤
      input_size + input_size / 255 + 2 := Nat.le_trans hlay hcost
  refine ⟨s1, hs1, N, fun fuel hf => ?_⟩
  obtain ⟨r, hr, hout, -, hsize, -, -⟩ := hN fuel hf
  refine ⟨r, (layout (dividerDescs M 0 toks) (litBytes (keptTokens M 0 toks))).length,
    by rw [hd, hl]; exact hr, ?_, ?_, hbound⟩
  · rw [hsize, Nat.mod_eq_of_lt (by omega)]
  · rw [hout, List.length_append, List.length_singleton]

/-! ## A block that outgrows its slot -/

theorem encTokens_replicate (n : Nat) : ∀ pend rest : List Nat,
    encTokens pend (List.replicate n 97 ++ rest) =
      encTokens (pend ++ List.replicate n 97) rest := by
  have hl : tLen 97 = 0 := by decide
  have hc : tCh 97 = 97 := by decide
  induction n with
  | zero => intro pend rest; simp
  | succ n ih =>
    intro pend rest
    rw [List.replicate_succ, List.cons_append, encTokens, if_pos hl, hc, ih]
    simp

theorem encTokens_match_length (pend rest : List Nat) :
    (encTokens pend (66560 :: rest)).length =
      pend.length + (escape pend.length).length + 3 + (encTokens [] rest).length := by
  have hl : tLen 66560 ≠ 0 := by decide
  have h4 : tLen 66560 - 4 = 0 := by decide
  have he : escape 0 = [] := by decide
  rw [encTokens, if_neg hl, h4, he]
  simp only [List.length_cons, List.length_append, List.length_nil]
  omega

theorem encTokens_slotTokens (j : Nat) :
    (encTokens [] (slotTokens j)).length = 4115 * j + 4068 := by
  induction j with
  | zero =>
    have h := encTokens_replicate 4051 [] []
    rw [List.append_nil, List.nil_append] at h
    have hne : List.replicate 4051 97 ≠ [] := by
      intro h0
      have := congrArg List.length h0
      rw [List.length_replicate, List.length_nil] at this
      omega
    have e1 : (escape 4051).length = 16 := by rw [escape_length]; decide
    rw [slotTokens, h, encTokens, if_neg hne]
    simp only [List.length_cons, List.length_append, List.length_replicate, List.length_nil,
      e1]
  | succ j ih =>
    have h := encTokens_replicate 4095 [] (66560 :: slotTokens j)
    rw [List.nil_append] at h
    have e1 : (escape 4095).length = 17 := by rw [escape_length]; decide
    rw [slotTokens, h, encTokens_match_length, ih]
    simp only [List.length_replicate, e1]
    omega

theorem longestRun_replicate (n : Nat) : ∀ (k : Nat) (rest : List Nat),
    longestRun k (List.replicate n 97 ++ rest) = longestRun (k + n) rest := by
  have hl : tLen 97 = 0 := by decide
  induction n with
  | zero => intro k rest; simp
  | succ n ih =>
    intro k rest
    rw [List.replicate_succ, List.cons_append, longestRun, if_pos hl, ih]
    congr 1
    omega

theorem longestRun_slotTokens (j : Nat) : longestRun 0 (slotTokens j) ≤ 4095 := by
  induction j with
  | zero =>
    have h := longestRun_replicate 4051 0 []
    rw [List.append_nil] at h
    rw [slotTokens, h]
    simp [longestRun]
  | succ j ih =>
    have hl : tLen 66560 ≠ 0 := by decide
    rw [slotTokens, longestRun_replicate, longestRun, if_neg hl]
    omega

theorem sum_advance_replicate (n : Nat) (rest : List Nat) :
    ((List.replicate n 97 ++ rest).map advance).sum = n + (rest.map advance).sum := by
  have ha : advance 97 = 1 := by decide
  induction n with
  | zero => simp
  | succ n ih =>
    rw [List.replicate_succ, List.cons_append, List.map_cons, List.sum_cons, ih, ha]
    omega

theorem sum_advance_slotTokens (j : Nat) :
    ((slotTokens j).map advance).sum = 4099 * j + 4051 := by
  induction j with
  | zero =>
    have h := sum_advance_replicate 4051 []
    rw [List.append_nil] at h
    rw [slotTokens, h]
    simp
  | succ j ih =>
    have ha : advance 66560 = 4 := by decide
    rw [slotTokens, sum_advance_replicate, List.map_cons, List.sum_cons, ih, ha]
    omega

theorem mem_slotTokens (j : Nat) : ∀ v ∈ slotTokens j, v = 97 ∨ v = 66560 := by
  induction j with
  | zero =>
    intro v hv
    exact Or.inl (List.eq_of_mem_replicate hv)
  | succ j ih =>
    intro v hv
    rw [slotTokens, List.mem_append, List.mem_cons] at hv
    rcases hv with hv | hv | hv
    · exact Or.inl (List.eq_of_mem_replicate hv)
    · exact Or.inr hv
    · exact ih v hv

theorem slotTokens_last (j : Nat) : ∃ init, slotTokens j = init ++ [97] := by
  induction j with
  | zero => exact ⟨List.replicate 4050 97, by rw [slotTokens, ← List.replicate_succ']⟩
  | succ j ih =>
    obtain ⟨init, h⟩ := ih
    exact ⟨List.replicate 4095 97 ++ 66560 :: init, by rw [slotTokens, h, List.append_assoc, List.cons_append]⟩

theorem getLast_slotTokens (j : Nat) : (slotTokens j).getLast? = some 97 := by
  obtain ⟨init, h⟩ := slotTokens_last j
  rw [h, List.getLast?_concat]

/-- Without a literal run that reaches `M`, and with `M ≤ 65536`: both stages
return, the flag stays 0, and the encoder writes the block encoding of the
tokens. -/
theorem compress_no_overflow (M input_size : Nat) (toks extra ml : List Nat) (idx : Nat)
    (hne : toks ≠ []) (hcov : (toks.map advance).sum = input_size)
    (hsz : input_size < 4294967296) (hrun : longestRun 0 toks < M) (hM : M ≤ 65536)
    (hm : ∀ v ∈ toks, tLen v ≠ 0 → 4 ≤ tLen v ∧ 1 ≤ tOffset v)
    (hlast : (∃ v, toks.getLast? = some v ∧ tLen v = 0) ∨ extra ≠ []) :
    ∃ s1, lz4CompressPart1 M (toks ++ extra) input_size ml idx = .returned s1 ∧
      s1.max_lit_limit = ml.set idx 0 ∧
      ∃ N, ∀ fuel, N ≤ fuel → ∃ r,
        lz4CompressPart2 fuel s1.lit_outStream s1.lenOffset_Stream input_size
          = .returned r ∧
        r.outStream = encTokens [] toks ++ [0] ∧
        r.compressdSizeStream = [(encTokens [] toks).length % 4294967296] := by
  obtain ⟨s1, hs1, hw⟩ := part1_returned M input_size toks extra ml idx hne hcov hsz
    (last_literal_advance toks extra hne hlast)
  obtain ⟨hd, hl, hf⟩ := divided_no_overflow M idx toks (part1Init [] ml) hrun
    (fun v hv h0 => (hm v hv h0).1)
  simp only [Part1State.written, Prod.mk.injEq] at hw
  have hdesc : s1.lenOffset_Stream = tokenDescs 0 toks ++ 0 :: [] := by
    rw [hw.2.1]
    simpa [divided, part1Init, expectedDescs_eq] using hd
  have hlits : s1.lit_outStream = litBytes toks := by
    rw [hw.1]
    simpa [divided, part1Init] using hl
  have hflag : s1.max_lit_limit = ml.set idx 0 := by
    rw [hw.2.2.1]
    simpa [divided, part1Init] using hf
  obtain ⟨h1, h2, h3⟩ := layout_tokenDescs toks [] (by simp; omega) hm
  simp only [List.length_nil, List.nil_append, Nat.zero_add] at h1 h2 h3
  obtain ⟨N, hN⟩ := part2_run (litBytes toks) (tokenDescs 0 toks) [] input_size
    (input_size_ne_zero toks input_size hne hcov) h1 (by omega)
  refine ⟨s1, hs1, hflag, N, fun fuel hf => ?_⟩
  obtain ⟨r, hr, hout, -, hsz, -⟩ := hN fuel hf
  exact ⟨r, by rw [hdesc, hlits]; exact hr, by rw [hout, h3], by rw [hsz, h3]⟩

/-- Literal tokens `a` and matches of length 4 at offset 1 are a valid parse of
a block of bytes `a`, from a position that is not 0 or with a literal first. -/
theorem validParseAt_slot (n : Nat) : ∀ (toks : List Nat) (p : Nat),
    (∀ v ∈ toks, v = 97 ∨ v = 66560) → (1 ≤ p ∨ toks.head? = some 97) →
    p + (toks.map advance).sum = n →
    validParseAt (List.replicate n 97) p toks = true := by
  intro toks
  induction toks with
  | nil =>
    intro p _ _ hp
    simp only [List.map_nil, List.sum_nil, Nat.add_zero] at hp
    simp [validParseAt, hp]
  | cons v vs ih =>
    intro p hmem hp hcov
    have hmem' : ∀ x ∈ vs, x = 97 ∨ x = 66560 := fun x hx => hmem x (by simp [hx])
    simp only [List.map_cons, List.sum_cons] at hcov
    rcases hmem v (by simp) with hv | hv
    · subst hv
      have hl : tLen 97 = 0 := by decide
      have hc : tCh 97 = 97 := by decide
      have ha : advance 97 = 1 := by decide
      rw [ha] at hcov
      have hget : (List.replicate n 97)[p]? = some 97 := by
        rw [List.getElem?_replicate]; simp; omega
      rw [validParseAt, if_pos hl, hc, hget, ha, ih (p + 1) hmem' (Or.inl (by omega)) (by omega)]
      simp
    · subst hv
      have hl : tLen 66560 ≠ 0 := by decide
      have h4 : tLen 66560 = 4 := by decide
      have ho : tOffset 66560 = 1 := by decide
      have ha : advance 66560 = 4 := by decide
      rw [ha] at hcov
      have hp1 : 1 ≤ p := by
        rcases hp with hp | hp
        · exact hp
        · simp at hp
      have hall : (List.range 4).all (fun j =>
          decide ((List.replicate n 97)[p + j]? = (List.replicate n 97)[p + j - 1]?)) = true := by
        rw [List.all_eq_true]
        intro j hj
        rw [List.mem_range] at hj
        rw [List.getElem?_replicate, List.getElem?_replicate]
        have h1 : p + j < n := by omega
        have h2 : p + j - 1 < n := by omega
        simp [h1, h2]
      rw [validParseAt, if_neg hl, h4, ho, hall, ha,
        ih (p + 4) hmem' (Or.inl (by omega)) (by omega)]
      simp
      omega

theorem head_slotTokens (j : Nat) : (slotTokens (j + 1)).head? = some 97 := by
  have : List.replicate 4095 97 = 97 :: List.replicate 4094 97 := by
    rw [← List.replicate_succ]
  rw [slotTokens, this]
  rfl

/-- C18 as stated fails: with the default `MAX_LIT_COUNT = 4096`, take the
block of 65536 bytes `a` and the token stream of 15 times 4095 literals and a
match (length 4, offset 1), then 4051 literals.  It covers the block, is a
valid parse of it, and no literal run reaches 4096, so the overflow flag stays
0.  Each of the 15 records takes 4115 bytes for 4099 bytes of input and the
last run 4068 bytes for 4051: the encoder reports 65793 bytes, 257 more than
the 65536 bytes of a slot. -/
theorem slot_containment_counterexample :
    ((slotTokens 15).map advance).sum = 65536 ∧
    (∀ v ∈ slotTokens 15, tLen v ≠ 0 → 4 ≤ tLen v ∧ tLen v ≤ 255 ∧ 1 ≤ tOffset v) ∧
    validParseAt (List.replicate 65536 97) 0 (slotTokens 15) = true ∧
    ∃ s1, lz4CompressPart1 4096 (slotTokens 15) 65536 [0] 0 = .returned s1 ∧
      s1.max_lit_limit = [0] ∧
      ∃ N, ∀ fuel, N ≤ fuel → ∃ r,
        lz4CompressPart2 fuel s1.lit_outStream s1.lenOffset_Stream 65536 = .returned r ∧
        r.compressdSizeStream = [65793] ∧ r.outStream.length = 65794 ∧
        ¬ (65793 ≤ 65536) := by
  have hcov : ((slotTokens 15).map advance).sum = 65536 := by
    rw [sum_advance_slotTokens]
  have hfields : ∀ v ∈ slotTokens 15, tLen v ≠ 0 → 4 ≤ tLen v ∧ tLen v ≤ 255 ∧ 1 ≤ tOffset v := by
    intro v hv h0
    rcases mem_slotTokens 15 v hv with h | h
    · subst h; exact absurd (by decide) h0
    · subst h; decide
  have hne : slotTokens 15 ≠ [] := by
    intro h
    have := getLast_slotTokens 15
    rw [h] at this
    simp at this
  have hlen : (encTokens [] (slotTokens 15)).length = 65793 := by
    rw [encTokens_slotTokens]
  obtain ⟨s1, hs1, hflag, N, hN⟩ := compress_no_overflow 4096 65536 (slotTokens 15) [] [0] 0
    hne hcov (by omega) (by have := longestRun_slotTokens 15; omega) (by omega)
    (fun v hv h0 => ⟨(hfields v hv h0).1, (hfields v hv h0).2.2⟩)
    (Or.inl ⟨97, getLast_slotTokens 15, by decide⟩)
  rw [List.append_nil] at hs1
  refine ⟨hcov, hfields, ?_, s1, hs1, by rw [hflag]; rfl, N, fun fuel hf => ?_⟩
  · exact validParseAt_slot 65536 (slotTokens 15) 0 (mem_slotTokens 15)
      (Or.inr (head_slotTokens 14)) (by rw [Nat.zero_add, hcov])
  · obtain ⟨r, hr, hout, hsz⟩ := hN fuel hf
    refine ⟨r, hr, ?_, ?_, by omega⟩
    · rw [hsz, hlen]
    · rw [hout, List.length_append, hlen]
      rfl

/-! ## When the encoder reports a size -/

/-- One pass of the encoder's loop leaves the descriptor stream as it is or
takes its first word. -/
theorem fsmStep_descs (s : Part2State) :
    ∃ pre, s.in_lenOffset_Stream = pre ++ (fsmStep s).state.in_lenOffset_Stream := by
  unfold fsmStep
  split
  · split
    · exact ⟨[], rfl⟩
    · rename_i d rest hd
      split
      · exact ⟨[d], by simp [Outcome.state, hd]⟩
      · exact ⟨[d], by simp [Outcome.state, hd]⟩
  · refine ⟨[], ?_⟩
    simp only [Outcome.state, streamWrite, List.nil_append]
    split <;> split <;> (try split) <;> rfl
  · split <;> exact ⟨[], rfl⟩
  · split
    · exact ⟨[], rfl⟩
    · refine ⟨[], ?_⟩
      simp only [Outcome.state, streamWrite, List.nil_append]
      split <;> rfl
  · exact ⟨[], rfl⟩
  · exact ⟨[], rfl⟩
  · split <;> exact ⟨[], rfl⟩

/-- The loop of the encoder ends only on an all-zero word. -/
theorem fsmStep_returned (s r : Part2State) (h : fsmStep s = .returned r) :
    0 ∈ s.in_lenOffset_Stream := by
  unfold fsmStep at h
  split at h
  · split at h
    · exact absurd h (by simp)
    · rename_i d rest hd
      split at h
      · rename_i hz
        rw [hd, hz]
        simp
      · exact absurd h (by simp)
  · exact absurd h (by simp)
  · split at h <;> exact absurd h (by simp)
  · split at h <;> exact absurd h (by simp)
  · exact absurd h (by simp)
  · exact absurd h (by simp)
  · split at h <;> exact absurd h (by simp)

theorem fsmRun_returned (fuel : Nat) : ∀ s r : Part2State, fsmRun fuel s = .returned r →
    0 ∈ s.in_lenOffset_Stream := by
  induction fuel with
  | zero => intro s r h; simp [fsmRun] at h
  | succ fuel ih =>
    intro s r h
    rw [fsmRun] at h
    cases hstep : fsmStep s with
    | returned t => exact fsmStep_returned s t hstep
    | blocked t => rw [hstep] at h; simp at h
    | running t =>
      rw [hstep] at h
      have h0 := ih t r h
      obtain ⟨pre, hpre⟩ := fsmStep_descs s
      rw [hstep] at hpre
      rw [hpre]
      exact List.mem_append_right _ h0

/-- On a non-empty block the encoder reports a size only after it has read an
all-zero word. -/
theorem part2_no_size (fuel : Nat) (lits descs : List Nat) (input_size : Nat)
    (h0 : input_size ≠ 0) (hz : 0 ∉ descs) :
    (lz4CompressPart2 fuel lits descs input_size).state.compressdSizeStream = [] := by
  have hinv := fsmRun_inv fuel (part2Init lits descs) (part2Init_inv lits descs)
  unfold lz4CompressPart2
  simp only [h0, if_false]
  cases hrun : fsmRun fuel (part2Init lits descs) with
  | returned r => exact absurd (fsmRun_returned fuel _ r hrun) hz
  | blocked t =>
    rw [hrun] at hinv
    exact hinv.2.2
  | running t =>
    rw [hrun] at hinv
    exact hinv.2.2

theorem divideTokens_no_zero (M : Nat) (toks : List Nat)
    (hoff : ∀ v ∈ toks, tLen v ≠ 0 → 1 ≤ tOffset v) :
    ∀ s : Part1State, 0 ∉ s.lenOffset_Stream →
      0 ∉ (divideTokens M toks s).lenOffset_Stream := by
  induction toks with
  | nil => intro s h; exact h
  | cons v vs ih =>
    intro s h
    simp only [divideTokens, List.foldl_cons] at ih ⊢
    apply ih (fun x hx => hoff x (by simp [hx]))
    unfold divideToken
    split
    · exact h
    · split
      · rename_i hv
        have h1 := hoff v (by simp) hv
        have h2 := tOffset_lt v
        simp only [List.mem_append, List.mem_singleton, not_or]
        refine ⟨h, ?_⟩
        intro hz
        have := (tmpValue_eq_zero _ _ _).mp hz.symm
        omega
      · exact h

theorem lz4Compress_state (M fuel : Nat) (inStream ml : List Nat) (input_size idx : Nat) :
    (lz4Compress M fuel inStream ml input_size idx).state.2 =
      (lz4CompressPart2 fuel
        (lz4CompressPart1 M inStream input_size ml idx).state.lit_outStream
        (lz4CompressPart1 M inStream input_size ml idx).state.lenOffset_Stream
        input_size).state := by
  unfold lz4Compress
  cases lz4CompressPart1 M inStream input_size ml idx with
  | returned s1 =>
    simp only [Outcome.state]
    cases lz4CompressPart2 fuel s1.lit_outStream s1.lenOffset_Stream input_size <;> rfl
  | blocked s1 =>
    simp only [Outcome.state]
    cases lz4CompressPart2 fuel s1.lit_outStream s1.lenOffset_Stream input_size <;> rfl
  | running s1 => rfl

theorem part2_returned_mono {fuel : Nat} {lits descs : List Nat} {input_size : Nat}
    {r : Part2State} (h : lz4CompressPart2 fuel lits descs input_size = .returned r) :
    ∀ fuel2, fuel ≤ fuel2 → lz4CompressPart2 fuel2 lits descs input_size = .returned r := by
  intro fuel2 hle
  unfold lz4CompressPart2 at h ⊢
  by_cases h0 : input_size = 0
  · simp only [h0, if_true] at h ⊢
    exact h
  · simp only [h0, if_false] at h ⊢
    cases hrun : fsmRun fuel (part2Init lits descs) with
    | returned t =>
      rw [hrun] at h
      rw [fsmRun_returned_mono hrun fuel2 hle]
      exact h
    | blocked t => rw [hrun] at h; simp at h
    | running t => rw [hrun] at h; simp at h

/-- On a non-empty block, an encoder that has not returned has reported no
size. -/
theorem part2_pending_size (fuel : Nat) (lits descs : List Nat) (input_size : Nat)
    (h0 : input_size ≠ 0)
    (hr : (lz4CompressPart2 fuel lits descs input_size).isReturned = false) :
    (lz4CompressPart2 fuel lits descs input_size).state.compressdSizeStream = [] := by
  have hinv := fsmRun_inv fuel (part2Init lits descs) (part2Init_inv lits descs)
  unfold lz4CompressPart2 at hr ⊢
  simp only [h0, if_false] at hr ⊢
  cases hrun : fsmRun fuel (part2Init lits descs) with
  | returned r => rw [hrun] at hr; simp [Outcome.isReturned] at hr
  | blocked t =>
    rw [hrun] at hinv
    exact hinv.2.2
  | running t =>
    rw [hrun] at hinv
    exact hinv.2.2

theorem isReturned_eq_false {σ : Type} (o : Outcome σ) (h : ∀ r, o ≠ .returned r) :
    o.isReturned = false := by
  cases o with
  | returned r => exact absurd rfl (h r)
  | blocked _ => rfl
  | running _ => rfl

/-- C18 (slot containment), amended.  Take a token stream `toks` that covers a
block of `input_size ≤ 65536` bytes, with match lengths from 4 to 255 and
offsets of at least 1, followed in the input stream by `extra`.  Whatever the
number of passes allowed and however the run of `lz4Compress` ends, a size
that the encoder has reported is at most `input_size + input_size / 255 + 2`.
When the stream is not empty and its last token is a literal, or `extra` is
not empty, `lz4Compress` returns once it has enough passes, with one size `n`
reported and `n` bytes in `outStream` before the terminator. -/
theorem compressed_size_bound (M input_size fuel : Nat) (toks extra ml : List Nat)
    (idx : Nat) (hcov : (toks.map advance).sum = input_size) (hsz : input_size ≤ 65536)
    (hm : ∀ v ∈ toks, tLen v ≠ 0 → 4 ≤ tLen v ∧ 1 ≤ tOffset v) :
    (∀ n ∈ (lz4Compress M fuel (toks ++ extra) ml input_size idx).state.2.compressdSizeStream,
      n ≤ input_size + input_size / 255 + 2) ∧
    (toks ≠ [] → ((∃ v, toks.getLast? = some v ∧ tLen v = 0) ∨ extra ≠ []) →
      ∃ N, ∀ fuel2, N ≤ fuel2 → ∃ s1 r n,
        lz4Compress M fuel2 (toks ++ extra) ml input_size idx = .returned (s1, r) ∧
        r.compressdSizeStream = [n] ∧ r.outStream.length = n + 1) := by
  constructor
  · intro n hn
    rw [lz4Compress_state] at hn
    by_cases hne : toks = []
    · subst hne
      simp only [List.map_nil, List.sum_nil] at hcov
      subst hcov
      have : n = 0 := by
        cases extra <;> simpa [lz4CompressPart2, lz4CompressPart1, Outcome.state] using hn
      omega
    · have h0 := input_size_ne_zero toks input_size hne hcov
      by_cases hlast : advance (toks.getLast hne) = 1 ∨ extra ≠ []
      · have hlast2 : (∃ v, toks.getLast? = some v ∧ tLen v = 0) ∨ extra ≠ [] := by
          rcases hlast with h | h
          · refine Or.inl ⟨toks.getLast hne, List.getLast?_eq_getLast _ hne, ?_⟩
            by_contra hv
            have := (hm _ (List.getLast_mem hne) hv).1
            simp only [advance, hv, ne_eq, not_false_eq_true, if_true] at h
            omega
          · exact Or.inr h
        obtain ⟨s1, hs1, N, hN⟩ := compressed_size_returned M input_size toks extra ml idx
          hne hcov hsz hm hlast2
        rw [hs1] at hn
        change n ∈ (lz4CompressPart2 fuel s1.lit_outStream s1.lenOffset_Stream
          input_size).state.compressdSizeStream at hn
        by_cases hret : (lz4CompressPart2 fuel s1.lit_outStream s1.lenOffset_Stream
            input_size).isReturned = false
        · rw [part2_pending_size fuel _ _ _ h0 hret] at hn
          simp at hn
        · cases hrun : lz4CompressPart2 fuel s1.lit_outStream s1.lenOffset_Stream input_size with
          | returned r =>
            obtain ⟨r2, n2, hr2, hsz2, -, hb⟩ := hN (max fuel N) (Nat.le_max_right _ _)
            rw [part2_returned_mono hrun _ (Nat.le_max_left _ _)] at hr2
            cases hr2
            rw [hrun] at hn
            simp only [Outcome.state, hsz2, List.mem_singleton] at hn
            omega
          | blocked t => rw [hrun] at hret; simp [Outcome.isReturned] at hret
          | running t => rw [hrun] at hret; simp [Outcome.isReturned] at hret
      · have hex : extra = [] := by
          by_contra h
          exact hlast (Or.inr h)
        have hadv : advance (toks.getLast hne) ≠ 1 := fun h => hlast (Or.inl h)
        subst hex
        rw [List.append_nil] at hn
        obtain ⟨s, hs, hw⟩ := part1_blocked M input_size toks ml idx hne hcov (by omega) hadv
        rw [hs] at hn
        change n ∈ (lz4CompressPart2 fuel s.lit_outStream s.lenOffset_Stream
          input_size).state.compressdSizeStream at hn
        simp only [Part1State.written, Prod.mk.injEq] at hw
        have hz : 0 ∉ s.lenOffset_Stream := by
          rw [hw.2.1]
          exact divideTokens_no_zero M toks.dropLast
            (fun v hv h0 => (hm v (List.mem_of_mem_dropLast hv) h0).2) _
            (by simp [part1Init])
        rw [part2_no_size fuel _ _ _ h0 hz] at hn
        simp at hn
  · intro hne hlast
    obtain ⟨s1, hs1, N, hN⟩ := compressed_size_returned M input_size toks extra ml idx
      hne hcov hsz hm hlast
    refine ⟨N, fun fuel2 hf => ?_⟩
    obtain ⟨r, n, hr, hn1, hn2, -⟩ := hN fuel2 hf
    exact ⟨s1, r, n, by simp [lz4Compress, hs1, hr], hn1, hn2⟩

theorem compressed_size_bound_witness :
    (∀ n ∈ (lz4Compress 4096 9 ([97, 66560, 98] ++ []) [0] 6 0).state.2.compressdSizeStream,
      n ≤ 6 + 6 / 255 + 2) ∧
    ∃ N, ∀ fuel2, N ≤ fuel2 → ∃ s1 r n,
      lz4Compress 4096 fuel2 ([97, 66560, 98] ++ []) [0] 6 0 = .returned (s1, r) ∧
      r.compressdSizeStream = [n] ∧ r.outStream.length = n + 1 :=
  ⟨(compressed_size_bound 4096 6 9 [97, 66560, 98] [] [0] 0 (by decide) (by decide)
      (by decide)).1,
    (compressed_size_bound 4096 6 9 [97, 66560, 98] [] [0] 0 (by decide) (by decide)
      (by decide)).2 (by decide) (Or.inl ⟨98, by decide, by decide⟩)⟩

theorem literal_accounting_witness :
    ∃ s1, lz4CompressPart1 4096 ([97, 66560, 98] ++ []) 6 [0] 0 = .returned s1 ∧
      (s1.lenOffset_Stream.map descLit).sum = s1.lit_outStream.length ∧
      4096 ≤ 65535 ∧ (∀ d ∈ s1.lenOffset_Stream.dropLast, d ≠ 0) ∧
      ∃ N, ∀ fuel, N ≤ fuel → ∃ r,
        lz4CompressPart2 fuel s1.lit_outStream s1.lenOffset_Stream 6 = .returned r ∧
        r.in_lenOffset_Stream = [] ∧ r.in_lit_inStream = [] := by
  obtain ⟨s1, h1, h2, h3⟩ := literal_accounting 4096 6 [97, 66560, 98] [] [0] 0 (by decide)
    (by decide) (by decide) (Or.inl ⟨98, by decide, by decide⟩)
  have hd : (lz4CompressPart1 4096 ([97, 66560, 98] ++ []) 6 [0] 0).state.lenOffset_Stream
      = [4295032832, 4294967296, 0] := by decide
  rw [h1] at hd
  have hz : ∀ d ∈ s1.lenOffset_Stream.dropLast, d ≠ 0 := by
    change s1.lenOffset_Stream = _ at hd
    rw [hd]
    decide
  exact ⟨s1, h1, h2, by decide, hz, h3 (by decide) hz⟩

/-! ## The scheduler pass by pass -/

theorem readAfter_add (MIN input_size r a : Nat) : ∀ b,
    readAfter MIN input_size r (a + b) =
      readAfter MIN input_size (readAfter MIN input_size r a) b := by
  intro b
  induction b with
  | zero => rfl
  | succ b ih =>
    rw [← Nat.add_assoc]
    simp only [readAfter, ih]

theorem laneSize_add (MIN input_size r a b : Nat) :
    laneSize MIN input_size (readAfter MIN input_size r a) b =
      laneSize MIN input_size r (a + b) := by
  unfold laneSize
  rw [readAfter_add]

/-- Pass `m` is a pass of the loop exactly when `m * NUM_BLOCK` is below the
number of blocks. -/
theorem lt_numBatches (N input_size m : Nat) (hN1 : 1 ≤ N) :
    m < numBatches N input_size ↔ m * N < noBlocks input_size := by
  unfold numBatches
  have h := Nat.le_div_iff_mul_le (show 0 < N by omega) (x := m + 1)
    (y := noBlocks input_size + N - 1)
  rw [Nat.succ_mul] at h
  constructor
  · intro hlt
    have := h.mp hlt
    omega
  · intro hlt
    exact h.mpr (by omega)

theorem div_mod_of_lane (N m k : Nat) (hk : k < N) :
    (m * N + k) / N = m ∧ (m * N + k) % N = k := by
  have hN : 0 < N := by omega
  constructor
  · rw [Nat.add_comm, Nat.add_mul_div_right _ _ hN, Nat.div_eq_of_lt hk, Nat.zero_add]
  · rw [Nat.add_comm, Nat.add_mul_mod_self_right, Nat.mod_eq_of_lt hk]

/-- What holds when pass `m` is entered: the blocks before it are recorded,
each with the size resolved in its pass on its lane. -/
theorem batchStart_spec {W : Type} (run : LaneRun W) (N MIN : Nat) (mem : MMState W)
    (input_size : Nat) (hN1 : 1 ≤ N) (hN : N < 2147483648) :
    ∀ m, m ≤ numBatches N input_size →
      (batchStart run N MIN mem input_size m).block_idx =
        min (m * N) (noBlocks input_size) ∧
      (batchStart run N MIN mem input_size m).readBlockSize =
        readAfter MIN input_size 0 (min (m * N) (noBlocks input_size)) ∧
      ∀ b, (batchStart run N MIN mem input_size m).compressd_size b =
        if b < min (m * N) (noBlocks input_size) then
          some (resolved (called run N MIN mem input_size (b / N)) (b % N))
        else none := by
  have hnb := noBlocks_le input_size
  intro m
  induction m with
  | zero =>
    intro _
    refine ⟨by simp [batchStart], by simp [batchStart, readAfter], fun b => ?_⟩
    simp [batchStart]
  | succ m ih =>
    intro hm
    have hlt : m < numBatches N input_size := by omega
    have hi : m * N < noBlocks input_size := (lt_numBatches N input_size m hN1).mp hlt
    obtain ⟨h1, h2, h3⟩ := ih (by omega)
    have hmin : min (m * N) (noBlocks input_size) = m * N := by omega
    rw [hmin] at h1 h2 h3
    have hn := nblocksOf_eq N (noBlocks input_size) (m * N) hi hnb hN
    obtain ⟨hb1, hb2⟩ := pass_spec run N MIN input_size (noBlocks input_size) (m * N)
      (batchStart run N MIN mem input_size m) hi hnb hN (by omega)
    have hb3 := pass_readBlockSize run N MIN input_size (noBlocks input_size) (m * N)
      (batchStart run N MIN mem input_size m) hi hnb hN (by omega)
    have hsucc : (m + 1) * N = m * N + N := Nat.succ_mul m N
    have hmin2 : min ((m + 1) * N) (noBlocks input_size) =
        m * N + nblocksOf N (noBlocks input_size) (m * N) := by
      rw [hsucc, hn]; omega
    simp only [batchStart]
    refine ⟨?_, ?_, fun b => ?_⟩
    · rw [hb1, h1, hmin2]
    · rw [hb3, h2, hmin2, readAfter_add]
    · rw [hb2 b, h1, hmin2]
      by_cases hin : m * N ≤ b ∧ b < m * N + nblocksOf N (noBlocks input_size) (m * N)
      · rw [if_pos hin, if_pos hin.2]
        obtain ⟨k, rfl⟩ : ∃ k, b = m * N + k := ⟨b - m * N, by omega⟩
        have hk : k < N := by omega
        obtain ⟨hd, hmod⟩ := div_mod_of_lane N m k hk
        rw [hd, hmod, Nat.add_sub_cancel_left]
        rfl
      · rw [if_neg hin, h3 b]
        by_cases hb : b < m * N
        · rw [if_pos hb, if_pos (by omega)]
        · rw [if_neg hb, if_neg (by omega)]

theorem numBatches_le (N input_size : Nat) (hN1 : 1 ≤ N) :
    numBatches N input_size ≤ noBlocks input_size := by
  by_contra h
  have h1 := (lt_numBatches N input_size (noBlocks input_size) hN1).mp (by omega)
  have h2 : noBlocks input_size ≤ noBlocks input_size * N :=
    Nat.le_mul_of_pos_right _ (by omega)
  omega

/-- The table after the last pass: index `b` below the number of blocks holds
the size resolved in pass `b / N` on lane `b % N`, and no other index is
written. -/
theorem batchStart_entries {W : Type} (run : LaneRun W) (N MIN : Nat)
    (mem : MMState W) (input_size : Nat) (hN1 : 1 ≤ N) (hN : N < 2147483648) :
    ∀ b, (batchStart run N MIN mem input_size (numBatches N input_size)).compressd_size b =
      if b < noBlocks input_size then
        some (resolved (called run N MIN mem input_size (b / N)) (b % N))
      else none := by
  obtain ⟨-, -, h3⟩ := batchStart_spec run N MIN mem input_size hN1 hN
    (numBatches N input_size) (Nat.le_refl _)
  have hge : ¬ numBatches N input_size * N < noBlocks input_size := by
    rw [← lt_numBatches N input_size _ hN1]; omega
  have hmin : min (numBatches N input_size * N) (noBlocks input_size) = noBlocks input_size := by
    omega
  rw [hmin] at h3
  exact h3

/-- The lane of block `b` in its pass: the block is classified by its original
size, which is in `small_block_inSize` for a small block and in
`input_block_size` otherwise. -/
theorem classified_spec {W : Type} (run : LaneRun W) (N MIN : Nat) (mem : MMState W)
    (input_size : Nat) (hN1 : 1 ≤ N) (hN : N < 2147483648) (b : Nat)
    (hb : b < noBlocks input_size) :
    (classified run N MIN mem input_size (b / N)).small_block (b % N) =
      decide (blockSize MIN input_size b < MIN) ∧
    (blockSize MIN input_size b < MIN →
      (classified run N MIN mem input_size (b / N)).small_block_inSize (b % N) =
        blockSize MIN input_size b) ∧
    (¬ blockSize MIN input_size b < MIN →
      (classified run N MIN mem input_size (b / N)).input_block_size (b % N) =
        blockSize MIN input_size b) := by
  have hnb := noBlocks_le input_size
  have hN0 : 0 < N := by omega
  have hdm : b / N * N + b % N = b := by
    rw [Nat.mul_comm]; exact Nat.div_add_mod b N
  have hk : b % N < N := Nat.mod_lt _ hN0
  have hi : b / N * N < noBlocks input_size := by omega
  have hm : b / N ≤ numBatches N input_size :=
    Nat.le_of_lt ((lt_numBatches N input_size _ hN1).mpr hi)
  obtain ⟨-, h2, -⟩ := batchStart_spec run N MIN mem input_size hN1 hN (b / N) hm
  have hmin : min (b / N * N) (noBlocks input_size) = b / N * N := by omega
  rw [hmin] at h2
  have hn := nblocksOf_eq N (noBlocks input_size) (b / N * N) hi hnb hN
  have hspec := (classifyLanes_spec MIN input_size (b / N * N)
    (nblocksOf N (noBlocks input_size) (b / N * N))
    (batchStart run N MIN mem input_size (b / N)) N).2 (b % N) hk (by omega)
  rw [h2, laneSize_add, hdm] at hspec
  exact hspec

/-! ## The sizes of the blocks -/

/-- As long as whole blocks of 65536 bytes fit, `readBlockSize` moves by 65536
per block. -/
theorem readAfter_full (MIN input_size : Nat) (hMIN : MIN ≤ 65536)
    (hsz : input_size < 4294967296) :
    ∀ b, 65536 * b < input_size → readAfter MIN input_size 0 b = 65536 * b := by
  intro b
  induction b with
  | zero => intro _; rfl
  | succ b ih =>
    intro hb
    have h := ih (by omega)
    have hin : inBlockSizeOf input_size (65536 * b) = 65536 := by
      unfold inBlockSizeOf
      have : ¬ input_size < (65536 * b + 65536) % 4294967296 := by omega
      rw [if_neg this]
    have hs : ¬ (65536 < MIN) := by omega
    simp only [readAfter, h, hin, hs, if_false]
    omega

theorem noBlocks_lt_iff (input_size b : Nat) (h1 : 1 ≤ input_size)
    (hsz : input_size < 4294967296) : b < noBlocks input_size ↔ 65536 * b < input_size := by
  unfold noBlocks
  omega

/-- The sizes of the blocks, for the inputs on which `readBlockSize +
block_length` does not wrap: 65536 for every block but the last, and what is
left of the input for the last. -/
theorem partition_sizes (MIN input_size b : Nat) (hMIN : MIN ≤ 65536)
    (h1 : 1 ≤ input_size) (hsz : input_size ≤ 4294901760) (hb : b < noBlocks input_size) :
    blockSize MIN input_size b =
      if b + 1 < noBlocks input_size then 65536
      else input_size - 65536 * (noBlocks input_size - 1) := by
  have hlt := (noBlocks_lt_iff input_size b h1 (by omega)).mp hb
  unfold blockSize laneSize
  rw [readAfter_full MIN input_size hMIN (by omega) b hlt]
  unfold inBlockSizeOf
  unfold noBlocks at hb ⊢
  split <;> split <;> omega

/-- The sizes of the blocks add up to the input size when nothing wraps. -/
theorem partition_sum (MIN input_size : Nat) (hMIN : MIN ≤ 65536)
    (h1 : 1 ≤ input_size) (hsz : input_size ≤ 4294901760) :
    ((List.range (noBlocks input_size)).map (blockSize MIN input_size)).sum = input_size := by
  have key : ∀ m, m ≤ noBlocks input_size →
      ((List.range m).map (blockSize MIN input_size)).sum =
        if m = noBlocks input_size then input_size else 65536 * m := by
    intro m
    induction m with
    | zero =>
      intro _
      have := noBlocks_pos input_size
      have hne : ¬ (0 = noBlocks input_size) := by omega
      simp [hne]
    | succ m ih =>
      intro hm
      have hprev := ih (by omega)
      have hne : ¬ (m = noBlocks input_size) := by omega
      rw [if_neg hne] at hprev
      rw [List.range_succ, List.map_append, List.sum_append, hprev]
      simp only [List.map_cons, List.map_nil, List.sum_singleton]
      rw [partition_sizes MIN input_size m hMIN h1 hsz (by omega)]
      by_cases hl : m + 1 < noBlocks input_size
      · have hne2 : ¬ (m + 1 = noBlocks input_size) := by omega
        rw [if_pos hl, if_neg hne2]
        omega
      · have he : m + 1 = noBlocks input_size := by omega
        have hlt := (noBlocks_lt_iff input_size m h1 (by omega)).mp (by omega)
        rw [if_neg hl, if_pos he, ← he]
        simp only [Nat.add_sub_cancel]
        omega
  have := key (noBlocks input_size) (Nat.le_refl _)
  simpa using this

/-- Beyond `2^32 - 65536` there are 65536 blocks and, for the last of them,
`readBlockSize + block_length` is `2^32`, which wraps to 0: the test of line
414 fails and the block keeps the size 65536. -/
theorem blockSize_wrap (MIN input_size : Nat) (hMIN : MIN ≤ 65536)
    (hlo : 4294901760 < input_size) (hsz : input_size < 4294967296) :
    noBlocks input_size = 65536 ∧ blockSize MIN input_size 65535 = 65536 ∧
      input_size - 65536 * 65535 < 65536 := by
  refine ⟨by unfold noBlocks; omega, ?_, by omega⟩
  unfold blockSize laneSize
  rw [readAfter_full MIN input_size hMIN hsz 65535 (by omega)]
  unfold inBlockSizeOf
  have : ¬ input_size < (65536 * 65535 + 65536) % 4294967296 := by omega
  rw [if_neg this]

theorem resolved_called {W : Type} (run : LaneRun W) (N MIN : Nat) (mem : MMState W)
    (input_size : Nat) (hN1 : 1 ≤ N) (hN : N < 2147483648) (b : Nat)
    (hb : b < noBlocks input_size) :
    resolved (called run N MIN mem input_size (b / N)) (b % N) =
      if blockSize MIN input_size b < MIN then blockSize MIN input_size b
      else if (called run N MIN mem input_size (b / N)).max_lit_limit (b % N) ≠ 0 then
        blockSize MIN input_size b
      else (called run N MIN mem input_size (b / N)).output_block_size (b % N) := by
  obtain ⟨h1, h2, h3⟩ := classified_spec run N MIN mem input_size hN1 hN b hb
  have e1 : (called run N MIN mem input_size (b / N)).small_block =
      (classified run N MIN mem input_size (b / N)).small_block := rfl
  have e2 : (called run N MIN mem input_size (b / N)).small_block_inSize =
      (classified run N MIN mem input_size (b / N)).small_block_inSize := rfl
  have e3 : (called run N MIN mem input_size (b / N)).input_block_size =
      (classified run N MIN mem input_size (b / N)).input_block_size := rfl
  unfold resolved
  rw [e1, e2, e3, h1]
  by_cases hs : blockSize MIN input_size b < MIN
  · simp only [hs, decide_True, if_true, h2 hs]
  · simp only [hs, decide_False, if_false, h3 hs]
    simp

/-! ## The slot offsets of the lanes -/

/-- After the loop over `j`: the lane of a block that is not small holds the
offset of its 64 KiB slot in `input_idx` and `output_idx`. -/
theorem classifyLanes_idx {W : Type} (MIN input_size i nblocks : Nat) (s : MMState W) :
    ∀ n k, k < n → k < nblocks → ¬ laneSize MIN input_size s.readBlockSize k < MIN →
      (classifyLanes MIN input_size i nblocks n s).input_idx k =
        (i + k) % 4294967296 * 65536 % 4294967296 ∧
      (classifyLanes MIN input_size i nblocks n s).output_idx k =
        (i + k) % 4294967296 * 65536 % 4294967296 := by
  intro n
  induction n with
  | zero => intro k hk; exact absurd hk (Nat.not_lt_zero k)
  | succ n ih =>
    intro k hk hkb hns
    have hr := (classifyLanes_spec MIN input_size i nblocks s n).1
    simp only [classifyLanes]
    by_cases hkn : k = n
    · subst hkn
      have hmin : min k nblocks = k := by omega
      rw [hmin] at hr
      have hsmall : ¬ inBlockSizeOf input_size
          (classifyLanes MIN input_size i nblocks k s).readBlockSize < MIN := by
        rw [hr]; exact hns
      rw [classifyLane_normal _ _ _ _ _ _ hkb hsmall]
      simp only [setAt_same]
      exact ⟨trivial, trivial⟩
    · have hlt : k < n := by omega
      obtain ⟨h1, h2⟩ := ih k hlt hkb hns
      by_cases hn : n < nblocks
      · by_cases hsmall : inBlockSizeOf input_size
            (classifyLanes MIN input_size i nblocks n s).readBlockSize < MIN
        · rw [classifyLane_small _ _ _ _ _ _ hn hsmall]
          simp only [setAt_ne _ _ _ hkn]
          exact ⟨h1, h2⟩
        · rw [classifyLane_normal _ _ _ _ _ _ hn hsmall]
          simp only [setAt_ne _ _ _ hkn]
          exact ⟨h1, h2⟩
      · rw [classifyLane_idle _ _ _ _ _ _ hn]
        simp only [setAt_ne _ _ _ hkn]
        exact ⟨h1, h2⟩

/-- The lane of a block `b` that is not small reads and writes at offset
`65536 * b`. -/
theorem classified_idx {W : Type} (run : LaneRun W) (N MIN : Nat) (mem : MMState W)
    (input_size : Nat) (hN1 : 1 ≤ N) (hN : N < 2147483648) (b : Nat)
    (hb : b < noBlocks input_size) (hns : ¬ blockSize MIN input_size b < MIN) :
    (classified run N MIN mem input_size (b / N)).input_idx (b % N) = 65536 * b ∧
    (classified run N MIN mem input_size (b / N)).output_idx (b % N) = 65536 * b := by
  have hnb := noBlocks_le input_size
  have hN0 : 0 < N := by omega
  have hdm : b / N * N + b % N = b := by
    rw [Nat.mul_comm]; exact Nat.div_add_mod b N
  have hk : b % N < N := Nat.mod_lt _ hN0
  have hi : b / N * N < noBlocks input_size := by omega
  have hm : b / N ≤ numBatches N input_size :=
    Nat.le_of_lt ((lt_numBatches N input_size _ hN1).mpr hi)
  obtain ⟨-, h2, -⟩ := batchStart_spec run N MIN mem input_size hN1 hN (b / N) hm
  have hmin : min (b / N * N) (noBlocks input_size) = b / N * N := by omega
  rw [hmin] at h2
  have hn := nblocksOf_eq N (noBlocks input_size) (b / N * N) hi hnb hN
  have hspec := classifyLanes_idx MIN input_size (b / N * N)
    (nblocksOf N (noBlocks input_size) (b / N * N))
    (batchStart run N MIN mem input_size (b / N)) N (b % N) hk (by omega)
    (by rw [h2, laneSize_add, hdm]; exact hns)
  rw [hdm] at hspec
  have hval : b % 4294967296 * 65536 % 4294967296 = 65536 * b := by omega
  rw [hval] at hspec
  exact hspec

/-! ## The stores into the table, pass by pass -/

theorem applyStores_append (a b : List (Nat × Nat)) (table : Nat → Option Nat) :
    applyStores (a ++ b) table = applyStores b (applyStores a table) := by
  simp [applyStores, List.foldl_append]

theorem storesAt_append (a b : List (Nat × Nat)) (x : Nat) :
    storesAt (a ++ b) x = storesAt a x ++ storesAt b x := by
  simp [storesAt, List.filter_append]

theorem recordLane_stores {W : Type} (k : Nat) (s : MMState W) :
    (recordLane k s).compressd_size = applyStores (recordStores k s) s.compressd_size := by
  unfold recordLane recordStores applyStores
  by_cases hs : s.small_block k = true <;> by_cases hm : s.max_lit_limit k = 0 <;>
    simp [hs, hm]

theorem storesAt_recordStores {W : Type} (k : Nat) (s : MMState W) (x : Nat) :
    storesAt (recordStores k s) x = if x = s.block_idx then laneStores s k else [] := by
  unfold storesAt recordStores laneStores
  by_cases hx : x = s.block_idx
  · subst hx
    by_cases hs : s.small_block k = true <;> simp [hs]
  · have hx2 : ¬ (s.block_idx = x) := fun h => hx h.symm
    by_cases hs : s.small_block k = true <;> simp [hs, hx, hx2]

theorem laneStores_congr {W : Type} (s t : MMState W) (k : Nat)
    (h1 : t.small_block = s.small_block) (h2 : t.small_block_inSize = s.small_block_inSize)
    (h3 : t.input_block_size = s.input_block_size)
    (h4 : t.output_block_size = s.output_block_size)
    (h5 : t.max_lit_limit = s.max_lit_limit) : laneStores t k = laneStores s k := by
  unfold laneStores
  rw [h1, h2, h3, h4, h5]

/-- The first `n` passes of the loop over `k`: the table is what the stores
make of it, and index `block_idx + k` gets the stores of pass `k` and no
other. -/
theorem recordLanesStores_spec {W : Type} (s : MMState W) :
    ∀ n, s.block_idx + n < 4294967296 →
      (recordLanes n s).compressd_size = applyStores (recordLanesStores n s) s.compressd_size ∧
      ∀ x, storesAt (recordLanesStores n s) x =
        if s.block_idx ≤ x ∧ x < s.block_idx + n then laneStores s (x - s.block_idx)
        else [] := by
  intro n
  induction n with
  | zero =>
    intro _
    refine ⟨rfl, fun x => ?_⟩
    have : ¬ (s.block_idx ≤ x ∧ x < s.block_idx + 0) := by omega
    rw [if_neg this]
    rfl
  | succ n ih =>
    intro hlt
    obtain ⟨ih1, ih2⟩ := ih (by omega)
    obtain ⟨h1, h2, h3, h4, h5, h6, -, -⟩ := recordLanes_spec s n (by omega)
    refine ⟨?_, fun x => ?_⟩
    · simp only [recordLanes, recordLanesStores]
      rw [recordLane_stores, ih1, applyStores_append]
    · simp only [recordLanesStores]
      rw [storesAt_append, ih2 x, storesAt_recordStores, h1,
        laneStores_congr s (recordLanes n s) n h2 h3 h4 h5 h6]
      by_cases hx : x = s.block_idx + n
      · have hin : ¬ (s.block_idx ≤ x ∧ x < s.block_idx + n) := by omega
        have hin2 : s.block_idx ≤ x ∧ x < s.block_idx + (n + 1) := by omega
        have hk : x - s.block_idx = n := by omega
        rw [if_neg hin, if_pos hx, if_pos hin2, hk, List.nil_append]
      · rw [if_neg hx, List.append_nil]
        by_cases hin : s.block_idx ≤ x ∧ x < s.block_idx + n
        · rw [if_pos hin, if_pos (by omega)]
        · rw [if_neg hin, if_neg (by omega)]

theorem called_table {W : Type} (run : LaneRun W) (N MIN : Nat) (mem : MMState W)
    (input_size m : Nat) :
    (called run N MIN mem input_size m).compressd_size =
      (batchStart run N MIN mem input_size m).compressd_size ∧
    (called run N MIN mem input_size m).block_idx =
      (batchStart run N MIN mem input_size m).block_idx :=
  classifyLanes_table MIN input_size (m * N) (nblocksOf N (noBlocks input_size) (m * N)) N
    (batchStart run N MIN mem input_size m)

/-- When pass `m` is entered, the table is what the stores so far make of the
unwritten table, and each index below the blocks done has the stores of its
own pass and lane, and only these. -/
theorem tableStores_spec {W : Type} (run : LaneRun W) (N MIN : Nat) (mem : MMState W)
    (input_size : Nat) (hN1 : 1 ≤ N) (hN : N < 2147483648) :
    ∀ m, m ≤ numBatches N input_size →
      (batchStart run N MIN mem input_size m).compressd_size =
        applyStores (tableStores run N MIN mem input_size m) (fun _ => none) ∧
      ∀ x, storesAt (tableStores run N MIN mem input_size m) x =
        if x < min (m * N) (noBlocks input_size) then
          laneStores (called run N MIN mem input_size (x / N)) (x % N)
        else [] := by
  have hnb := noBlocks_le input_size
  intro m
  induction m with
  | zero =>
    intro _
    refine ⟨rfl, fun x => ?_⟩
    have : ¬ x < min (0 * N) (noBlocks input_size) := by omega
    rw [if_neg this]
    rfl
  | succ m ih =>
    intro hm
    have hlt : m < numBatches N input_size := by omega
    have hi : m * N < noBlocks input_size := (lt_numBatches N input_size m hN1).mp hlt
    obtain ⟨ih1, ih2⟩ := ih (by omega)
    obtain ⟨hb1, -, -⟩ := batchStart_spec run N MIN mem input_size hN1 hN m (by omega)
    have hmin : min (m * N) (noBlocks input_size) = m * N := by omega
    rw [hmin] at hb1
    obtain ⟨hc1, hc2⟩ := called_table run N MIN mem input_size m
    rw [hb1] at hc2
    have hn := nblocksOf_eq N (noBlocks input_size) (m * N) hi hnb hN
    obtain ⟨hr1, hr2⟩ := recordLanesStores_spec (called run N MIN mem input_size m)
      (nblocksOf N (noBlocks input_size) (m * N)) (by rw [hc2]; omega)
    have hstep : batchStart run N MIN mem input_size (m + 1) =
        recordLanes (nblocksOf N (noBlocks input_size) (m * N))
          (called run N MIN mem input_size m) := rfl
    have hsucc : (m + 1) * N = m * N + N := Nat.succ_mul m N
    have hmin2 : min ((m + 1) * N) (noBlocks input_size) =
        m * N + nblocksOf N (noBlocks input_size) (m * N) := by
      rw [hsucc, hn]; omega
    refine ⟨?_, fun x => ?_⟩
    · rw [hstep, hr1, hc1, ih1]
      simp only [tableStores]
      rw [applyStores_append]
    · simp only [tableStores]
      rw [storesAt_append, ih2 x, hr2 x, hc2, hmin, hmin2]
      by_cases hx : x < m * N
      · have hin : ¬ (m * N ≤ x ∧ x < m * N + nblocksOf N (noBlocks input_size) (m * N)) := by
          omega
        rw [if_pos hx, if_neg hin, if_pos (by omega), List.append_nil]
      · rw [if_neg hx, List.nil_append]
        by_cases hin : m * N ≤ x ∧ x < m * N + nblocksOf N (noBlocks input_size) (m * N)
        · rw [if_pos hin, if_pos hin.2]
          obtain ⟨k, rfl⟩ : ∃ k, x = m * N + k := ⟨x - m * N, by omega⟩
          have hk : k < N := by omega
          obtain ⟨hd, hmod⟩ := div_mod_of_lane N m k hk
          rw [hd, hmod, Nat.add_sub_cancel_left]
        · rw [if_neg hin, if_neg (by omega)]

/-- The stores of a pass of the loop over `k`: one, or two for a small block,
and the last of them is the resolved size. -/
theorem laneStores_spec {W : Type} (s : MMState W) (k : Nat) :
    (laneStores s k).length = (if s.small_block k = true then 2 else 1) ∧
    (laneStores s k).getLast? = some (resolved s k) := by
  unfold laneStores resolved
  by_cases hs : s.small_block k = true <;> by_cases hm : s.max_lit_limit k = 0 <;>
    simp [hs, hm]

/-! ## Blocks under a `MIN_B_SIZE` above 65536 -/

/-- With `MIN_B_SIZE` above 65536 every block is small, so `readBlockSize`
stays 0. -/
theorem readAfter_all_small (MIN input_size : Nat) (hMIN : 65536 < MIN)
    (hsz : input_size < 4294967296) : ∀ b, readAfter MIN input_size 0 b = 0 := by
  have hin : inBlockSizeOf input_size 0 < MIN := by
    unfold inBlockSizeOf
    split <;> omega
  intro b
  induction b with
  | zero => rfl
  | succ b ih => simp only [readAfter, ih, hin, if_true]

theorem blockSize_all_small (MIN input_size : Nat) (hMIN : 65536 < MIN)
    (hsz : input_size < 4294967296) (b : Nat) :
    blockSize MIN input_size b = min input_size 65536 ∧ blockSize MIN input_size b < MIN := by
  unfold blockSize laneSize
  rw [readAfter_all_small MIN input_size hMIN hsz]
  unfold inBlockSizeOf
  split <;> omega

/-! ## What the loops leave alone -/

theorem classifyLanes_world {W : Type} (MIN input_size i nblocks : Nat) (s : MMState W) :
    ∀ n, (classifyLanes MIN input_size i nblocks n s).world = s.world := by
  intro n
  induction n with
  | zero => rfl
  | succ n ih =>
    simp only [classifyLanes]
    by_cases hj : n < nblocks
    · by_cases hs : inBlockSizeOf input_size
          (classifyLanes MIN input_size i nblocks n s).readBlockSize < MIN
      · rw [classifyLane_small _ _ _ _ _ _ hj hs]; exact ih
      · rw [classifyLane_normal _ _ _ _ _ _ hj hs]; exact ih
    · rw [classifyLane_idle _ _ _ _ _ _ hj]; exact ih

theorem recordLanes_world {W : Type} (s : MMState W) :
    ∀ n, (recordLanes n s).world = s.world := by
  intro n
  induction n with
  | zero => rfl
  | succ n ih =>
    simp only [recordLanes, recordLane_eq]
    exact ih

/-! ## The lane loop -/

theorem hlsLz4Core_zero {W : Type} (c : Collaborators W) (M fuel : Nat) (inStream ml : List Nat)
    (idx : Nat) :
    ∃ s, hlsLz4Core c M fuel inStream ml 0 idx = .blocked s :=
  ⟨_, rfl⟩

/-- A lane with `input_size = 0` keeps the lane loop from returning. -/
theorem laneLoop_zero_lane {W : Type} (c : Collaborators W) (N fuel : Nat)
    (inStream : Nat → List Nat) (input_size : Nat → Nat) (j : Nat) (hj : j < N)
    (hj2 : j < 256) (h0 : input_size j = 0) :
    ∀ (passes : Nat) (s : LaneState), s.i ≤ j → j < s.i + passes →
      (laneLoop c N fuel inStream input_size passes s).isReturned = false := by
  intro passes
  induction passes with
  | zero => intro s h1 h2; omega
  | succ passes ih =>
    intro s h1 h2
    have hlt : s.i < N := by omega
    simp only [laneLoop, hlt, if_true]
    by_cases hij : s.i = j
    · obtain ⟨b, hb⟩ := hlsLz4Core_zero c 4096 fuel (inStream s.i) s.max_lit_limit s.i
      rw [hij, h0, ← hij, hb]
      rfl
    · cases hcore : hlsLz4Core c 4096 fuel (inStream s.i) s.max_lit_limit (input_size s.i) s.i with
      | returned r =>
        have hmod : (s.i + 1) % 256 = s.i + 1 := by omega
        simp only []
        apply ih
        · simp only [hmod]; omega
        · simp only [hmod]; omega
      | blocked r => rfl
      | running r => rfl

/-- With 256 lanes or more the 8-bit counter never reaches `NUM_BLOCK`: the
lane loop does not return. -/
theorem laneLoop_wide {W : Type} (c : Collaborators W) (N fuel : Nat)
    (inStream : Nat → List Nat) (input_size : Nat → Nat) (hN : 256 ≤ N) :
    ∀ (passes : Nat) (s : LaneState), s.i < 256 →
      (laneLoop c N fuel inStream input_size passes s).isReturned = false := by
  intro passes
  induction passes with
  | zero =>
    intro s hs
    have hlt : s.i < N := by omega
    simp [laneLoop, hlt, Outcome.isReturned]
  | succ passes ih =>
    intro s hs
    have hlt : s.i < N := by omega
    simp only [laneLoop, hlt, if_true]
    cases hcore : hlsLz4Core c 4096 fuel (inStream s.i) s.max_lit_limit (input_size s.i) s.i with
    | returned r => exact ih _ (Nat.mod_lt _ (by omega))
    | blocked r => rfl
    | running r => rfl

theorem hlsLz4_isReturned {W : Type} (c : Collaborators W) (N fuel : Nat) (w : W)
    (a b sz d e : Nat → Nat) :
    (hlsLz4 c N fuel w a b sz d e).isReturned =
      (laneLoop c N fuel (c.mm2multStreamSize w a sz) sz 256
        { i := 0, max_lit_limit := cells N e, outStream := fun _ => [],
          outStreamEos := fun _ => [], compressedSize := fun _ => [] }).isReturned := by
  unfold hlsLz4
  cases laneLoop c N fuel (c.mm2multStreamSize w a sz) sz 256
    { i := 0, max_lit_limit := cells N e, outStream := fun _ => [],
      outStreamEos := fun _ => [], compressedSize := fun _ => [] } <;> rfl

/-- A call of `hlsLz4` with 256 lanes or more does not return. -/
theorem hlsLz4_wide {W : Type} (c : Collaborators W) (N fuel : Nat) (hN : 256 ≤ N) (w : W)
    (a b sz d e : Nat → Nat) : (hlsLz4 c N fuel w a b sz d e).isReturned = false := by
  rw [hlsLz4_isReturned]
  exact laneLoop_wide c N fuel _ sz hN 256 _ (show (0 : Nat) < 256 by decide)

/-- A call of `hlsLz4` that hands a lane the size 0 does not return. -/
theorem hlsLz4_zero_lane {W : Type} (c : Collaborators W) (N fuel : Nat) (w : W)
    (a b sz d e : Nat → Nat) (j : Nat) (hj : j < N) (h0 : sz j = 0) :
    (hlsLz4 c N fuel w a b sz d e).isReturned = false := by
  by_cases hN : 256 ≤ N
  · exact hlsLz4_wide c N fuel hN w a b sz d e
  · rw [hlsLz4_isReturned]
    exact laneLoop_zero_lane c N fuel _ sz j hj (by omega) h0 256 _ (Nat.zero_le _) (by simp; omega)

/-- With at most 255 lanes, each with a block of 1 to 65536 bytes, and
pipelines that return, the lane loop returns once the encoders have enough
passes. -/
theorem laneLoop_returns {W : Type} (c : Collaborators W) (hc : LanesReturn c) (N : Nat)
    (hN : N ≤ 255) (w : W) (a sz : Nat → Nat)
    (hsz : ∀ j, j < N → 1 ≤ sz j ∧ sz j ≤ 65536) :
    ∀ (k : Nat) (s : LaneState), s.i + k = N →
      ∃ F t, ∀ fuel, F ≤ fuel → ∀ passes, k ≤ passes →
        laneLoop c N fuel (c.mm2multStreamSize w a sz) sz passes s = .returned t := by
  intro k
  induction k with
  | zero =>
    intro s hs
    have hge : ¬ s.i < N := by omega
    refine ⟨0, s, fun fuel _ passes _ => ?_⟩
    cases passes <;> simp [laneLoop, hge]
  | succ k ih =>
    intro s hs
    have hlt : s.i < N := by omega
    obtain ⟨F1, r, hr⟩ := hc w a sz s.i s.max_lit_limit s.i (hsz s.i hlt).1 (hsz s.i hlt).2
    have hmod : (s.i + 1) % 256 = s.i + 1 := by omega
    obtain ⟨F2, t, ht⟩ := ih
      { i := (s.i + 1) % 256
        max_lit_limit := r.1.max_lit_limit
        outStream := setAt s.outStream s.i r.2.outStream
        outStreamEos := setAt s.outStreamEos s.i r.2.endOfStream
        compressedSize := setAt s.compressedSize s.i r.2.compressdSizeStream }
      (by simp only [hmod]; omega)
    refine ⟨max F1 F2, t, fun fuel hf passes hp => ?_⟩
    obtain ⟨p, rfl⟩ : ∃ p, passes = p + 1 := ⟨passes - 1, by omega⟩
    simp only [laneLoop, hlt, if_true]
    rw [hr fuel (by omega)]
    exact ht fuel (by omega) p (by omega)

/-- With between 0 and 255 lanes, each with a block of 1 to 65536 bytes, and
pipelines that return, the call of `hlsLz4` returns once the encoders have
enough passes, and with the same result whatever the number of passes. -/
theorem hlsLz4_returns {W : Type} (c : Collaborators W) (hc : LanesReturn c) (N : Nat)
    (hN : N ≤ 255) (w : W) (a b sz d e : Nat → Nat)
    (hsz : ∀ j, j < N → 1 ≤ sz j ∧ sz j ≤ 65536) :
    ∃ F r, ∀ fuel, F ≤ fuel → hlsLz4 c N fuel w a b sz d e = .returned r := by
  obtain ⟨F, t, ht⟩ := laneLoop_returns c hc N hN w a sz hsz N
    { i := 0, max_lit_limit := cells N e, outStream := fun _ => [],
      outStreamEos := fun _ => [], compressedSize := fun _ => [] } (by simp)
  refine ⟨F, ((c.multStream2MM w t.outStream t.outStreamEos t.compressedSize b d).1,
    (c.multStream2MM w t.outStream t.outStreamEos t.compressedSize b d).2,
    withCells t.max_lit_limit e), fun fuel hf => ?_⟩
  unfold hlsLz4
  rw [ht fuel hf 256 (by omega)]

/-! ## The loop over the batches and its passes -/

/-- One pass of the loop over the batches, entered in the state `batchStart`:
the next pass follows when the call of `hlsLz4` returns, and the scheduler
stays in the call otherwise. -/
theorem batchLoop_pass {W : Type} (run : LaneRun W) (N MIN : Nat) (mem : MMState W)
    (input_size fuel m : Nat) (hi : m * N < noBlocks input_size) :
    batchLoop run N MIN input_size (noBlocks input_size) (fuel + 1) (m * N)
        (batchStart run N MIN mem input_size m) =
      match passCall run N MIN mem input_size m with
      | .returned _ =>
        batchLoop run N MIN input_size (noBlocks input_size) fuel ((m * N + N) % 4294967296)
          (batchStart run N MIN mem input_size (m + 1))
      | .blocked _ => .blocked (classified run N MIN mem input_size m)
      | .running _ => .running (classified run N MIN mem input_size m) := by
  rw [batchLoop]
  simp only [hi, if_true]
  change (match passCall run N MIN mem input_size m with
    | .returned r =>
      batchLoop run N MIN input_size (noBlocks input_size) fuel ((m * N + N) % 4294967296)
        (recordLanes (nblocksOf N (noBlocks input_size) (m * N))
          { classified run N MIN mem input_size m with
            world := r.1, output_block_size := r.2.1, max_lit_limit := r.2.2 })
    | .blocked _ => .blocked (classified run N MIN mem input_size m)
    | .running _ => .running (classified run N MIN mem input_size m)) = _
  have hnext : batchStart run N MIN mem input_size (m + 1) =
      recordLanes (nblocksOf N (noBlocks input_size) (m * N))
        { classified run N MIN mem input_size m with
          world := (passCall run N MIN mem input_size m).state.1,
          output_block_size := (passCall run N MIN mem input_size m).state.2.1,
          max_lit_limit := (passCall run N MIN mem input_size m).state.2.2 } := rfl
  rw [hnext]
  cases passCall run N MIN mem input_size m <;> rfl

theorem next_pass (N input_size m : Nat) (hN : N < 2147483648)
    (hi : m * N < noBlocks input_size) : (m * N + N) % 4294967296 = (m + 1) * N := by
  have := noBlocks_le input_size
  rw [Nat.succ_mul]
  omega

theorem not_lt_numBatches (N input_size : Nat) (hN1 : 1 ≤ N) :
    ¬ numBatches N input_size * N < noBlocks input_size := by
  rw [← lt_numBatches N input_size _ hN1]
  omega

/-- When the call of every pass returns, the loop over the batches returns,
from the state after its last pass. -/
theorem batchLoop_of_calls {W : Type} (run : LaneRun W) (N MIN : Nat) (mem : MMState W)
    (input_size : Nat) (hN1 : 1 ≤ N) (hN : N < 2147483648) :
    ∀ fuel m, m ≤ numBatches N input_size → numBatches N input_size ≤ m + fuel →
      (∀ p, m ≤ p → p < numBatches N input_size →
        (passCall run N MIN mem input_size p).isReturned = true) →
      batchLoop run N MIN input_size (noBlocks input_size) fuel (m * N)
          (batchStart run N MIN mem input_size m) =
        .returned (batchStart run N MIN mem input_size (numBatches N input_size)) := by
  intro fuel
  induction fuel with
  | zero =>
    intro m hm hf _
    have hmB : m = numBatches N input_size := by omega
    have hge : ¬ m * N < noBlocks input_size := by
      rw [hmB]; exact not_lt_numBatches N input_size hN1
    simp only [batchLoop, hge, if_false]
    rw [← hmB]
  | succ fuel ih =>
    intro m hm hf hcalls
    by_cases hlt : m < numBatches N input_size
    · have hi : m * N < noBlocks input_size := (lt_numBatches N input_size m hN1).mp hlt
      rw [batchLoop_pass run N MIN mem input_size fuel m hi, next_pass N input_size m hN hi]
      have hc := hcalls m (Nat.le_refl _) hlt
      cases hcall : passCall run N MIN mem input_size m with
      | returned r =>
        exact ih (m + 1) (by omega) (by omega) (fun p hp hpl => hcalls p (by omega) hpl)
      | blocked r => rw [hcall] at hc; simp [Outcome.isReturned] at hc
      | running r => rw [hcall] at hc; simp [Outcome.isReturned] at hc
    · have hmB : m = numBatches N input_size := by omega
      have hge : ¬ m * N < noBlocks input_size := by
        rw [hmB]; exact not_lt_numBatches N input_size hN1
      simp only [batchLoop, hge, if_false]
      rw [← hmB]

/-- When the loop over the batches returns, the call of every pass has
returned and the state is the one after the last pass. -/
theorem batchLoop_returned {W : Type} (run : LaneRun W) (N MIN : Nat) (mem : MMState W)
    (input_size : Nat) (hN1 : 1 ≤ N) (hN : N < 2147483648) :
    ∀ fuel m t, m ≤ numBatches N input_size →
      batchLoop run N MIN input_size (noBlocks input_size) fuel (m * N)
          (batchStart run N MIN mem input_size m) = .returned t →
      t = batchStart run N MIN mem input_size (numBatches N input_size) ∧
      ∀ p, m ≤ p → p < numBatches N input_size →
        (passCall run N MIN mem input_size p).isReturned = true := by
  intro fuel
  induction fuel with
  | zero =>
    intro m t hm h
    by_cases hi : m * N < noBlocks input_size
    · simp [batchLoop, hi] at h
    · have hmB : m = numBatches N input_size := by
        have := (lt_numBatches N input_size m hN1).not.mpr hi
        omega
      simp only [batchLoop, hi, if_false, Outcome.returned.injEq] at h
      refine ⟨by rw [← h, ← hmB], fun p hp hpl => ?_⟩
      omega
  | succ fuel ih =>
    intro m t hm h
    by_cases hi : m * N < noBlocks input_size
    · rw [batchLoop_pass run N MIN mem input_size fuel m hi, next_pass N input_size m hN hi] at h
      have hlt : m < numBatches N input_size := (lt_numBatches N input_size m hN1).mpr hi
      cases hcall : passCall run N MIN mem input_size m with
      | returned r =>
        rw [hcall] at h
        obtain ⟨h1, h2⟩ := ih (m + 1) t (by omega) h
        refine ⟨h1, fun p hp hpl => ?_⟩
        by_cases hpm : p = m
        · rw [hpm, hcall]; rfl
        · exact h2 p (by omega) hpl
      | blocked r => rw [hcall] at h; simp at h
      | running r => rw [hcall] at h; simp at h
    · have hmB : m = numBatches N input_size := by
        have := (lt_numBatches N input_size m hN1).not.mpr hi
        omega
      simp only [batchLoop, hi, if_false, Outcome.returned.injEq] at h
      refine ⟨by rw [← h, ← hmB], fun p hp hpl => ?_⟩
      omega

/-- However the loop over the batches ends, the table is the one with which
some pass `p` is entered, and the calls of the passes before `p` have
returned. -/
theorem batchLoop_table {W : Type} (run : LaneRun W) (N MIN : Nat) (mem : MMState W)
    (input_size : Nat) (hN1 : 1 ≤ N) (hN : N < 2147483648) :
    ∀ fuel m, m ≤ numBatches N input_size →
      (∀ q, q < m → (passCall run N MIN mem input_size q).isReturned = true) →
      ∃ p, m ≤ p ∧ p ≤ numBatches N input_size ∧
        (batchLoop run N MIN input_size (noBlocks input_size) fuel (m * N)
          (batchStart run N MIN mem input_size m)).state.compressd_size =
            (batchStart run N MIN mem input_size p).compressd_size ∧
        ∀ q, q < p → (passCall run N MIN mem input_size q).isReturned = true := by
  intro fuel
  induction fuel with
  | zero =>
    intro m hm hq
    refine ⟨m, Nat.le_refl _, hm, ?_, hq⟩
    simp only [batchLoop]
    split <;> rfl
  | succ fuel ih =>
    intro m hm hq
    by_cases hi : m * N < noBlocks input_size
    · rw [batchLoop_pass run N MIN mem input_size fuel m hi, next_pass N input_size m hN hi]
      have hlt : m < numBatches N input_size := (lt_numBatches N input_size m hN1).mpr hi
      have htab := (classifyLanes_table MIN input_size (m * N)
        (nblocksOf N (noBlocks input_size) (m * N)) N (batchStart run N MIN mem input_size m)).1
      cases hcall : passCall run N MIN mem input_size m with
      | returned r =>
        obtain ⟨p, hp1, hp2, hp3, hp4⟩ := ih (m + 1) (by omega) (fun q hq2 => by
          by_cases hqm : q = m
          · rw [hqm, hcall]; rfl
          · exact hq q (by omega))
        exact ⟨p, by omega, hp2, hp3, hp4⟩
      | blocked r => exact ⟨m, Nat.le_refl _, hm, htab, hq⟩
      | running r => exact ⟨m, Nat.le_refl _, hm, htab, hq⟩
    · refine ⟨m, Nat.le_refl _, hm, ?_, hq⟩
      simp only [batchLoop, hi, if_false]
      rfl

/-! ## Lanes that get the size 0 -/

/-- After the loop over `j`: a lane without a block, and a lane whose block is
small, have `input_block_size = 0`. -/
theorem classifyLanes_zero {W : Type} (MIN input_size i nblocks : Nat) (s : MMState W) :
    ∀ n k, k < n → (nblocks ≤ k ∨ laneSize MIN input_size s.readBlockSize k < MIN) →
      (classifyLanes MIN input_size i nblocks n s).input_block_size k = 0 := by
  intro n
  induction n with
  | zero => intro k hk; exact absurd hk (Nat.not_lt_zero k)
  | succ n ih =>
    intro k hk hz
    have hr := (classifyLanes_spec MIN input_size i nblocks s n).1
    simp only [classifyLanes]
    by_cases hkn : k = n
    · subst hkn
      by_cases hkb : k < nblocks
      · have hmin : min k nblocks = k := by omega
        rw [hmin] at hr
        have hsmall : inBlockSizeOf input_size
            (classifyLanes MIN input_size i nblocks k s).readBlockSize < MIN := by
          rw [hr]
          rcases hz with h | h
          · omega
          · exact h
        rw [classifyLane_small _ _ _ _ _ _ hkb hsmall]
        simp only [setAt_same]
      · rw [classifyLane_idle _ _ _ _ _ _ hkb]
        simp only [setAt_same]
    · have hlt : k < n := by omega
      have h1 := ih k hlt hz
      by_cases hn : n < nblocks
      · by_cases hsmall : inBlockSizeOf input_size
            (classifyLanes MIN input_size i nblocks n s).readBlockSize < MIN
        · rw [classifyLane_small _ _ _ _ _ _ hn hsmall]
          simp only [setAt_ne _ _ _ hkn]
          exact h1
        · rw [classifyLane_normal _ _ _ _ _ _ hn hsmall]
          simp only [setAt_ne _ _ _ hkn]
          exact h1
      · rw [classifyLane_idle _ _ _ _ _ _ hn]
        simp only [setAt_ne _ _ _ hkn]
        exact h1

/-- In pass `m`, lane `k` gets the size 0 when block `m * N + k` does not
exist, is small, or has the size 0. -/
theorem classified_zero {W : Type} (run : LaneRun W) (N MIN : Nat) (mem : MMState W)
    (input_size : Nat) (hN1 : 1 ≤ N) (hN : N < 2147483648) (m k : Nat)
    (hm : m < numBatches N input_size) (hk : k < N)
    (hz : noBlocks input_size ≤ m * N + k ∨ blockSize MIN input_size (m * N + k) < MIN ∨
      blockSize MIN input_size (m * N + k) = 0) :
    (classified run N MIN mem input_size m).input_block_size k = 0 := by
  have hnb := noBlocks_le input_size
  have hi : m * N < noBlocks input_size := (lt_numBatches N input_size m hN1).mp hm
  obtain ⟨-, h2, -⟩ := batchStart_spec run N MIN mem input_size hN1 hN m (Nat.le_of_lt hm)
  have hmin : min (m * N) (noBlocks input_size) = m * N := by omega
  rw [hmin] at h2
  have hn := nblocksOf_eq N (noBlocks input_size) (m * N) hi hnb hN
  have hls : laneSize MIN input_size (batchStart run N MIN mem input_size m).readBlockSize k =
      blockSize MIN input_size (m * N + k) := by
    rw [h2, laneSize_add]; rfl
  by_cases hsm : noBlocks input_size ≤ m * N + k ∨ blockSize MIN input_size (m * N + k) < MIN
  · exact classifyLanes_zero MIN input_size (m * N) _ _ N k hk (by
      rcases hsm with h | h
      · left; rw [hn]; omega
      · right; rw [hls]; exact h)
  · have h0 : blockSize MIN input_size (m * N + k) = 0 := by
      rcases hz with h | h | h
      · exact absurd (Or.inl h) hsm
      · exact absurd (Or.inr h) hsm
      · exact h
    have hkb : k < nblocksOf N (noBlocks input_size) (m * N) := by rw [hn]; omega
    have h3 := ((classifyLanes_spec MIN input_size (m * N)
      (nblocksOf N (noBlocks input_size) (m * N))
      (batchStart run N MIN mem input_size m) N).2 k hk hkb).2.2
    rw [hls] at h3
    have := h3 (by omega)
    rw [h0] at this
    exact this

/-! ## When the scheduler returns -/

theorem lz4CompressMM_eq {W : Type} (c : Collaborators W) (N MIN : Nat) (mem : MMState W)
    (input_size fuel : Nat) :
    lz4CompressMM c N MIN mem input_size fuel =
      batchLoop (hlsLz4 c N fuel) N MIN input_size (noBlocks input_size) (noBlocks input_size)
        (0 * N) (batchStart (hlsLz4 c N fuel) N MIN mem input_size 0) := by
  rw [Nat.zero_mul]
  rfl

theorem numBatches_pos (N input_size : Nat) (hN1 : 1 ≤ N) : 0 < numBatches N input_size := by
  rw [lt_numBatches N input_size 0 hN1, Nat.zero_mul]
  exact noBlocks_pos input_size

/-- When `lz4CompressMM` returns, the call of `hlsLz4` has returned in every
pass, there are at most 255 lanes, and the state is the one after the last
pass. -/
theorem lz4CompressMM_returned {W : Type} (c : Collaborators W) (N MIN : Nat) (mem : MMState W)
    (input_size fuel : Nat) (t : MMState W) (hN1 : 1 ≤ N) (hN : N < 2147483648)
    (h : lz4CompressMM c N MIN mem input_size fuel = .returned t) :
    N ≤ 255 ∧
    t = batchStart (hlsLz4 c N fuel) N MIN mem input_size (numBatches N input_size) ∧
    ∀ p, p < numBatches N input_size →
      (passCall (hlsLz4 c N fuel) N MIN mem input_size p).isReturned = true := by
  rw [lz4CompressMM_eq] at h
  obtain ⟨h1, h2⟩ := batchLoop_returned (hlsLz4 c N fuel) N MIN mem input_size hN1 hN
    (noBlocks input_size) 0 t (Nat.zero_le _) h
  refine ⟨?_, h1, fun p hp => h2 p (Nat.zero_le _) hp⟩
  by_contra hw
  have h0 := h2 0 (Nat.le_refl _) (numBatches_pos N input_size hN1)
  unfold passCall at h0
  rw [hlsLz4_wide c N fuel (by omega)] at h0
  exact absurd h0 (by simp)

/-- A pass in which a lane gets the size 0 is never left: the scheduler does
not return, and the table stays unwritten from the first block of that pass
on. -/
theorem lz4CompressMM_stuck {W : Type} (c : Collaborators W) (N MIN : Nat) (mem : MMState W)
    (input_size fuel : Nat) (hN1 : 1 ≤ N) (hN : N < 2147483648) (m k : Nat)
    (hm : m < numBatches N input_size) (hk : k < N)
    (hz : noBlocks input_size ≤ m * N + k ∨ blockSize MIN input_size (m * N + k) < MIN ∨
      blockSize MIN input_size (m * N + k) = 0) :
    (lz4CompressMM c N MIN mem input_size fuel).isReturned = false ∧
    ∀ x, m * N ≤ x → (lz4CompressMM c N MIN mem input_size fuel).state.compressd_size x = none := by
  have hcall : (passCall (hlsLz4 c N fuel) N MIN mem input_size m).isReturned = false := by
    unfold passCall
    exact hlsLz4_zero_lane c N fuel _ _ _ _ _ _ k hk
      (classified_zero (hlsLz4 c N fuel) N MIN mem input_size hN1 hN m k hm hk hz)
  constructor
  · cases hret : lz4CompressMM c N MIN mem input_size fuel with
    | returned t =>
      obtain ⟨-, -, h3⟩ := lz4CompressMM_returned c N MIN mem input_size fuel t hN1 hN hret
      rw [h3 m hm] at hcall
      exact absurd hcall (by simp)
    | blocked t => rfl
    | running t => rfl
  · intro x hx
    rw [lz4CompressMM_eq]
    obtain ⟨p, -, hp2, hp3, hp4⟩ := batchLoop_table (hlsLz4 c N fuel) N MIN mem input_size hN1 hN
      (noBlocks input_size) 0 (Nat.zero_le _) (fun q hq => absurd hq (Nat.not_lt_zero q))
    rw [hp3]
    have hpm : p ≤ m := by
      by_contra hlt
      rw [hp4 m (by omega)] at hcall
      exact absurd hcall (by simp)
    obtain ⟨-, -, h3⟩ := batchStart_spec (hlsLz4 c N fuel) N MIN mem input_size hN1 hN p hp2
    rw [h3 x, if_neg]
    have : p * N ≤ m * N := Nat.mul_le_mul_right N hpm
    omega

/-! ## Runs in which every lane has a block -/

theorem batchStart_succ {W : Type} (run : LaneRun W) (N MIN : Nat) (mem : MMState W)
    (input_size m : Nat) :
    batchStart run N MIN mem input_size (m + 1) =
      recordLanes (nblocksOf N (noBlocks input_size) (m * N))
        { classified run N MIN mem input_size m with
          world := (passCall run N MIN mem input_size m).state.1,
          output_block_size := (passCall run N MIN mem input_size m).state.2.1,
          max_lit_limit := (passCall run N MIN mem input_size m).state.2.2 } := rfl

theorem full_pass (N nb m : Nat) (hdiv : nb % N = 0) (hi : m * N < nb) : m * N + N ≤ nb := by
  have hq : nb = N * (nb / N) := by
    have := Nat.div_add_mod nb N
    omega
  have hlt : m < nb / N := by
    have h2 : N * m < N * (nb / N) := by rw [← hq, Nat.mul_comm]; exact hi
    exact Nat.lt_of_mul_lt_mul_left h2
  have h3 : (m + 1) * N ≤ nb / N * N := Nat.mul_le_mul_right N hlt
  rw [Nat.succ_mul, Nat.mul_comm (nb / N) N, ← hq] at h3
  exact h3

/-- With between 1 and 255 lanes, a number of blocks that is a multiple of the
number of lanes, no small block, every block of 1 to 65536 bytes, and
pipelines that return: once the encoders have enough passes the scheduler
returns, with a state that no longer depends on the number of passes. -/
theorem lz4CompressMM_returns {W : Type} (c : Collaborators W) (hc : LanesReturn c)
    (N MIN : Nat) (mem : MMState W) (input_size : Nat) (hN1 : 1 ≤ N) (hN : N ≤ 255)
    (hdiv : noBlocks input_size % N = 0)
    (hblocks : ∀ b, b < noBlocks input_size →
      MIN ≤ blockSize MIN input_size b ∧ 1 ≤ blockSize MIN input_size b ∧
      blockSize MIN input_size b ≤ 65536) :
    ∃ F t, ∀ fuel, F ≤ fuel → lz4CompressMM c N MIN mem input_size fuel = .returned t := by
  have hN2 : N < 2147483648 := by omega
  have key : ∀ m, m ≤ numBatches N input_size → ∃ F s, ∀ f, F ≤ f →
      batchStart (hlsLz4 c N f) N MIN mem input_size m = s ∧
      ∀ q, q < m → (passCall (hlsLz4 c N f) N MIN mem input_size q).isReturned = true := by
    intro m
    induction m with
    | zero =>
      intro _
      exact ⟨0, { mem with compressd_size := fun _ => none, block_idx := 0, readBlockSize := 0 },
        fun f _ => ⟨rfl, fun q hq => absurd hq (Nat.not_lt_zero q)⟩⟩
    | succ m ih =>
      intro hm
      obtain ⟨F0, s, h0⟩ := ih (by omega)
      have hlt : m < numBatches N input_size := by omega
      have hi : m * N < noBlocks input_size := (lt_numBatches N input_size m hN1).mp hlt
      have hfull := full_pass N (noBlocks input_size) m hdiv hi
      have hcl : ∀ f, F0 ≤ f → classified (hlsLz4 c N f) N MIN mem input_size m =
          classifyLanes MIN input_size (m * N) (nblocksOf N (noBlocks input_size) (m * N)) N s := by
        intro f hf
        unfold classified
        rw [(h0 f hf).1]
      have hsizes : ∀ j, j < N →
          1 ≤ (classifyLanes MIN input_size (m * N) (nblocksOf N (noBlocks input_size) (m * N))
            N s).input_block_size j ∧
          (classifyLanes MIN input_size (m * N) (nblocksOf N (noBlocks input_size) (m * N))
            N s).input_block_size j ≤ 65536 := by
        intro j hj
        rw [← hcl F0 (Nat.le_refl _)]
        have hb : m * N + j < noBlocks input_size := by omega
        obtain ⟨hd, hmod⟩ := div_mod_of_lane N m j hj
        have hspec := classified_spec (hlsLz4 c N F0) N MIN mem input_size hN1 hN2 (m * N + j) hb
        rw [hd, hmod] at hspec
        obtain ⟨hB1, hB2, hB3⟩ := hblocks _ hb
        rw [hspec.2.2 (by omega)]
        exact ⟨hB2, hB3⟩
      obtain ⟨F1, r, hr⟩ := hlsLz4_returns c hc N hN _ _ _ _ _ _ hsizes
      refine ⟨max F0 F1, recordLanes (nblocksOf N (noBlocks input_size) (m * N))
        { classifyLanes MIN input_size (m * N) (nblocksOf N (noBlocks input_size) (m * N)) N s with
          world := r.1, output_block_size := r.2.1, max_lit_limit := r.2.2 }, fun f hf => ?_⟩
      have hcall : passCall (hlsLz4 c N f) N MIN mem input_size m = .returned r := by
        unfold passCall
        rw [hcl f (by omega)]
        exact hr f (by omega)
      refine ⟨?_, fun q hq => ?_⟩
      · rw [batchStart_succ, hcall, hcl f (by omega)]
        rfl
      · by_cases hqm : q = m
        · rw [hqm, hcall]; rfl
        · exact (h0 f (by omega)).2 q (by omega)
  obtain ⟨F, t, ht⟩ := key (numBatches N input_size) (Nat.le_refl _)
  refine ⟨F, t, fun fuel hf => ?_⟩
  obtain ⟨h1, h2⟩ := ht fuel hf
  rw [lz4CompressMM_eq, ← h1]
  exact batchLoop_of_calls (hlsLz4 c N fuel) N MIN mem input_size hN1 hN2 (noBlocks input_size) 0
    (Nat.zero_le _) (by have := numBatches_le N input_size hN1; omega)
    (fun p _ hp => h2 p hp)

/-- Where nothing wraps and `MIN_B_SIZE` is at most 65536, the size the
scheduler gives a block is its size in the input. -/
theorem blockSize_original (MIN input_size b : Nat) (hMIN : MIN ≤ 65536)
    (h1 : 1 ≤ input_size) (hsz : input_size ≤ 4294901760) (hb : b < noBlocks input_size) :
    blockSize MIN input_size b = originalBlockSize input_size b := by
  rw [partition_sizes MIN input_size b hMIN h1 hsz hb]
  unfold originalBlockSize
  unfold noBlocks at hb ⊢
  split <;> omega

/-! ## Lanes of literal tokens -/

theorem lz4Compress_mono {M fuel : Nat} {toks ml : List Nat} {n idx : Nat}
    {r : Part1State × Part2State} (h : lz4Compress M fuel toks ml n idx = .returned r) :
    ∀ fuel2, fuel ≤ fuel2 → lz4Compress M fuel2 toks ml n idx = .returned r := by
  intro fuel2 hle
  unfold lz4Compress at h ⊢
  cases h1 : lz4CompressPart1 M toks n ml idx with
  | returned s1 =>
    rw [h1] at h
    simp only [] at h ⊢
    cases h2 : lz4CompressPart2 fuel s1.lit_outStream s1.lenOffset_Stream n with
    | returned s2 =>
      rw [h2] at h
      rw [part2_returned_mono h2 fuel2 hle]
      exact h
    | blocked s2 => rw [h2] at h; simp at h
    | running s2 => rw [h2] at h; simp at h
  | blocked s1 =>
    rw [h1] at h
    simp only [] at h
    cases h2 : lz4CompressPart2 fuel s1.lit_outStream s1.lenOffset_Stream n <;>
      rw [h2] at h <;> simp at h
  | running s1 => rw [h1] at h; simp at h

theorem layout_literal (n : Nat) (lits : List Nat) (h1 : 1 ≤ n) (hn : n ≤ 65535)
    (hl : lits.length = n) :
    (layout [tmpValue n 0 0] lits).length = n + 1 + (escape n).length := by
  have hL : descLit (tmpValue n 0 0) % 65536 = n := by
    rw [descLit_tmpValue]; omega
  have hM : descMatchLen (tmpValue n 0 0) = 0 := by rw [descMatchLen_tmpValue]
  have hO : descOffset (tmpValue n 0 0) = 0 := by rw [descOffset_tmpValue]
  have hE : litEnding (tmpValue n 0 0) = true := by
    unfold litEnding
    rw [hM, hO]
    decide
  have hseq : ∀ ls, seqBytes (tmpValue n 0 0) ls = tokenByte n 0 :: (escape n ++ ls ++ []) := by
    intro ls
    unfold seqBytes
    rw [hL, hM, hE, if_pos ⟨by omega, rfl⟩]
  rw [layout, layout, hL, hseq]
  simp only [List.append_nil, List.length_cons, List.length_append, List.length_take, hl]
  omega

/-- Tokens that are all literals and cover a block of 1 to 65536 bytes: the
pipeline `lz4Compress<4096>` returns once the encoder has enough passes; the
flag is raised exactly when there are 4096 tokens or more; below 4096 tokens
the size reported is one token byte, the length extension and the
literals. -/
theorem literal_lane (n : Nat) (toks ml : List Nat) (idx : Nat)
    (hall : ∀ v ∈ toks, tLen v = 0) (hlen : toks.length = n) (h1 : 1 ≤ n) (hn : n ≤ 65536) :
    ∃ F s1 s2, (∀ fuel, F ≤ fuel → lz4Compress 4096 fuel toks ml n idx = .returned (s1, s2)) ∧
      s1.max_lit_limit = ml.set idx (if 4096 ≤ n then 1 else 0) ∧
      (n < 4096 → s2.compressdSizeStream = [n + 1 + (escape n).length]) := by
  have hne : toks ≠ [] := by
    intro h; rw [h] at hlen; simp at hlen; omega
  have hcov : (toks.map advance).sum = n := by rw [sum_advance_literals toks hall, hlen]
  have hlast : (∃ v, toks.getLast? = some v ∧ tLen v = 0) ∨ ([] : List Nat) ≠ [] :=
    Or.inl ⟨toks.getLast hne, List.getLast?_eq_getLast _ hne, hall _ (List.getLast_mem hne)⟩
  obtain ⟨s1, hs1, hd, hl⟩ := part1_streams 4096 n toks [] ml idx hne hcov (by omega) hlast
  obtain ⟨s1b, hs1b, hw⟩ := part1_returned 4096 n toks [] ml idx hne hcov (by omega)
    (last_literal_advance toks [] hne hlast)
  rw [hs1] at hs1b
  cases hs1b
  rw [List.append_nil] at hs1
  have hnz := dividerDescs_ne_zero 4096 toks (fun v hv h0 => absurd (hall v hv) h0) 0 (by omega)
  have hsum := dividerDescs_sum 4096 toks 0 (by omega)
  rw [Nat.zero_add] at hsum
  have hneed := litNeed_le_sum (dividerDescs 4096 0 toks)
  have h0 : n ≠ 0 := by omega
  obtain ⟨N, hN⟩ := part2_run (litBytes (keptTokens 4096 0 toks)) (dividerDescs 4096 0 toks) []
    n h0 hnz (by omega)
  obtain ⟨r, hr, -, -, hsize, -, -⟩ := hN N (Nat.le_refl _)
  refine ⟨N, s1, r, fun fuel hf => ?_, ?_, fun hsmall => ?_⟩
  · have h2 := part2_returned_mono hr fuel hf
    rw [← hd, ← hl] at h2
    simp only [lz4Compress, hs1, h2]
  · simp only [Part1State.written, Prod.mk.injEq] at hw
    have hflag := divided_flag 4096 idx toks (part1Init [] ml) (Nat.zero_le _) (Or.inl hne)
    have hrun : longestRun 0 toks = n := by
      rw [longestRun_literals toks hall 0, hlen]; omega
    rw [hw.2.2.1, divided, divideEpilogue_max_lit_limit, divideTokens_max_lit_limit, hflag]
    simp [part1Init, hrun]
  · have hdesc := dividerDescs_literals 4096 toks hall 0 (by omega)
    rw [Nat.zero_add, hlen, if_neg h0] at hdesc
    have hk := keptTokens_literals 4096 toks hall 0
    have htake : toks.take (4096 - 0) = toks := List.take_of_length_le (by omega)
    rw [htake] at hk
    have he := escape_length_le n
    rw [hsize, hdesc, hk, layout_literal n _ h1 (by omega)
      (by rw [litBytes_length_literals toks hall, hlen]), Nat.mod_eq_of_lt (by omega)]

/-- What a lane of literal tokens hands back when it has returned. -/
theorem literal_lane_returned (n fuel : Nat) (toks ml : List Nat) (idx : Nat)
    (hall : ∀ v ∈ toks, tLen v = 0) (hlen : toks.length = n) (h1 : 1 ≤ n) (hn : n ≤ 65536)
    (r : Part1State × Part2State) (hr : lz4Compress 4096 fuel toks ml n idx = .returned r) :
    r.1.max_lit_limit = ml.set idx (if 4096 ≤ n then 1 else 0) ∧
    (n < 4096 → r.2.compressdSizeStream = [n + 1 + (escape n).length]) := by
  obtain ⟨F, s1, s2, h, hflag, hsize⟩ := literal_lane n toks ml idx hall hlen h1 hn
  have h2 := lz4Compress_mono hr (max fuel F) (Nat.le_max_left _ _)
  rw [h (max fuel F) (Nat.le_max_right _ _)] at h2
  cases h2
  exact ⟨hflag, hsize⟩

theorem literalLanes_tokens (inStream : List Nat) (n : Nat) :
    (∀ v ∈ literalLanes.lzBooster (literalLanes.lzBestMatchFilter
      (literalLanes.lzCompress inStream n) n) n, tLen v = 0) ∧
    (literalLanes.lzBooster (literalLanes.lzBestMatchFilter
      (literalLanes.lzCompress inStream n) n) n).length = n := by
  simp only [literalLanes, List.length_map, List.length_range, List.mem_map, List.mem_range,
    and_true]
  rintro v ⟨p, -, rfl⟩
  unfold tLen
  omega

theorem hlsLz4Core_literalLanes (M fuel : Nat) (inStream ml : List Nat) (n idx : Nat) :
    hlsLz4Core literalLanes M fuel inStream ml n idx =
      lz4Compress M fuel (literalLanes.lzBooster (literalLanes.lzBestMatchFilter
        (literalLanes.lzCompress inStream n) n) n) ml n idx := rfl

/-- The pipelines of `literalLanes` return. -/
theorem literalLanes_return : LanesReturn literalLanes := by
  intro world input_idx input_size j ml idx h1 hn
  obtain ⟨hall, hlen⟩ := literalLanes_tokens
    (literalLanes.mm2multStreamSize world input_idx input_size j) (input_size j)
  obtain ⟨F, s1, s2, h, -, -⟩ := literal_lane (input_size j) _ ml idx hall hlen h1 hn
  exact ⟨F, (s1, s2), fun fuel hf => by rw [hlsLz4Core_literalLanes]; exact h fuel hf⟩

/-! ## What holds of a run that returns -/

/-- Under a 32-bit `input_size ≥ 1` and a `MIN_B_SIZE` of at most 65536 the
scheduler gives every block a size from 1 to 65536. -/
theorem blockSize_bounds (MIN input_size b : Nat) (hMIN : MIN ≤ 65536) (h1 : 1 ≤ input_size)
    (hsz : input_size < 4294967296) (hb : b < noBlocks input_size) :
    1 ≤ blockSize MIN input_size b ∧ blockSize MIN input_size b ≤ 65536 := by
  have hlt := (noBlocks_lt_iff input_size b h1 hsz).mp hb
  unfold blockSize laneSize
  rw [readAfter_full MIN input_size hMIN hsz b hlt]
  unfold inBlockSizeOf
  split <;> omega

/-- In a run that returns every lane of every pass has a block, which is not
small and not empty. -/
theorem returned_lanes {W : Type} (c : Collaborators W) (N MIN : Nat) (mem : MMState W)
    (input_size fuel : Nat) (t : MMState W) (hN1 : 1 ≤ N) (hN : N < 2147483648)
    (h : lz4CompressMM c N MIN mem input_size fuel = .returned t) (m k : Nat)
    (hm : m < numBatches N input_size) (hk : k < N) :
    m * N + k < noBlocks input_size ∧ MIN ≤ blockSize MIN input_size (m * N + k) ∧
      1 ≤ blockSize MIN input_size (m * N + k) := by
  by_contra hcon
  have hz : noBlocks input_size ≤ m * N + k ∨ blockSize MIN input_size (m * N + k) < MIN ∨
      blockSize MIN input_size (m * N + k) = 0 := by omega
  have := (lz4CompressMM_stuck c N MIN mem input_size fuel hN1 hN m k hm hk hz).1
  rw [h] at this
  exact absurd this (by simp [Outcome.isReturned])

/-- In a run that returns the number of blocks is a multiple of the number of
lanes. -/
theorem returned_divides {W : Type} (c : Collaborators W) (N MIN : Nat) (mem : MMState W)
    (input_size fuel : Nat) (t : MMState W) (hN1 : 1 ≤ N) (hN : N < 2147483648)
    (h : lz4CompressMM c N MIN mem input_size fuel = .returned t) :
    numBatches N input_size * N = noBlocks input_size := by
  have hpos := numBatches_pos N input_size hN1
  have hge := not_lt_numBatches N input_size hN1
  obtain ⟨m, hm⟩ : ∃ m, numBatches N input_size = m + 1 := ⟨numBatches N input_size - 1, by omega⟩
  have h1 := (returned_lanes c N MIN mem input_size fuel t hN1 hN h m (N - 1) (by omega)
    (by omega)).1
  rw [hm, Nat.succ_mul] at hge ⊢
  omega

/-- In a run that returns every block is handled: block `b` has a size of at
least `MIN_B_SIZE` and at least 1. -/
theorem returned_blocks {W : Type} (c : Collaborators W) (N MIN : Nat) (mem : MMState W)
    (input_size fuel : Nat) (t : MMState W) (hN1 : 1 ≤ N) (hN : N < 2147483648)
    (h : lz4CompressMM c N MIN mem input_size fuel = .returned t) (b : Nat)
    (hb : b < noBlocks input_size) :
    MIN ≤ blockSize MIN input_size b ∧ 1 ≤ blockSize MIN input_size b := by
  have hN0 : 0 < N := by omega
  have hdm : b / N * N + b % N = b := by
    rw [Nat.mul_comm]; exact Nat.div_add_mod b N
  have hi : b / N * N < noBlocks input_size := by omega
  have hm := (lt_numBatches N input_size _ hN1).mpr hi
  have := returned_lanes c N MIN mem input_size fuel t hN1 hN h (b / N) (b % N) hm
    (Nat.mod_lt _ hN0)
  rw [hdm] at this
  exact this.2

/-- A run that returns on a 32-bit `input_size ≥ 1` has a `MIN_B_SIZE` of at
most 65536. -/
theorem returned_min {W : Type} (c : Collaborators W) (N MIN : Nat) (mem : MMState W)
    (input_size fuel : Nat) (t : MMState W) (hN1 : 1 ≤ N) (hN : N < 2147483648)
    (h1 : 1 ≤ input_size) (hsz : input_size < 4294967296)
    (h : lz4CompressMM c N MIN mem input_size fuel = .returned t) : MIN ≤ 65536 := by
  have hb := (returned_blocks c N MIN mem input_size fuel t hN1 hN h 0 (noBlocks_pos _)).1
  have : blockSize MIN input_size 0 ≤ 65536 := by
    unfold blockSize laneSize readAfter inBlockSizeOf
    split <;> omega
  omega

/-- The table of a run that returns: index `b` below the number of blocks
holds the size resolved for a block that is not small, and no other index is
written. -/
theorem returned_entries {W : Type} (c : Collaborators W) (N MIN : Nat) (mem : MMState W)
    (input_size fuel : Nat) (t : MMState W) (hN1 : 1 ≤ N) (hN : N < 2147483648)
    (h : lz4CompressMM c N MIN mem input_size fuel = .returned t) (b : Nat) :
    t.compressd_size b =
      if b < noBlocks input_size then
        some (if (called (hlsLz4 c N fuel) N MIN mem input_size (b / N)).max_lit_limit (b % N) ≠ 0
          then blockSize MIN input_size b
          else (called (hlsLz4 c N fuel) N MIN mem input_size (b / N)).output_block_size (b % N))
      else none := by
  obtain ⟨-, ht, -⟩ := lz4CompressMM_returned c N MIN mem input_size fuel t hN1 hN h
  rw [ht, batchStart_entries (hlsLz4 c N fuel) N MIN mem input_size hN1 hN b]
  by_cases hb : b < noBlocks input_size
  · rw [if_pos hb, if_pos hb, resolved_called (hlsLz4 c N fuel) N MIN mem input_size hN1 hN b hb]
    have := (returned_blocks c N MIN mem input_size fuel t hN1 hN h b hb).1
    rw [if_neg (by omega)]
  · rw [if_neg hb, if_neg hb]

/-- The number of passes of the loop over the batches, from the index of the
last block. -/
theorem numBatches_eq (N input_size : Nat) (hN1 : 1 ≤ N) :
    numBatches N input_size = (noBlocks input_size - 1) / N + 1 := by
  have hnp := noBlocks_pos input_size
  have hadd : noBlocks input_size + N - 1 = noBlocks input_size - 1 + N := by omega
  unfold numBatches
  rw [hadd, Nat.add_div_right _ (by omega : 0 < N)]

/-- When `lz4CompressMM` returns, the arrays `small_block` and
`input_block_size` are as the last pass has classified its lanes. -/
theorem returned_last_pass {W : Type} (c : Collaborators W) (N MIN : Nat) (mem : MMState W)
    (input_size fuel : Nat) (t : MMState W) (hN1 : 1 ≤ N) (hN : N < 2147483648)
    (h : lz4CompressMM c N MIN mem input_size fuel = .returned t) :
    t.small_block =
      (classified (hlsLz4 c N fuel) N MIN mem input_size
        (numBatches N input_size - 1)).small_block ∧
    t.input_block_size =
      (classified (hlsLz4 c N fuel) N MIN mem input_size
        (numBatches N input_size - 1)).input_block_size := by
  obtain ⟨-, ht, -⟩ := lz4CompressMM_returned c N MIN mem input_size fuel t hN1 hN h
  have hpos := numBatches_pos N input_size hN1
  have hnb := noBlocks_le input_size
  obtain ⟨m, hm⟩ : ∃ m, numBatches N input_size = m + 1 := ⟨numBatches N input_size - 1, by omega⟩
  have hi : m * N < noBlocks input_size := (lt_numBatches N input_size m hN1).mp (by omega)
  obtain ⟨hb1, -, -⟩ := batchStart_spec (hlsLz4 c N fuel) N MIN mem input_size hN1 hN m (by omega)
  obtain ⟨-, hc2⟩ := called_table (hlsLz4 c N fuel) N MIN mem input_size m
  have hn := nblocksOf_eq N (noBlocks input_size) (m * N) hi hnb hN
  have hrec := recordLanes_spec (called (hlsLz4 c N fuel) N MIN mem input_size m)
    (nblocksOf N (noBlocks input_size) (m * N)) (by rw [hc2, hb1]; omega)
  have hstep : batchStart (hlsLz4 c N fuel) N MIN mem input_size (m + 1) =
      recordLanes (nblocksOf N (noBlocks input_size) (m * N))
        (called (hlsLz4 c N fuel) N MIN mem input_size m) := rfl
  rw [ht, hm, hstep, Nat.add_sub_cancel]
  exact ⟨hrec.2.1, hrec.2.2.2.1⟩

/-- With 256 lanes or more `lz4CompressMM` never returns: the 8-bit counter of
the lane loop of `hlsLz4` stays below `NUM_BLOCK`. -/
theorem wide_never_returns {W : Type} (c : Collaborators W) (N MIN : Nat) (mem : MMState W)
    (input_size fuel : Nat) (hN256 : 256 ≤ N) (hN : N < 2147483648) :
    (lz4CompressMM c N MIN mem input_size fuel).isReturned = false := by
  cases h : lz4CompressMM c N MIN mem input_size fuel with
  | returned t =>
    have := (lz4CompressMM_returned c N MIN mem input_size fuel t (by omega) hN h).1
    omega
  | blocked s => rfl
  | running s => rfl

/-- The pass and the lane of block `b`. -/
theorem block_pass (N input_size b : Nat) (hN1 : 1 ≤ N) (hb : b < noBlocks input_size) :
    b / N < numBatches N input_size ∧ b % N < N ∧ b / N * N + b % N = b ∧ b / N * N ≤ b := by
  have hN0 : 0 < N := by omega
  have hdm : b / N * N + b % N = b := by
    rw [Nat.mul_comm]; exact Nat.div_add_mod b N
  have hi : b / N * N < noBlocks input_size := by omega
  exact ⟨(lt_numBatches N input_size _ hN1).mpr hi, Nat.mod_lt _ hN0, hdm, by omega⟩

/-! ## One lane of literal tokens -/

theorem cells_one (e : Nat → Nat) : cells 1 e = [e 0] := rfl

/-- What a call of `hlsLz4` with one lane and the collaborators `literalLanes`
hands back when it has returned. -/
theorem hlsLz4_literal_single (fuel : Nat) (inBuf : Nat → Nat) (a b sz d e : Nat → Nat)
    (h1 : 1 ≤ sz 0) (hn : sz 0 ≤ 65536) (r : (Nat → Nat) × (Nat → Nat) × (Nat → Nat))
    (hr : hlsLz4 literalLanes 1 fuel inBuf a b sz d e = .returned r) :
    r.2.2 0 = (if 4096 ≤ sz 0 then 1 else 0) ∧
    (sz 0 < 4096 → r.2.1 0 = sz 0 + 1 + (escape (sz 0)).length) := by
  unfold hlsLz4 at hr
  have hstep : ∀ s : LaneState, s.i = 0 →
      laneLoop literalLanes 1 fuel (literalLanes.mm2multStreamSize inBuf a sz) sz 256 s =
        match hlsLz4Core literalLanes 4096 fuel (literalLanes.mm2multStreamSize inBuf a sz 0)
            s.max_lit_limit (sz 0) 0 with
        | .returned r0 => .returned
          { i := 1
            max_lit_limit := r0.1.max_lit_limit
            outStream := setAt s.outStream 0 r0.2.outStream
            outStreamEos := setAt s.outStreamEos 0 r0.2.endOfStream
            compressedSize := setAt s.compressedSize 0 r0.2.compressdSizeStream }
        | .blocked _ => .blocked s
        | .running _ => .running s := by
    intro s hs
    rw [laneLoop]
    simp only [hs, Nat.lt_one_iff, if_true]
    cases hlsLz4Core literalLanes 4096 fuel (literalLanes.mm2multStreamSize inBuf a sz 0)
        s.max_lit_limit (sz 0) 0 with
    | returned r0 =>
      simp only []
      rw [laneLoop]
      simp
    | blocked r0 => rfl
    | running r0 => rfl
  rw [hstep _ rfl] at hr
  obtain ⟨hall, hlen⟩ := literalLanes_tokens (literalLanes.mm2multStreamSize inBuf a sz 0) (sz 0)
  cases hcore : hlsLz4Core literalLanes 4096 fuel (literalLanes.mm2multStreamSize inBuf a sz 0)
      (cells 1 e) (sz 0) 0 with
  | returned r0 =>
    rw [hcore] at hr
    simp only [Outcome.returned.injEq] at hr
    rw [hlsLz4Core_literalLanes] at hcore
    obtain ⟨hflag, hsize⟩ := literal_lane_returned (sz 0) fuel _ (cells 1 e) 0 hall hlen h1 hn
      r0 hcore
    rw [← hr]
    constructor
    · simp only [withCells, hflag, cells_one]
      split <;> rfl
    · intro hsmall
      simp only [literalLanes, setAt, if_true, hsize hsmall, List.headD_cons]
  | blocked r0 => rw [hcore] at hr; simp at hr
  | running r0 => rw [hcore] at hr; simp at hr

/-- The table of a run with one lane and the collaborators `literalLanes` that
returns on a 32-bit `input_size ≥ 1`: a block of 4096 bytes or more is
recorded with its size, and a shorter block with the size of one token byte,
the length extension and the literals. -/
theorem literal_single_entry (MIN : Nat) (mem : MMState (Nat → Nat)) (input_size fuel : Nat)
    (t : MMState (Nat → Nat)) (h1 : 1 ≤ input_size) (hsz : input_size < 4294967296)
    (h : lz4CompressMM literalLanes 1 MIN mem input_size fuel = .returned t) (b : Nat)
    (hb : b < noBlocks input_size) :
    t.compressd_size b =
      some (if 4096 ≤ blockSize MIN input_size b then blockSize MIN input_size b
        else blockSize MIN input_size b + 1 + (escape (blockSize MIN input_size b)).length) := by
  have hN1 : 1 ≤ 1 := Nat.le_refl _
  have hN : 1 < 2147483648 := by omega
  have hMIN := returned_min literalLanes 1 MIN mem input_size fuel t hN1 hN h1 hsz h
  obtain ⟨hB1, hB2⟩ := blockSize_bounds MIN input_size b hMIN h1 hsz hb
  obtain ⟨hB3, -⟩ := returned_blocks literalLanes 1 MIN mem input_size fuel t hN1 hN h b hb
  obtain ⟨-, -, hcalls⟩ := lz4CompressMM_returned literalLanes 1 MIN mem input_size fuel t hN1 hN h
  have hm : b / 1 < numBatches 1 input_size := by
    rw [lt_numBatches 1 input_size _ hN1]; simpa using hb
  have hcall := hcalls (b / 1) hm
  have hsize := (classified_spec (hlsLz4 literalLanes 1 fuel) 1 MIN mem input_size hN1 hN b hb).2.2
    (by omega)
  rw [returned_entries literalLanes 1 MIN mem input_size fuel t hN1 hN h b, if_pos hb]
  cases hpc : passCall (hlsLz4 literalLanes 1 fuel) 1 MIN mem input_size (b / 1) with
  | returned r =>
    have hst : (passCall (hlsLz4 literalLanes 1 fuel) 1 MIN mem input_size (b / 1)).state = r := by
      rw [hpc]; rfl
    have hmod : b % 1 = 0 := Nat.mod_one b
    rw [hmod] at hsize ⊢
    unfold passCall at hpc
    obtain ⟨hflag, hout⟩ := hlsLz4_literal_single fuel _ _ _ _ _ _ (by rw [hsize]; exact hB1)
      (by rw [hsize]; exact hB2) r hpc
    rw [hsize] at hflag hout
    have e1 : (called (hlsLz4 literalLanes 1 fuel) 1 MIN mem input_size (b / 1)).max_lit_limit 0 =
        r.2.2 0 := by
      show (passCall (hlsLz4 literalLanes 1 fuel) 1 MIN mem input_size (b / 1)).state.2.2 0 = _
      rw [hst]
    have e2 : (called (hlsLz4 literalLanes 1 fuel) 1 MIN mem input_size (b / 1)).output_block_size
        0 = r.2.1 0 := by
      show (passCall (hlsLz4 literalLanes 1 fuel) 1 MIN mem input_size (b / 1)).state.2.1 0 = _
      rw [hst]
    rw [e1, e2, hflag]
    by_cases hbig : 4096 ≤ blockSize MIN input_size b
    · simp [hbig]
    · simp [hbig, hout (by omega)]
  | blocked r => rw [hpc] at hcall; simp [Outcome.isReturned] at hcall
  | running r => rw [hpc] at hcall; simp [Outcome.isReturned] at hcall

/-! ## Lanes of literal tokens, any number of lanes -/

/-- The lane loop of `hlsLz4` with the collaborators `literalLanes`, from lane
`s.i` on, when it returns: each of these lanes has set its cell of
`max_lit_limit` to 1 for a block of 4096 bytes or more and to 0 otherwise, and
for a block of fewer than 4096 bytes its size stream holds one size; the
cells and streams of the lanes before are left alone. -/
theorem laneLoop_literal (N fuel : Nat) (inS : Nat → List Nat) (sz : Nat → Nat)
    (hN : N ≤ 255) :
    ∀ (passes : Nat) (s t : LaneState), s.i ≤ N → s.max_lit_limit.length = N →
      (∀ j, s.i ≤ j → j < N → 1 ≤ sz j ∧ sz j ≤ 65536) →
      laneLoop literalLanes N fuel inS sz passes s = .returned t →
      (∀ j, j < N → t.max_lit_limit[j]? =
        if s.i ≤ j then some (if 4096 ≤ sz j then 1 else 0) else s.max_lit_limit[j]?) ∧
      (∀ j, s.i ≤ j → j < N → sz j < 4096 →
        t.compressedSize j = [sz j + 1 + (escape (sz j)).length]) ∧
      (∀ j, j < s.i → t.compressedSize j = s.compressedSize j) := by
  intro passes
  induction passes with
  | zero =>
    intro s t hi hlen hsz h
    rw [laneLoop] at h
    by_cases hlt : s.i < N
    · rw [if_pos hlt] at h; cases h
    · rw [if_neg hlt] at h
      cases h
      refine ⟨fun j hj => by rw [if_neg (show ¬ s.i ≤ j by omega)], fun j h1 h2 => by omega,
        fun j _ => rfl⟩
  | succ p ih =>
    intro s t hi hlen hsz h
    rw [laneLoop] at h
    by_cases hlt : s.i < N
    · rw [if_pos hlt] at h
      obtain ⟨hall, htl⟩ := literalLanes_tokens (inS s.i) (sz s.i)
      cases hcore : hlsLz4Core literalLanes 4096 fuel (inS s.i) s.max_lit_limit (sz s.i) s.i with
      | returned r =>
        rw [hcore] at h
        simp only [] at h
        rw [hlsLz4Core_literalLanes] at hcore
        obtain ⟨hflag, hsize⟩ := literal_lane_returned (sz s.i) fuel _ s.max_lit_limit s.i hall htl
          (hsz s.i (Nat.le_refl _) hlt).1 (hsz s.i (Nat.le_refl _) hlt).2 r hcore
        have hmod : (s.i + 1) % 256 = s.i + 1 := Nat.mod_eq_of_lt (by omega)
        rw [hmod] at h
        obtain ⟨h1, h2, h3⟩ := ih _ t (by show s.i + 1 ≤ N; omega)
          (by show r.1.max_lit_limit.length = N; rw [hflag, List.length_set]; exact hlen)
          (fun j hj hjN => hsz j (by
            have : s.i + 1 ≤ j := hj
            omega) hjN) h
        refine ⟨fun j hj => ?_, fun j hj hjN hsmall => ?_, fun j hj => ?_⟩
        · have := h1 j hj
          simp only [] at this
          rw [this]
          by_cases hle : s.i + 1 ≤ j
          · rw [if_pos hle, if_pos (show s.i ≤ j by omega)]
          · rw [if_neg hle]
            by_cases heq : s.i = j
            · rw [if_pos (show s.i ≤ j by omega), hflag, ← heq, List.getElem?_set_self (by omega)]
            · rw [if_neg (show ¬ s.i ≤ j by omega), hflag, List.getElem?_set_ne heq]
        · by_cases heq : s.i = j
          · have := h3 j (by show j < s.i + 1; omega)
            simp only [] at this
            rw [this, ← heq, setAt_same]
            rw [← heq] at hsmall
            exact hsize hsmall
          · exact h2 j (by show s.i + 1 ≤ j; omega) hjN hsmall
        · have := h3 j (by show j < s.i + 1; omega)
          simp only [] at this
          rw [this, setAt_ne _ _ _ (by omega)]
      | blocked r => rw [hcore] at h; cases h
      | running r => rw [hcore] at h; cases h
    · rw [if_neg hlt] at h
      cases h
      refine ⟨fun j hj => by rw [if_neg (show ¬ s.i ≤ j by omega)], fun j h1 h2 => by omega,
        fun j _ => rfl⟩


/-- The list of the cells `0` to `n - 1` has `n` cells. -/
theorem cells_length (n : Nat) (a : Nat → Nat) : (cells n a).length = n := by
  simp [cells]

/-- What a call of `hlsLz4` with the collaborators `literalLanes` hands back
when it has returned, for lanes that all have a block of 1 to 65536 bytes:
the flag of a lane is 1 for a block of 4096 bytes or more and 0 otherwise, and
for a shorter block `output_size` is one token byte, the length extension and
the literals. -/
theorem hlsLz4_literal (N fuel : Nat) (inBuf : Nat → Nat) (a b sz d e : Nat → Nat)
    (hN : N ≤ 255) (hsz : ∀ j, j < N → 1 ≤ sz j ∧ sz j ≤ 65536)
    (r : (Nat → Nat) × (Nat → Nat) × (Nat → Nat))
    (hr : hlsLz4 literalLanes N fuel inBuf a b sz d e = .returned r) (j : Nat) (hj : j < N) :
    r.2.2 j = (if 4096 ≤ sz j then 1 else 0) ∧
    (sz j < 4096 → r.2.1 j = sz j + 1 + (escape (sz j)).length) := by
  unfold hlsLz4 at hr
  cases hl : laneLoop literalLanes N fuel (literalLanes.mm2multStreamSize inBuf a sz) sz 256
      { i := 0, max_lit_limit := cells N e, outStream := fun _ => [],
        outStreamEos := fun _ => [], compressedSize := fun _ => [] } with
  | returned t =>
    rw [hl] at hr
    simp only [Outcome.returned.injEq] at hr
    obtain ⟨h1, h2, -⟩ := laneLoop_literal N fuel _ sz hN 256 _ t (Nat.zero_le _)
      (cells_length N e) (fun j _ hjN => hsz j hjN) hl
    rw [← hr]
    constructor
    · have := h1 j hj
      rw [if_pos (Nat.zero_le _)] at this
      simp only [withCells, List.getD_eq_getElem?_getD, this, Option.getD_some]
    · intro hsmall
      have := h2 j (Nat.zero_le _) hj hsmall
      simp only [literalLanes, this, List.headD_cons]
  | blocked t => rw [hl] at hr; cases hr
  | running t => rw [hl] at hr; cases hr

/-- The table of a run with the collaborators `literalLanes` that returns on a
32-bit `input_size ≥ 1`, for any number of lanes: a block of 4096 bytes or
more is recorded with its size, and a shorter block with the size of one token
byte, the length extension and the literals. -/
theorem literal_entry (N MIN : Nat) (mem : MMState (Nat → Nat)) (input_size fuel : Nat)
    (t : MMState (Nat → Nat)) (hN1 : 1 ≤ N) (hN : N < 2147483648) (h1 : 1 ≤ input_size)
    (hsz : input_size < 4294967296)
    (h : lz4CompressMM literalLanes N MIN mem input_size fuel = .returned t) (b : Nat)
    (hb : b < noBlocks input_size) :
    t.compressd_size b =
      some (if 4096 ≤ blockSize MIN input_size b then blockSize MIN input_size b
        else blockSize MIN input_size b + 1 + (escape (blockSize MIN input_size b)).length) := by
  have hMIN := returned_min literalLanes N MIN mem input_size fuel t hN1 hN h1 hsz h
  obtain ⟨hN255, -, hcalls⟩ :=
    lz4CompressMM_returned literalLanes N MIN mem input_size fuel t hN1 hN h
  obtain ⟨hm, hk, hdm, -⟩ := block_pass N input_size b hN1 hb
  have hcall := hcalls (b / N) hm
  have hsizes : ∀ j, j < N →
      1 ≤ (classified (hlsLz4 literalLanes N fuel) N MIN mem input_size (b / N)).input_block_size j ∧
      (classified (hlsLz4 literalLanes N fuel) N MIN mem input_size (b / N)).input_block_size j
        ≤ 65536 := by
    intro j hj
    obtain ⟨hlt, hB3, -⟩ := returned_lanes literalLanes N MIN mem input_size fuel t hN1 hN h
      (b / N) j hm hj
    obtain ⟨hB1, hB2⟩ := blockSize_bounds MIN input_size (b / N * N + j) hMIN h1 hsz hlt
    have hs := (classified_spec (hlsLz4 literalLanes N fuel) N MIN mem input_size hN1 hN
      (b / N * N + j) hlt).2.2 (by omega)
    rw [(div_mod_of_lane N (b / N) j hj).1, (div_mod_of_lane N (b / N) j hj).2] at hs
    rw [hs]
    exact ⟨hB1, hB2⟩
  obtain ⟨hB1, hB2⟩ := blockSize_bounds MIN input_size b hMIN h1 hsz hb
  obtain ⟨hB3, -⟩ := returned_blocks literalLanes N MIN mem input_size fuel t hN1 hN h b hb
  have hsize := (classified_spec (hlsLz4 literalLanes N fuel) N MIN mem input_size hN1 hN b hb).2.2
    (by omega)
  rw [returned_entries literalLanes N MIN mem input_size fuel t hN1 hN h b, if_pos hb]
  cases hpc : passCall (hlsLz4 literalLanes N fuel) N MIN mem input_size (b / N) with
  | returned r =>
    have hst : (passCall (hlsLz4 literalLanes N fuel) N MIN mem input_size (b / N)).state = r := by
      rw [hpc]; rfl
    unfold passCall at hpc
    obtain ⟨hflag, hout⟩ := hlsLz4_literal N fuel _ _ _ _ _ _ hN255 hsizes r hpc (b % N) hk
    rw [hsize] at hflag hout
    have e1 : (called (hlsLz4 literalLanes N fuel) N MIN mem input_size (b / N)).max_lit_limit
        (b % N) = r.2.2 (b % N) := by
      show (passCall (hlsLz4 literalLanes N fuel) N MIN mem input_size (b / N)).state.2.2 (b % N)
        = _
      rw [hst]
    have e2 : (called (hlsLz4 literalLanes N fuel) N MIN mem input_size (b / N)).output_block_size
        (b % N) = r.2.1 (b % N) := by
      show (passCall (hlsLz4 literalLanes N fuel) N MIN mem input_size (b / N)).state.2.1 (b % N)
        = _
      rw [hst]
    rw [e1, e2, hflag]
    by_cases hbig : 4096 ≤ blockSize MIN input_size b
    · simp [hbig]
    · simp [hbig, hout (by omega)]
  | blocked r => rw [hpc] at hcall; simp [Outcome.isReturned] at hcall
  | running r => rw [hpc] at hcall; simp [Outcome.isReturned] at hcall

/-- With the collaborators `literalLanes`, two runs of `lz4CompressMM` on the
same input that both return, with any two numbers of lanes, leave the same
table of sizes. -/
theorem literal_tables_agree (n1 n2 MIN : Nat) (mem1 mem2 : MMState (Nat → Nat))
    (input_size fuel1 fuel2 : Nat) (t1 t2 : MMState (Nat → Nat))
    (h11 : 1 ≤ n1) (h12 : n1 < 2147483648) (h21 : 1 ≤ n2) (h22 : n2 < 2147483648)
    (h1 : 1 ≤ input_size) (hsz : input_size < 4294967296)
    (hr1 : lz4CompressMM literalLanes n1 MIN mem1 input_size fuel1 = .returned t1)
    (hr2 : lz4CompressMM literalLanes n2 MIN mem2 input_size fuel2 = .returned t2) :
    t1.compressd_size = t2.compressd_size := by
  funext b
  by_cases hb : b < noBlocks input_size
  · rw [literal_entry n1 MIN mem1 input_size fuel1 t1 h11 h12 h1 hsz hr1 b hb,
      literal_entry n2 MIN mem2 input_size fuel2 t2 h21 h22 h1 hsz hr2 b hb]
  · rw [returned_entries literalLanes n1 MIN mem1 input_size fuel1 t1 h11 h12 hr1 b, if_neg hb,
      returned_entries literalLanes n2 MIN mem2 input_size fuel2 t2 h21 h22 hr2 b, if_neg hb]


/-! ## Inputs on which the scheduler returns, inputs on which it does not -/

/-- With `MIN_B_SIZE` at most the size of the last block, no block is small
and every block has 1 to 65536 bytes. -/
theorem blocks_handled (MIN input_size : Nat) (h1 : 1 ≤ input_size)
    (hsz : input_size ≤ 4294901760)
    (hlast : MIN ≤ originalBlockSize input_size (noBlocks input_size - 1)) :
    ∀ b, b < noBlocks input_size →
      MIN ≤ blockSize MIN input_size b ∧ 1 ≤ blockSize MIN input_size b ∧
      blockSize MIN input_size b ≤ 65536 := by
  intro b hb
  have hMIN : MIN ≤ 65536 := by
    unfold originalBlockSize at hlast
    omega
  obtain ⟨hB1, hB2⟩ := blockSize_bounds MIN input_size b hMIN h1 (by omega) hb
  refine ⟨?_, hB1, hB2⟩
  rw [blockSize_original MIN input_size b hMIN h1 hsz hb]
  unfold originalBlockSize noBlocks at *
  omega

/-- The scheduler returns when the pipelines return, there are between 1 and
255 lanes, the number of blocks is a multiple of the number of lanes and the
last block has at least `MIN_B_SIZE` bytes. -/
theorem lz4CompressMM_returns_of {W : Type} (c : Collaborators W) (hc : LanesReturn c)
    (N MIN : Nat) (mem : MMState W) (input_size : Nat) (hN1 : 1 ≤ N) (hN : N ≤ 255)
    (h1 : 1 ≤ input_size) (hsz : input_size ≤ 4294901760)
    (hdiv : noBlocks input_size % N = 0)
    (hlast : MIN ≤ originalBlockSize input_size (noBlocks input_size - 1)) :
    ∃ F t, ∀ fuel, F ≤ fuel → lz4CompressMM c N MIN mem input_size fuel = .returned t :=
  lz4CompressMM_returns c hc N MIN mem input_size hN1 hN hdiv
    (blocks_handled MIN input_size h1 hsz hlast)

theorem laneStores_normal {W : Type} (s : MMState W) (k : Nat) (h : s.small_block k = false) :
    laneStores s k = [resolved s k] := by
  unfold laneStores resolved
  simp [h]

/-- C12 (size-table order).  Take a 32-bit `input_size ≥ 1`, `NUM_BLOCK ≥ 1`
and a run of `lz4CompressMM` that returns, in the state `t`.  Then the number
of blocks is `ceil(input_size / 65536)`; the table `compressd_size` is the
result of the stores `tableStores` of the passes of the loop over the
batches; and for each index `b` below the number of blocks: the call of
`hlsLz4` in pass `b / NUM_BLOCK` has returned; lane `b % NUM_BLOCK` of that
pass holds a block that is not small and reads and writes at offset
`65536 * b`; the stores to index `b` are one store, of the size resolved for
that lane after the call; and this is the value of the table at `b`.  An index
from the number of blocks on is not stored to and is not written. -/
theorem size_table_order {W : Type} (c : Collaborators W) (N MIN : Nat) (mem : MMState W)
    (input_size fuel : Nat) (t : MMState W) (hN1 : 1 ≤ N) (hN : N < 2147483648)
    (h1 : 1 ≤ input_size) (hsz : input_size < 4294967296)
    (hret : lz4CompressMM c N MIN mem input_size fuel = .returned t) :
    noBlocks input_size = (input_size + 65535) / 65536 ∧
    t.compressd_size =
      applyStores (tableStores (hlsLz4 c N fuel) N MIN mem input_size (numBatches N input_size))
        (fun _ => none) ∧
    (∀ b, b < noBlocks input_size →
      (passCall (hlsLz4 c N fuel) N MIN mem input_size (b / N)).isReturned = true ∧
      (classified (hlsLz4 c N fuel) N MIN mem input_size (b / N)).small_block (b % N) = false ∧
      (classified (hlsLz4 c N fuel) N MIN mem input_size (b / N)).input_idx (b % N)
        = 65536 * b ∧
      (classified (hlsLz4 c N fuel) N MIN mem input_size (b / N)).output_idx (b % N)
        = 65536 * b ∧
      storesAt (tableStores (hlsLz4 c N fuel) N MIN mem input_size (numBatches N input_size)) b =
        [resolved (called (hlsLz4 c N fuel) N MIN mem input_size (b / N)) (b % N)] ∧
      t.compressd_size b =
        some (resolved (called (hlsLz4 c N fuel) N MIN mem input_size (b / N)) (b % N))) ∧
    (∀ b, noBlocks input_size ≤ b →
      storesAt (tableStores (hlsLz4 c N fuel) N MIN mem input_size (numBatches N input_size)) b
        = [] ∧
      t.compressd_size b = none) := by
  obtain ⟨-, ht, hcalls⟩ := lz4CompressMM_returned c N MIN mem input_size fuel t hN1 hN hret
  obtain ⟨hs1, hs2⟩ := tableStores_spec (hlsLz4 c N fuel) N MIN mem input_size hN1 hN
    (numBatches N input_size) (Nat.le_refl _)
  have hmin : min (numBatches N input_size * N) (noBlocks input_size) = noBlocks input_size := by
    have := not_lt_numBatches N input_size hN1
    omega
  rw [hmin] at hs2
  have hent := batchStart_entries (hlsLz4 c N fuel) N MIN mem input_size hN1 hN
  refine ⟨noBlocks_eq_ceil input_size h1 hsz, by rw [ht]; exact hs1, fun b hb => ?_,
    fun b hb => ⟨by rw [hs2 b, if_neg (by omega)], by rw [ht, hent b, if_neg (by omega)]⟩⟩
  have hN0 : 0 < N := by omega
  have hdm : b / N * N + b % N = b := by
    rw [Nat.mul_comm]; exact Nat.div_add_mod b N
  have hi : b / N * N < noBlocks input_size := by omega
  have hm := (lt_numBatches N input_size _ hN1).mpr hi
  obtain ⟨hB1, -⟩ := returned_blocks c N MIN mem input_size fuel t hN1 hN hret b hb
  have hns : ¬ blockSize MIN input_size b < MIN := by omega
  obtain ⟨hc1, -, -⟩ := classified_spec (hlsLz4 c N fuel) N MIN mem input_size hN1 hN b hb
  have hsmall : (classified (hlsLz4 c N fuel) N MIN mem input_size (b / N)).small_block
      (b % N) = false := by
    rw [hc1]; simp [hns]
  obtain ⟨hi1, hi2⟩ := classified_idx (hlsLz4 c N fuel) N MIN mem input_size hN1 hN b hb hns
  refine ⟨hcalls _ hm, hsmall, hi1, hi2, ?_, by rw [ht, hent b, if_pos hb]⟩
  rw [hs2 b, if_pos hb]
  exact laneStores_normal _ _ hsmall

theorem size_table_order_witness :
    ∃ fuel t, lz4CompressMM literalLanes 8 128 zeroMem 524288 fuel = .returned t ∧
      (∀ b, b < 8 → t.compressd_size b = some 65536) ∧
      noBlocks 524288 = (524288 + 65535) / 65536 ∧
      t.compressd_size =
        applyStores (tableStores (hlsLz4 literalLanes 8 fuel) 8 128 zeroMem 524288
          (numBatches 8 524288)) (fun _ => none) ∧
      (∀ b, b < noBlocks 524288 →
        (passCall (hlsLz4 literalLanes 8 fuel) 8 128 zeroMem 524288 (b / 8)).isReturned = true ∧
        (classified (hlsLz4 literalLanes 8 fuel) 8 128 zeroMem 524288 (b / 8)).small_block
          (b % 8) = false ∧
        (classified (hlsLz4 literalLanes 8 fuel) 8 128 zeroMem 524288 (b / 8)).input_idx (b % 8)
          = 65536 * b ∧
        (classified (hlsLz4 literalLanes 8 fuel) 8 128 zeroMem 524288 (b / 8)).output_idx (b % 8)
          = 65536 * b ∧
        storesAt (tableStores (hlsLz4 literalLanes 8 fuel) 8 128 zeroMem 524288
            (numBatches 8 524288)) b =
          [resolved (called (hlsLz4 literalLanes 8 fuel) 8 128 zeroMem 524288 (b / 8)) (b % 8)] ∧
        t.compressd_size b =
          some (resolved (called (hlsLz4 literalLanes 8 fuel) 8 128 zeroMem 524288 (b / 8))
            (b % 8))) ∧
      (∀ b, noBlocks 524288 ≤ b →
        storesAt (tableStores (hlsLz4 literalLanes 8 fuel) 8 128 zeroMem 524288
          (numBatches 8 524288)) b = [] ∧
        t.compressd_size b = none) := by
  obtain ⟨F, t, h⟩ := lz4CompressMM_returns_of literalLanes literalLanes_return 8 128 zeroMem
    524288 (by decide) (by decide) (by decide) (by decide) (by decide) (by decide)
  refine ⟨F, t, h F (Nat.le_refl _), fun b hb => ?_,
    size_table_order literalLanes 8 128 zeroMem 524288 F t (by decide) (by decide) (by decide)
      (by decide) (h F (Nat.le_refl _))⟩
  have hnb : noBlocks 524288 = 8 := by decide
  have hbs : blockSize 128 524288 b = 65536 := by
    rw [blockSize_original 128 524288 b (by decide) (by decide) (by decide) (by omega)]
    unfold originalBlockSize
    omega
  rw [literal_entry 8 128 zeroMem 524288 F t (by decide) (by decide) (by decide) (by decide)
    (h F (Nat.le_refl _)) b (by omega), hbs]
  rfl

/-! ## C9, C10: size resolution, block count -/

/-- C9 (size resolution): what the code does.  Take `NUM_BLOCK ≥ 1` and an
`input_size` from 1 to `2^32 - 65536`, cut into blocks of 65536 bytes and a
last block of what is left.  A block that is small (its size is below
`MIN_B_SIZE`) hands its lane the size 0; `lz4Compress` never returns on that
lane, so the call of `hlsLz4` and `lz4CompressMM` never return, whatever the
number of passes allowed, and lines 440-448 are never reached for the block:
its entry of `compressd_size` is never written.  In a run that does return no
block is small, and the entry of each block is its size when the flag
`max_lit_limit` of its lane is not 0 after the call, and
`output_block_size` of that lane otherwise. -/
theorem size_resolution {W : Type} (c : Collaborators W) (N MIN : Nat) (mem : MMState W)
    (input_size : Nat) (hN1 : 1 ≤ N) (hN : N < 2147483648) (h1 : 1 ≤ input_size)
    (hsz : input_size ≤ 4294901760) :
    (∀ b, b < noBlocks input_size → originalBlockSize input_size b < MIN → ∀ fuel,
      (lz4CompressMM c N MIN mem input_size fuel).isReturned = false ∧
      (lz4CompressMM c N MIN mem input_size fuel).state.compressd_size b = none) ∧
    (∀ fuel t, lz4CompressMM c N MIN mem input_size fuel = .returned t →
      ∀ b, b < noBlocks input_size →
        MIN ≤ originalBlockSize input_size b ∧
        t.compressd_size b =
          some (if (called (hlsLz4 c N fuel) N MIN mem input_size (b / N)).max_lit_limit (b % N)
              ≠ 0 then originalBlockSize input_size b
            else (called (hlsLz4 c N fuel) N MIN mem input_size (b / N)).output_block_size
              (b % N))) := by
  constructor
  · intro b hb hsmall fuel
    obtain ⟨hm, hk, hdm, hle⟩ := block_pass N input_size b hN1 hb
    have hz : blockSize MIN input_size b < MIN := by
      by_cases hMIN : MIN ≤ 65536
      · rw [blockSize_original MIN input_size b hMIN h1 hsz hb]; exact hsmall
      · exact (blockSize_all_small MIN input_size (by omega) (by omega) b).2
    obtain ⟨hr, htab⟩ := lz4CompressMM_stuck c N MIN mem input_size fuel hN1 hN (b / N) (b % N)
      hm hk (by rw [hdm]; exact Or.inr (Or.inl hz))
    exact ⟨hr, htab b hle⟩
  · intro fuel t hret b hb
    have hMIN := returned_min c N MIN mem input_size fuel t hN1 hN h1 (by omega) hret
    obtain ⟨hB, -⟩ := returned_blocks c N MIN mem input_size fuel t hN1 hN hret b hb
    have he := blockSize_original MIN input_size b hMIN h1 hsz hb
    rw [he] at hB
    refine ⟨hB, ?_⟩
    rw [returned_entries c N MIN mem input_size fuel t hN1 hN hret b, if_pos hb, he]

theorem size_resolution_witness :
    (∀ fuel, (lz4CompressMM literalLanes 8 128 zeroMem 1 fuel).isReturned = false ∧
      (lz4CompressMM literalLanes 8 128 zeroMem 1 fuel).state.compressd_size 0 = none) ∧
    ∃ fuel t, lz4CompressMM literalLanes 1 128 zeroMem 200 fuel = .returned t ∧
      128 ≤ originalBlockSize 200 0 ∧
      t.compressd_size 0 =
        some (if (called (hlsLz4 literalLanes 1 fuel) 1 128 zeroMem 200 (0 / 1)).max_lit_limit
            (0 % 1) ≠ 0 then originalBlockSize 200 0
          else (called (hlsLz4 literalLanes 1 fuel) 1 128 zeroMem 200 (0 / 1)).output_block_size
            (0 % 1)) := by
  refine ⟨(size_resolution literalLanes 8 128 zeroMem 1 (by decide) (by decide) (by decide)
    (by decide)).1 0 (by decide) (by decide), ?_⟩
  obtain ⟨F, t, h⟩ := lz4CompressMM_returns_of literalLanes literalLanes_return 1 128 zeroMem
    200 (by decide) (by decide) (by decide) (by decide) (by decide) (by decide)
  exact ⟨F, t, h F (Nat.le_refl _),
    (size_resolution literalLanes 1 128 zeroMem 200 (by decide) (by decide) (by decide)
      (by decide)).2 F t (h F (Nat.le_refl _)) 0 (by decide)⟩

/-- C10 (block count): what the code does.  For a 32-bit `input_size ≥ 1`,
`no_blocks` is `ceil(input_size / 65536)`, and a run of `lz4CompressMM` that
returns has written exactly the entries below that number.  But when the
number of blocks is not a multiple of `NUM_BLOCK`, the last batch leaves
lanes without a block; they get the size 0, on which `lz4Compress` never
returns: `lz4CompressMM` never returns, whatever the number of passes
allowed, and the entries of the last batch are never written, so fewer than
`ceil(input_size / 65536)` entries are.  At `input_size = 0` the 32-bit
`input_size - 1` wraps and `no_blocks` is 65536; the first lane gets the size
0, `lz4CompressMM` never returns and no entry is written. -/
theorem block_count {W : Type} (c : Collaborators W) (N MIN : Nat) (mem : MMState W)
    (input_size : Nat) (hN1 : 1 ≤ N) (hN : N < 2147483648) (h1 : 1 ≤ input_size)
    (hsz : input_size < 4294967296) :
    noBlocks input_size = (input_size + 65535) / 65536 ∧
    (∀ fuel t, lz4CompressMM c N MIN mem input_size fuel = .returned t →
      ∀ b, (t.compressd_size b).isSome = decide (b < noBlocks input_size)) ∧
    (noBlocks input_size % N ≠ 0 → ∀ fuel,
      (lz4CompressMM c N MIN mem input_size fuel).isReturned = false ∧
      ∀ x, noBlocks input_size / N * N ≤ x →
        (lz4CompressMM c N MIN mem input_size fuel).state.compressd_size x = none) ∧
    noBlocks 0 = 65536 ∧
    (∀ fuel, (lz4CompressMM c N MIN mem 0 fuel).isReturned = false ∧
      ∀ x, (lz4CompressMM c N MIN mem 0 fuel).state.compressd_size x = none) := by
  refine ⟨noBlocks_eq_ceil input_size h1 hsz, fun fuel t hret b => ?_, fun hnd fuel => ?_,
    by decide, fun fuel => ?_⟩
  · rw [returned_entries c N MIN mem input_size fuel t hN1 hN hret b]
    by_cases hb : b < noBlocks input_size <;> simp [hb]
  · have hN0 : 0 < N := by omega
    have hdm : noBlocks input_size / N * N + noBlocks input_size % N = noBlocks input_size := by
      rw [Nat.mul_comm]; exact Nat.div_add_mod _ N
    have hi : noBlocks input_size / N * N < noBlocks input_size := by omega
    exact lz4CompressMM_stuck c N MIN mem input_size fuel hN1 hN (noBlocks input_size / N)
      (noBlocks input_size % N) ((lt_numBatches N input_size _ hN1).mpr hi) (Nat.mod_lt _ hN0)
      (by rw [hdm]; exact Or.inl (Nat.le_refl _))
  · have hz : blockSize MIN 0 0 = 0 := by
      show inBlockSizeOf 0 0 = 0
      decide
    obtain ⟨hr, htab⟩ := lz4CompressMM_stuck c N MIN mem 0 fuel hN1 hN 0 0
      (numBatches_pos N 0 hN1) (by omega) (by
        rw [Nat.zero_mul, Nat.zero_add]; exact Or.inr (Or.inr hz))
    exact ⟨hr, fun x => htab x (by omega)⟩

theorem block_count_witness :
    noBlocks 65536 = (65536 + 65535) / 65536 ∧
    (∀ fuel, (lz4CompressMM literalLanes 8 128 zeroMem 65536 fuel).isReturned = false ∧
      ∀ x, (lz4CompressMM literalLanes 8 128 zeroMem 65536 fuel).state.compressd_size x
        = none) ∧
    ∃ fuel t, lz4CompressMM literalLanes 1 128 zeroMem 65536 fuel = .returned t ∧
      ∀ b, (t.compressd_size b).isSome = decide (b < noBlocks 65536) := by
  have h := block_count literalLanes 8 128 zeroMem 65536 (by decide) (by decide) (by decide)
    (by decide)
  refine ⟨h.1, fun fuel => ?_, ?_⟩
  · obtain ⟨hr, htab⟩ := h.2.2.1 (by decide) fuel
    exact ⟨hr, fun x => htab x (by
      have : noBlocks 65536 / 8 * 8 = 0 := by decide
      omega)⟩
  · obtain ⟨F, t, ht⟩ := lz4CompressMM_returns_of literalLanes literalLanes_return 1 128 zeroMem
      65536 (by decide) (by decide) (by decide) (by decide) (by decide) (by decide)
    exact ⟨F, t, ht F (Nat.le_refl _),
      (block_count literalLanes 1 128 zeroMem 65536 (by decide) (by decide) (by decide)
        (by decide)).2.1 F t (ht F (Nat.le_refl _))⟩

/-! ## One block and several lanes -/

theorem noBlocks_one (input_size : Nat) (h1 : 1 ≤ input_size) (hsz : input_size ≤ 65536) :
    noBlocks input_size = 1 := by
  unfold noBlocks; omega

/-- An input of one block on two lanes or more: the second lane has no block
and gets the size 0, so the scheduler never returns and writes no entry. -/
theorem one_block_lanes {W : Type} (c : Collaborators W) (N MIN : Nat) (mem : MMState W)
    (input_size fuel : Nat) (h1 : 1 ≤ input_size) (hsz : input_size ≤ 65536) (hN2 : 2 ≤ N)
    (hN : N < 2147483648) :
    (lz4CompressMM c N MIN mem input_size fuel).isReturned = false ∧
    ∀ x, (lz4CompressMM c N MIN mem input_size fuel).state.compressd_size x = none := by
  have hnb := noBlocks_one input_size h1 hsz
  obtain ⟨hr, htab⟩ := lz4CompressMM_stuck c N MIN mem input_size fuel (by omega) hN 0 1
    (numBatches_pos N input_size (by omega)) (by omega) (by
      rw [Nat.zero_mul, Nat.zero_add, hnb]; exact Or.inl (Nat.le_refl _))
  exact ⟨hr, fun x => htab x (by omega)⟩

/-- An input of one block of at least `MIN_B_SIZE` bytes on one lane whose
pipeline returns: the scheduler returns. -/
theorem one_block_one_lane {W : Type} (c : Collaborators W) (hc : LanesReturn c) (MIN : Nat)
    (mem : MMState W) (input_size : Nat) (h1 : 1 ≤ input_size) (hMIN : MIN ≤ input_size)
    (hsz : input_size ≤ 65536) :
    ∃ F t, ∀ fuel, F ≤ fuel → lz4CompressMM c 1 MIN mem input_size fuel = .returned t := by
  have hnb := noBlocks_one input_size h1 hsz
  exact lz4CompressMM_returns_of c hc 1 MIN mem input_size (Nat.le_refl _) (by omega) h1
    (by omega) (Nat.mod_one _) (by rw [hnb]; unfold originalBlockSize; omega)

/-- The entry of the one block of an input of at most 65536 bytes, on one lane
with the collaborators `literalLanes`. -/
theorem one_block_entry (MIN : Nat) (mem : MMState (Nat → Nat)) (input_size fuel : Nat)
    (t : MMState (Nat → Nat)) (h1 : 1 ≤ input_size) (hsz : input_size ≤ 65536)
    (h : lz4CompressMM literalLanes 1 MIN mem input_size fuel = .returned t) :
    t.compressd_size 0 =
      some (if 4096 ≤ input_size then input_size
        else input_size + 1 + (escape input_size).length) ∧
    ∀ x, 1 ≤ x → t.compressd_size x = none := by
  have hnb := noBlocks_one input_size h1 hsz
  have hMIN := returned_min literalLanes 1 MIN mem input_size fuel t (Nat.le_refl _) (by omega)
    h1 (by omega) h
  have hbs : blockSize MIN input_size 0 = input_size := by
    rw [blockSize_original MIN input_size 0 hMIN h1 (by omega) (by omega)]
    unfold originalBlockSize; omega
  constructor
  · rw [literal_single_entry MIN mem input_size fuel t h1 (by omega) h 0 (by omega), hbs]
  · intro x hx
    rw [returned_entries literalLanes 1 MIN mem input_size fuel t (Nat.le_refl _) (by omega) h x,
      if_neg (by omega)]

/-! ## C13: the number of lanes -/

/-- C13 (lane-count invariance): what the code does.  Take collaborators whose
pipelines return and an input of one block, of 1 to 65536 bytes and at least
`MIN_B_SIZE` bytes.  With one lane `lz4CompressMM` returns, once the encoder
has enough passes, with entry 0 of `compressd_size` written.  With two lanes
or more (8 for one) the lanes after the first have no block and get the size
0, on which `lz4Compress` never returns: `lz4CompressMM` never returns,
whatever the number of passes allowed, and no entry of the table is written.
So the two lane counts do not give the same table.  And with 256 lanes or
more `lz4CompressMM` returns on no input at all, because the 8-bit counter of
the lane loop of `hlsLz4` never reaches `NUM_BLOCK`.  Where two lane counts
both give a run that returns, the tables agree: with the collaborators
`literalLanes`, two runs on the same input that return leave the same
`compressd_size`, whatever their numbers of lanes. -/
theorem lane_count_invariance {W : Type} (c : Collaborators W) (hc : LanesReturn c) (MIN : Nat)
    (mem : MMState W) (input_size : Nat) (h1 : 1 ≤ input_size) (hMIN : MIN ≤ input_size)
    (hsz : input_size ≤ 65536) :
    (∃ F t, ∀ fuel, F ≤ fuel →
      lz4CompressMM c 1 MIN mem input_size fuel = .returned t ∧
      (t.compressd_size 0).isSome = true) ∧
    (∀ n2, 2 ≤ n2 → n2 < 2147483648 → ∀ fuel,
      (lz4CompressMM c n2 MIN mem input_size fuel).isReturned = false ∧
      ∀ x, (lz4CompressMM c n2 MIN mem input_size fuel).state.compressd_size x = none) ∧
    (∀ n2, 256 ≤ n2 → n2 < 2147483648 → ∀ any_size fuel,
      (lz4CompressMM c n2 MIN mem any_size fuel).isReturned = false) ∧
    (∀ n1 n2 any_size fuel1 fuel2 (mem1 mem2 t1 t2 : MMState (Nat → Nat)),
      1 ≤ n1 → n1 < 2147483648 → 1 ≤ n2 → n2 < 2147483648 →
      1 ≤ any_size → any_size < 4294967296 →
      lz4CompressMM literalLanes n1 MIN mem1 any_size fuel1 = .returned t1 →
      lz4CompressMM literalLanes n2 MIN mem2 any_size fuel2 = .returned t2 →
      t1.compressd_size = t2.compressd_size) := by
  refine ⟨?_, ?_, fun n2 h256 hn any_size fuel =>
    wide_never_returns c n2 MIN mem any_size fuel h256 hn,
    fun n1 n2 any_size fuel1 fuel2 mem1 mem2 t1 t2 h11 h12 h21 h22 ha1 ha2 hr1 hr2 =>
      literal_tables_agree n1 n2 MIN mem1 mem2 any_size fuel1 fuel2 t1 t2 h11 h12 h21 h22 ha1 ha2
        hr1 hr2⟩
  · obtain ⟨F, t, h⟩ := one_block_one_lane c hc MIN mem input_size h1 hMIN hsz
    refine ⟨F, t, fun fuel hf => ⟨h fuel hf, ?_⟩⟩
    rw [returned_entries c 1 MIN mem input_size fuel t (Nat.le_refl _) (by omega) (h fuel hf) 0,
      if_pos (show 0 < noBlocks input_size from noBlocks_pos _)]
    rfl
  · intro n2 h2 hn fuel
    exact one_block_lanes c n2 MIN mem input_size fuel h1 hsz h2 hn

theorem lane_count_invariance_witness :
    (∃ F t, ∀ fuel, F ≤ fuel →
      lz4CompressMM literalLanes 1 128 zeroMem 200 fuel = .returned t ∧
      (t.compressd_size 0).isSome = true ∧ t.compressd_size 0 = some 202) ∧
    (∀ fuel, (lz4CompressMM literalLanes 8 128 zeroMem 200 fuel).isReturned = false ∧
      ∀ x, (lz4CompressMM literalLanes 8 128 zeroMem 200 fuel).state.compressd_size x = none) ∧
    (∀ fuel, (lz4CompressMM literalLanes 256 128 zeroMem 16777216 fuel).isReturned = false) ∧
    (∃ fuel1 fuel2 t1 t2,
      lz4CompressMM literalLanes 1 128 zeroMem 524288 fuel1 = .returned t1 ∧
      lz4CompressMM literalLanes 8 128 zeroMem 524288 fuel2 = .returned t2 ∧
      t1.compressd_size = t2.compressd_size) := by
  have h := lane_count_invariance literalLanes literalLanes_return 128 zeroMem 200 (by decide)
    (by decide) (by decide)
  obtain ⟨F, t, ht⟩ := h.1
  obtain ⟨F1, t1, ht1⟩ := lz4CompressMM_returns_of literalLanes literalLanes_return 1 128 zeroMem
    524288 (by decide) (by decide) (by decide) (by decide) (by decide) (by decide)
  obtain ⟨F2, t2, ht2⟩ := lz4CompressMM_returns_of literalLanes literalLanes_return 8 128 zeroMem
    524288 (by decide) (by decide) (by decide) (by decide) (by decide) (by decide)
  refine ⟨⟨F, t, fun fuel hf => ⟨(ht fuel hf).1, (ht fuel hf).2, ?_⟩⟩,
    fun fuel => h.2.1 8 (by decide) (by decide) fuel,
    fun fuel => h.2.2.1 256 (by decide) (by decide) 16777216 fuel,
    F1, F2, t1, t2, ht1 F1 (Nat.le_refl _), ht2 F2 (Nat.le_refl _),
    h.2.2.2 1 8 524288 F1 F2 zeroMem zeroMem t1 t2 (by decide) (by decide) (by decide)
      (by decide) (by decide) (by decide) (ht1 F1 (Nat.le_refl _)) (ht2 F2 (Nat.le_refl _))⟩
  rw [(one_block_entry 128 zeroMem 200 fuel t (by decide) (by decide) (ht fuel hf).1).1]
  decide

/-! ## C15: no configuration check -/

/-- C8 (overflow fallback): what the code does.  Take `M = MAX_LIT_COUNT` from
1 to 65536 and `MIN_B_SIZE ≤ M`.  On a block of exactly `M` literal tokens and
no match token the divider `lz4CompressPart1<M>` returns with
`max_lit_limit[index] = 1`, as the claim says.  But the lanes of
`lz4CompressMM` do not run that divider: `MAX_LIT_CNT` is not passed on in the
calls of lines 436 and 365, and the lanes run `lz4Compress<4096>`.  With one
lane, the collaborators `literalLanes` and an input of `M` bytes, which is one
block of `M` literal tokens like `toks`, `lz4CompressMM` returns once the
encoder has enough passes, and entry 0 of `compressd_size` is the block size
`M` only for `M ≥ 4096`; for `M < 4096` no flag is raised and the entry is the
size the encoder reported, `M + 1` and the bytes of the length extension.  With two
lanes or more, 8 for one, the lanes without a block get the size 0 and
`lz4CompressMM` never returns: no entry is written. -/
theorem overflow_fallback (M MIN : Nat) (mem : MMState (Nat → Nat)) (toks ml : List Nat)
    (idx : Nat) (hall : ∀ v ∈ toks, tLen v = 0) (hlen : toks.length = M) (hM1 : 1 ≤ M)
    (hM : M ≤ 65536) (hMIN : MIN ≤ M) :
    (∃ s1, lz4CompressPart1 M toks M ml idx = .returned s1 ∧
      s1.max_lit_limit = ml.set idx 1) ∧
    (∃ F t, ∀ fuel, F ≤ fuel →
      lz4CompressMM literalLanes 1 MIN mem M fuel = .returned t ∧
      t.compressd_size 0 = some (if 4096 ≤ M then M else M + 1 + (escape M).length)) ∧
    (∀ N, 2 ≤ N → N < 2147483648 → ∀ fuel,
      (lz4CompressMM literalLanes N MIN mem M fuel).isReturned = false ∧
      ∀ x, (lz4CompressMM literalLanes N MIN mem M fuel).state.compressd_size x = none) := by
  refine ⟨?_, ?_, fun N h2 hN fuel =>
    one_block_lanes literalLanes N MIN mem M fuel hM1 hM h2 hN⟩
  · have hne : toks ≠ [] := by
      intro h; rw [h] at hlen; simp at hlen; omega
    have hcov : (toks.map advance).sum = M := by
      rw [sum_advance_literals toks hall, hlen]
    have hlast : advance (toks.getLast hne) = 1 ∨ ([] : List Nat) ≠ [] :=
      Or.inl (advance_of_literal (hall _ (List.getLast_mem hne)))
    obtain ⟨s1, hs1, hw⟩ := part1_returned M M toks [] ml idx hne hcov (by omega) hlast
    rw [List.append_nil] at hs1
    refine ⟨s1, hs1, ?_⟩
    simp only [Part1State.written, Prod.mk.injEq] at hw
    have hflag := divided_flag M idx toks (part1Init [] ml) (Nat.zero_le _) (Or.inl hne)
    have hrun : longestRun 0 toks = M := by
      rw [longestRun_literals toks hall 0, hlen]; omega
    rw [hw.2.2.1, divided, divideEpilogue_max_lit_limit, divideTokens_max_lit_limit, hflag]
    simp [part1Init, hrun]
  · obtain ⟨F, t, h⟩ := one_block_one_lane literalLanes literalLanes_return MIN mem M hM1 hMIN hM
    exact ⟨F, t, fun fuel hf =>
      ⟨h fuel hf, (one_block_entry MIN mem M fuel t hM1 hM (h fuel hf)).1⟩⟩

theorem overflow_fallback_witness :
    (∃ s1, lz4CompressPart1 2 [97, 98] 2 [0] 0 = .returned s1 ∧
      s1.max_lit_limit = ([0] : List Nat).set 0 1) ∧
    (∃ F t, ∀ fuel, F ≤ fuel →
      lz4CompressMM literalLanes 1 2 zeroMem 2 fuel = .returned t ∧
      t.compressd_size 0 = some 3) ∧
    (∀ fuel, (lz4CompressMM literalLanes 8 2 zeroMem 2 fuel).isReturned = false ∧
      ∀ x, (lz4CompressMM literalLanes 8 2 zeroMem 2 fuel).state.compressd_size x = none) := by
  obtain ⟨h1, ⟨F, t, h2⟩, h3⟩ := overflow_fallback 2 2 zeroMem [97, 98] [0] 0 (by decide)
    (by decide) (by decide) (by decide) (by decide)
  exact ⟨h1, ⟨F, t, fun fuel hf => ⟨(h2 fuel hf).1, by rw [(h2 fuel hf).2]; decide⟩⟩,
    fun fuel => h3 8 (by decide) (by decide) fuel⟩

/-! ## C11: the sizes of the blocks -/

/-- Beyond `2^32 - 65536` every one of the 65536 blocks gets the size
65536. -/
theorem blockSize_wrap_all (MIN input_size b : Nat) (hMIN : MIN ≤ 65536)
    (hlo : 4294901760 < input_size) (hsz : input_size < 4294967296) (hb : b < 65536) :
    blockSize MIN input_size b = 65536 := by
  unfold blockSize laneSize
  rw [readAfter_full MIN input_size hMIN hsz b (by omega)]
  unfold inBlockSizeOf
  split <;> omega

/-- C11 (partition sizes): the code on the inputs above `2^32 - 65536`.  There
are 65536 blocks, and when the last one is sized `readBlockSize +
block_length` is `2^32`, which wraps to 0 in 32 bits, so that the test
`readBlockSize + block_length > input_size` fails: the block is classified as
a normal block of 65536 bytes although fewer than 65536 bytes are left.  In a
run of `lz4CompressMM` that returns, the arrays still say so on return
(`small_block = 0`, `input_block_size = 65536` for the lane of the last
block), and the table records 65536 as the size of that block if its lane has
raised the overflow flag.  And `lz4CompressMM` does return, once the encoders
have enough passes, when the pipelines return and the number of lanes is at
most 255 and divides 65536. -/
theorem partition_sizes_wrap {W : Type} (c : Collaborators W) (N : Nat) (mem : MMState W)
    (input_size fuel : Nat) (hN1 : 1 ≤ N) (hN : N < 2147483648)
    (hlo : 4294901760 < input_size) (hsz : input_size < 4294967296) :
    noBlocks input_size = 65536 ∧
    (classified (hlsLz4 c N fuel) N 128 mem input_size (65535 / N)).small_block (65535 % N)
      = false ∧
    (classified (hlsLz4 c N fuel) N 128 mem input_size (65535 / N)).input_block_size (65535 % N)
      = 65536 ∧
    input_size - 65536 * 65535 < 65536 ∧
    (∀ t, lz4CompressMM c N 128 mem input_size fuel = .returned t →
      t.small_block (65535 % N) = false ∧ t.input_block_size (65535 % N) = 65536 ∧
      ((called (hlsLz4 c N fuel) N 128 mem input_size (65535 / N)).max_lit_limit (65535 % N) ≠ 0 →
        t.compressd_size 65535 = some 65536)) ∧
    (LanesReturn c → N ≤ 255 → 65536 % N = 0 →
      ∃ F t, ∀ fuel2, F ≤ fuel2 →
        lz4CompressMM c N 128 mem input_size fuel2 = .returned t ∧
        t.small_block (65535 % N) = false ∧ t.input_block_size (65535 % N) = 65536 ∧
        ((called (hlsLz4 c N fuel2) N 128 mem input_size (65535 / N)).max_lit_limit (65535 % N)
            ≠ 0 →
          t.compressd_size 65535 = some 65536)) := by
  obtain ⟨hn, hbs, hrem⟩ := blockSize_wrap 128 input_size (by omega) hlo hsz
  have hb : 65535 < noBlocks input_size := by omega
  have key : ∀ f t, lz4CompressMM c N 128 mem input_size f = .returned t →
      t.small_block (65535 % N) = false ∧ t.input_block_size (65535 % N) = 65536 ∧
      ((called (hlsLz4 c N f) N 128 mem input_size (65535 / N)).max_lit_limit (65535 % N) ≠ 0 →
        t.compressd_size 65535 = some 65536) := by
    intro f t hret
    obtain ⟨h1, -, h3⟩ := classified_spec (hlsLz4 c N f) N 128 mem input_size hN1 hN 65535 hb
    rw [hbs] at h1 h3
    obtain ⟨hl1, hl2⟩ := returned_last_pass c N 128 mem input_size f t hN1 hN hret
    rw [numBatches_eq N input_size hN1, Nat.add_sub_cancel, hn] at hl1 hl2
    refine ⟨by rw [hl1]; exact (by rw [h1]; decide), by rw [hl2]; exact h3 (by omega),
      fun hflag => ?_⟩
    rw [returned_entries c N 128 mem input_size f t hN1 hN hret 65535, if_pos hb,
      if_pos hflag, hbs]
  obtain ⟨h1, -, h3⟩ := classified_spec (hlsLz4 c N fuel) N 128 mem input_size hN1 hN 65535 hb
  rw [hbs] at h1 h3
  refine ⟨hn, by rw [h1]; decide, h3 (by omega), hrem, key fuel, fun hc hN255 hdiv => ?_⟩
  obtain ⟨F, t, ht⟩ := lz4CompressMM_returns c hc N 128 mem input_size hN1 hN255
    (by rw [hn]; exact hdiv) (fun b hb2 => by
      rw [blockSize_wrap_all 128 input_size b (by omega) hlo hsz (by omega)]
      omega)
  exact ⟨F, t, fun fuel2 hf => ⟨ht fuel2 hf, key fuel2 t (ht fuel2 hf)⟩⟩

theorem partition_sizes_wrap_witness :
    noBlocks 4294967295 = 65536 ∧
    (classified (hlsLz4 literalLanes 8 0) 8 128 zeroMem 4294967295 (65535 / 8)).small_block
      (65535 % 8) = false ∧
    (classified (hlsLz4 literalLanes 8 0) 8 128 zeroMem 4294967295 (65535 / 8)).input_block_size
      (65535 % 8) = 65536 ∧
    4294967295 - 65536 * 65535 < 65536 ∧
    ∃ F t, ∀ fuel2, F ≤ fuel2 →
      lz4CompressMM literalLanes 8 128 zeroMem 4294967295 fuel2 = .returned t ∧
      t.small_block 7 = false ∧ t.input_block_size 7 = 65536 ∧
      t.compressd_size 65535 = some 65536 := by
  obtain ⟨h1, h2, h3, h4, -, h6⟩ := partition_sizes_wrap literalLanes 8 zeroMem 4294967295 0
    (by decide) (by decide) (by decide) (by decide)
  obtain ⟨F, t, ht⟩ := h6 literalLanes_return (by decide) (by decide)
  refine ⟨h1, h2, h3, h4, F, t, fun fuel2 hf =>
    ⟨(ht fuel2 hf).1, (ht fuel2 hf).2.1, (ht fuel2 hf).2.2.1, ?_⟩⟩
  rw [literal_entry 8 128 zeroMem 4294967295 fuel2 t (by decide) (by decide) (by decide)
    (by decide) (ht fuel2 hf).1 65535 (by rw [h1]; decide),
    blockSize_wrap_all 128 4294967295 65535 (by decide) (by decide) (by decide) (by decide)]
  decide

end Lz4Hls
